import Mathlib

/-!
# hperrone/file_transfer: a shallow embedding and its verified properties

Bytes are natural numbers below 256, byte buffers and files are lists of
bytes, and the fixed-width integers of the C++ source (`uint16_t`,
`uint32_t`, `size_t`, `int`) are natural numbers reduced modulo the width
wherever the source can wrap.  Each definition names the source function it
follows.
-/

namespace ft

/-! ## `protocol/ft_msg.hpp`: constants and the message record -/

namespace proto

/-- Constant `MAX_MSG_SIZE` of `ft_msg.hpp`. -/
def MAX_MSG_SIZE : Nat := 4096

/-- Constant `MAX_MSG_PAYLOAD_SIZE = MAX_MSG_SIZE - 128U`. -/
def MAX_MSG_PAYLOAD_SIZE : Nat := MAX_MSG_SIZE - 128

/-- Constant `HASH_SIZE`: length of the whole-file digest. -/
def HASH_SIZE : Nat := 64

/-- Constant `CHUNK_HASH_SIZE`: length of the chunk digest. -/
def CHUNK_HASH_SIZE : Nat := 32

/-- Constant `MAGIC`, the tag of every message start. -/
def MAGIC : Nat := 0x87FE7700

/-- Enumerator `MSGTYPE_FILE_OFFER = MAGIC | 0x01`. -/
def MSGTYPE_FILE_OFFER : Nat := MAGIC ||| 0x01

/-- Enumerator `MSGTYPE_FILE_CHUNK_REQ = MAGIC | 0x02`. -/
def MSGTYPE_FILE_CHUNK_REQ : Nat := MAGIC ||| 0x02

/-- Enumerator `MSGTYPE_FILE_CHUNK_DATA = MAGIC | 0x03`. -/
def MSGTYPE_FILE_CHUNK_DATA : Nat := MAGIC ||| 0x03

/-- Enumerator `MSGTYPE_FILE_COMPLETE = MAGIC | 0x04`. -/
def MSGTYPE_FILE_COMPLETE : Nat := MAGIC ||| 0x04

/-- Enumerator `MSGTYPE_MAX`, one more than the last message type. -/
def MSGTYPE_MAX : Nat := MSGTYPE_FILE_COMPLETE + 1

/-- The value of `UINT8_MAX`. -/
def UINT8_MAX : Nat := 255

/-- The value of `UINT16_MAX`. -/
def UINT16_MAX : Nat := 65535

/-- The value of `UINT64_MAX`, the "no chunk" sentinel. -/
def UINT64_MAX : Nat := 2 ^ 64 - 1

/-- Fields of a FILE OFFER message (member `Message::offer`). -/
structure Offer where
  file_size : Nat := 0
  file_n_chunks : Nat := 0
  file_hash : List Nat := []
  deriving DecidableEq, Repr

/-- Fields of a FILE CHUNK REQUEST message (member `Message::chunk_req`). -/
structure ChunkReq where
  chunk_idx_first : Nat := 0
  chunk_idx_last : Nat := 0
  deriving DecidableEq, Repr

/-- Fields of a FILE CHUNK DATA message (member `Message::chunk_data`). -/
structure ChunkData where
  idx : Nat := 0
  data : List Nat := []
  hash : List Nat := []
  deriving DecidableEq, Repr

/-- Class `Message`.  As in the source every message carries the fields of all
variants; the scalar fields a constructor leaves unset are 0 here and the
vectors it leaves unset are empty. -/
structure Message where
  msg_type : Nat := 0
  msg_len : Nat := 0
  seq_number : Nat := 0
  client_uuid : List Nat := []
  file_name : List Nat := []
  offer : Offer := {}
  chunk_req : ChunkReq := {}
  chunk_data : ChunkData := {}
  deriving DecidableEq, Repr

/-- Ways in which the codec stops without a result.  The first three are the
exceptions thrown in `ft_msg.cpp`; `outOfRange` marks an iterator moved past
the end of its vector, which the source does not check (there it is
undefined behaviour, not an exception). -/
inductive CodecError where
  | notSupportedMsgType
  | invalidChunkLength
  | invalidMessageType
  | outOfRange
  deriving DecidableEq, Repr

/-! ## `protocol/ft_msg.cpp`: the codec -/

/-- Function `putU32`: the four bytes of `val`, most significant first. -/
def putU32 (val : Nat) : List Nat :=
  [(val >>> 24) &&& 0xff, (val >>> 16) &&& 0xff, (val >>> 8) &&& 0xff, val &&& 0xff]

/-- Function `putU16`: the two bytes of `val`, most significant first. -/
def putU16 (val : Nat) : List Nat :=
  [(val >>> 8) &&& 0xff, val &&& 0xff]

/-- Function `getU32`: reads four bytes at the iterator and advances it. -/
def getU32 (it : List Nat) : Except CodecError (Nat × List Nat) :=
  match it with
  | b0 :: b1 :: b2 :: b3 :: rest =>
    .ok ((((b0 <<< 24) &&& 0xff000000) ||| ((b1 <<< 16) &&& 0x00ff0000) |||
          ((b2 <<< 8) &&& 0x0000ff00) ||| (b3 &&& 0x000000ff)), rest)
  | _ => .error .outOfRange

/-- Function `getU16`: reads two bytes at the iterator and advances it. -/
def getU16 (it : List Nat) : Except CodecError (Nat × List Nat) :=
  match it with
  | b0 :: b1 :: rest => .ok ((((b0 <<< 8) &&& 0xff00) ||| (b1 &&& 0x00ff)), rest)
  | _ => .error .outOfRange

/-- The statement pair `x = *it; it++`. -/
def getU8 (it : List Nat) : Except CodecError (Nat × List Nat) :=
  match it with
  | b :: rest => .ok (b, rest)
  | [] => .error .outOfRange

/-- The calls `std::copy_n(it, n, ...)` followed by `std::advance(it, n)`. -/
def copyN (it : List Nat) (n : Nat) : Except CodecError (List Nat × List Nat) :=
  if n ≤ it.length then .ok (it.take n, it.drop n) else .error .outOfRange

/-- Constructor `Message::Message(const std::vector<uint8_t>& buf)`. -/
def Message.parse (buf : List Nat) : Except CodecError Message := do
  let (msg_type, it) ← getU32 buf
  let (msg_len, it) ← getU16 it
  let (seq_number, it) ← getU16 it
  let (client_uuid, it) ← copyN it 16
  let (file_name_len, it) ← getU8 it
  let (file_name, it) ← copyN it file_name_len
  let msg : Message :=
    { msg_type := msg_type, msg_len := msg_len, seq_number := seq_number,
      client_uuid := client_uuid, file_name := file_name }
  if msg_type = MSGTYPE_FILE_OFFER then do
    let (file_size, it) ← getU32 it
    let (file_n_chunks, it) ← getU32 it
    let (file_hash, _) ← copyN it HASH_SIZE
    pure { msg with offer :=
      { file_size := file_size, file_n_chunks := file_n_chunks, file_hash := file_hash } }
  else if msg_type = MSGTYPE_FILE_CHUNK_REQ then do
    let (chunk_idx_first, it) ← getU32 it
    let (chunk_idx_last, _) ← getU32 it
    pure { msg with chunk_req :=
      { chunk_idx_first := chunk_idx_first, chunk_idx_last := chunk_idx_last } }
  else if msg_type = MSGTYPE_FILE_CHUNK_DATA then do
    let (idx, it) ← getU32 it
    let (chunk_len, it) ← getU16 it
    let (data, _) ← copyN it chunk_len
    pure { msg with chunk_data :=
      { idx := idx, data := data, hash := List.replicate CHUNK_HASH_SIZE 0 } }
  else if msg_type = MSGTYPE_FILE_COMPLETE then
    pure msg
  else
    .error .notSupportedMsgType

/-- The variable part that `Message::serialize` appends to `tmpbuf` in its
`switch` on the message type. -/
def Message.serializeVariant (m : Message) : Except CodecError (List Nat) :=
  if m.msg_type = MSGTYPE_FILE_OFFER then
    if HASH_SIZE ≤ m.offer.file_hash.length then
      .ok (putU32 m.offer.file_size ++ putU32 m.offer.file_n_chunks ++
        m.offer.file_hash.take HASH_SIZE)
    else .error .outOfRange
  else if m.msg_type = MSGTYPE_FILE_CHUNK_REQ then
    .ok (putU32 m.chunk_req.chunk_idx_first ++ putU32 m.chunk_req.chunk_idx_last)
  else if m.msg_type = MSGTYPE_FILE_CHUNK_DATA then
    if m.chunk_data.data.length > MAX_MSG_PAYLOAD_SIZE ∨ m.chunk_data.data.length = 0 then
      .error .invalidChunkLength
    else
      .ok (putU32 m.chunk_data.idx ++ putU16 (m.chunk_data.data.length % 2 ^ 16) ++
        m.chunk_data.data)
  else if m.msg_type = MSGTYPE_FILE_COMPLETE then
    .ok []
  else
    .error .invalidMessageType

/-- The contents `tmpbuf` that `Message::serialize` builds after the length
field: sequence number, peer id, file name and the variant part. -/
def Message.serializePayload (m : Message) : Except CodecError (List Nat) := do
  let filename_len :=
    if m.file_name.length < UINT8_MAX then m.file_name.length else UINT8_MAX
  let variant ← m.serializeVariant
  pure (putU16 m.seq_number ++ m.client_uuid ++ [filename_len &&& 0xff] ++
    m.file_name.take filename_len ++ variant)

/-- Method `Message::serialize(std::vector<uint8_t>& out)`: the result is the
new content of `out`; when the method throws, `out` has not been touched. -/
def Message.serialize (m : Message) (out : List Nat) : Except CodecError (List Nat) := do
  let tmpbuf ← m.serializePayload
  pure (out ++ putU32 m.msg_type ++ putU16 (tmpbuf.length % 2 ^ 16) ++ tmpbuf)

/-- A message whose fields fit their C++ types and the limits of its variant:
16-byte peer id, file name of at most 255 bytes, 64-byte file hash for an
offer, 1 to 3968 data bytes and a 32-byte chunk hash for chunk data. -/
def Message.valid (m : Message) : Prop :=
  m.seq_number < 2 ^ 16 ∧ m.client_uuid.length = 16 ∧ m.file_name.length ≤ 255 ∧
  ((m.msg_type = MSGTYPE_FILE_OFFER ∧ m.offer.file_size < 2 ^ 32 ∧
      m.offer.file_n_chunks < 2 ^ 32 ∧ m.offer.file_hash.length = HASH_SIZE) ∨
   (m.msg_type = MSGTYPE_FILE_CHUNK_REQ ∧ m.chunk_req.chunk_idx_first < 2 ^ 32 ∧
      m.chunk_req.chunk_idx_last < 2 ^ 32) ∨
   (m.msg_type = MSGTYPE_FILE_CHUNK_DATA ∧ m.chunk_data.idx < 2 ^ 32 ∧
      1 ≤ m.chunk_data.data.length ∧ m.chunk_data.data.length ≤ MAX_MSG_PAYLOAD_SIZE ∧
      m.chunk_data.hash.length = CHUNK_HASH_SIZE) ∨
   m.msg_type = MSGTYPE_FILE_COMPLETE)

instance (m : Message) : Decidable m.valid := by
  unfold Message.valid
  infer_instance

/-- A CHUNK_DATA message used in examples: sequence number 7, file name
"ab", chunk 3 with data 1, 2, 3 and a chunk hash of 32 ones. -/
def exampleChunkData : Message :=
  { msg_type := MSGTYPE_FILE_CHUNK_DATA, seq_number := 7,
    client_uuid := List.replicate 16 9, file_name := [97, 98],
    chunk_data := { idx := 3, data := [1, 2, 3], hash := List.replicate 32 1 } }

/-- The frame of `exampleChunkData`. -/
def exampleChunkDataFrame : List Nat :=
  [0x87, 0xFE, 0x77, 3, 0, 30, 0, 7, 9, 9, 9, 9, 9, 9, 9, 9, 9, 9, 9, 9, 9, 9, 9, 9,
   2, 97, 98, 0, 0, 0, 3, 0, 3, 1, 2, 3]

/-- A COMPLETE message used in examples. -/
def exampleComplete : Message :=
  { msg_type := MSGTYPE_FILE_COMPLETE, seq_number := 8,
    client_uuid := List.replicate 16 9, file_name := [97, 98] }

/-- The frame of `exampleComplete`. -/
def exampleCompleteFrame : List Nat :=
  [0x87, 0xFE, 0x77, 4, 0, 21, 0, 8, 9, 9, 9, 9, 9, 9, 9, 9, 9, 9, 9, 9, 9, 9, 9, 9,
   2, 97, 98]

/-- The two example frames cut into three reads. -/
def exampleReads : List (List Nat) :=
  [[0x87, 0xFE], [0x77, 3, 0, 30, 0, 7, 9, 9, 9, 9, 9, 9, 9, 9, 9, 9, 9, 9, 9, 9, 9, 9,
   2, 97, 98, 0, 0, 0, 3, 0, 3, 1, 2, 3, 0x87, 0xFE, 0x77, 4, 0],
   [21, 0, 8, 9, 9, 9, 9, 9, 9, 9, 9, 9, 9, 9, 9, 9, 9, 9, 9, 2, 97, 98]]

/-- Whether a way of stopping is an exception that the source throws.
`outOfRange` is not: it stands for a read or copy past the end of a vector,
which the source performs unchecked. -/
def CodecError.isException : CodecError → Bool
  | .outOfRange => false
  | _ => true

/-- Method `Message::serialize` as a change of `out`: the content of `out`
when the method returns or throws, and the exception if there is one.  The
bytes written before a `throw` go to the local `tmpbuf`; `out` is written
only after the `switch`. -/
def Message.serializeInto (m : Message) (out : List Nat) : List Nat × Option CodecError :=
  match m.serializePayload with
  | .error e => (out, some e)
  | .ok tmpbuf => (out ++ putU32 m.msg_type ++ putU16 (tmpbuf.length % 2 ^ 16) ++ tmpbuf, none)

/-- The common prefix of a payload in the examples: sequence number 7, peer
id of 16 nines, file name "ab". -/
def examplePrefix : List Nat :=
  [0, 7, 9, 9, 9, 9, 9, 9, 9, 9, 9, 9, 9, 9, 9, 9, 9, 9, 2, 97, 98]

/-- A CHUNK_DATA frame for chunk 3 whose chunk length field is 0. -/
def zeroLengthChunkFrame : List Nat :=
  [0x87, 0xFE, 0x77, 3, 0, 27] ++ examplePrefix ++ [0, 0, 0, 3, 0, 0]

/-- A CHUNK_DATA frame for chunk 3 whose chunk length field is 3969 (0x0F81),
followed by 3969 data bytes. -/
def longChunkFrame : List Nat :=
  [0x87, 0xFE, 0x77, 3, 0x0F, 0x9C] ++ examplePrefix ++ [0, 0, 0, 3, 0x0F, 0x81] ++
    List.replicate 3969 1

/-- A COMPLETE frame that announces 21 payload bytes and ends after the
sequence number. -/
def truncatedCompleteFrame : List Nat :=
  [0x87, 0xFE, 0x77, 4, 0, 21, 0, 8]

/-- A CHUNK_DATA frame whose chunk length field announces 3 data bytes where
only 1 follows. -/
def truncatedChunkFrame : List Nat :=
  [0x87, 0xFE, 0x77, 3, 0, 30] ++ examplePrefix ++ [0, 0, 0, 3, 0, 3, 1]

/-- The `switch` of the constructor `Message::Message(buf)`, on the message
filled from the fixed prefix and the iterator behind the file name. -/
def Message.parseVariant (msg : Message) (it : List Nat) : Except CodecError Message :=
  if msg.msg_type = MSGTYPE_FILE_OFFER then do
    let (file_size, it) ← getU32 it
    let (file_n_chunks, it) ← getU32 it
    let (file_hash, _) ← copyN it HASH_SIZE
    pure { msg with offer :=
      { file_size := file_size, file_n_chunks := file_n_chunks, file_hash := file_hash } }
  else if msg.msg_type = MSGTYPE_FILE_CHUNK_REQ then do
    let (chunk_idx_first, it) ← getU32 it
    let (chunk_idx_last, _) ← getU32 it
    pure { msg with chunk_req :=
      { chunk_idx_first := chunk_idx_first, chunk_idx_last := chunk_idx_last } }
  else if msg.msg_type = MSGTYPE_FILE_CHUNK_DATA then do
    let (idx, it) ← getU32 it
    let (chunk_len, it) ← getU16 it
    let (data, _) ← copyN it chunk_len
    pure { msg with chunk_data :=
      { idx := idx, data := data, hash := List.replicate CHUNK_HASH_SIZE 0 } }
  else if msg.msg_type = MSGTYPE_FILE_COMPLETE then
    pure msg
  else
    .error .notSupportedMsgType

/-- The offset at which the fields announced by a buffer end, following the
wire layout: 25 bytes of fixed prefix (magic and tag, payload length,
sequence number, peer id, file-name length), the file name of `buf[24]`
bytes, and the variant trailer: 72 bytes for tag 1 (OFFER), 8 for tag 2
(CHUNK_REQ), 6 bytes and the chunk length they announce for tag 3
(CHUNK_DATA), none otherwise.  A byte that the buffer does not hold counts
as 0.  A buffer is truncated when it is shorter than this offset. -/
def announcedEnd (buf : List Nat) : Nat :=
  let fixed := 25 + buf.getD 24 0
  if buf.getD 3 0 = 1 then fixed + 72
  else if buf.getD 3 0 = 2 then fixed + 8
  else if buf.getD 3 0 = 3 then
    fixed + 6 + (buf.getD (fixed + 4) 0 * 256 + buf.getD (fixed + 5) 0)
  else fixed

/-- A CHUNK_DATA message with a file name of 98 bytes and a full chunk of
3968 data bytes. -/
def longNameChunk : Message :=
  { msg_type := MSGTYPE_FILE_CHUNK_DATA, seq_number := 2,
    client_uuid := List.replicate 16 9, file_name := List.replicate 98 97,
    chunk_data := { idx := 0, data := List.replicate 3968 0 } }

end proto

/-! ## `netwrk/ft_conn.cpp`: the framing state machine of a connection -/

namespace netwrk

open proto

/-- The parser state of class `Connection`: the members `msg_buf` and
`msg_len`. -/
structure Connection where
  msg_buf : List Nat := []
  msg_len : Nat := 0
  deriving DecidableEq, Repr

/-- Local constant `MAGIC1` of `Connection::handleEvent`. -/
def MAGIC1 : Nat := (MAGIC >>> 24) &&& 0xff

/-- Local constant `MAGIC2` of `Connection::handleEvent`. -/
def MAGIC2 : Nat := (MAGIC >>> 16) &&& 0xff

/-- Local constant `MAGIC3` of `Connection::handleEvent`. -/
def MAGIC3 : Nat := (MAGIC >>> 8) &&& 0xff

/-- Local constant `MAX_MSG_TYPE` of `Connection::handleEvent`. -/
def MAX_MSG_TYPE : Nat := MSGTYPE_MAX &&& 0xff

/-- The body of the loop of `Connection::handleEvent` for one received byte
`b` (the branch `ret > 0`).  The second component is the buffer handed to
`handleMessage`, if this byte completes one.  `handleMessage` builds a
`Message` from the buffer; when that constructor does not return a message
the exception leaves `handleEvent` before `msg_buf.clear()` and the state
keeps the full buffer. -/
def Connection.handleByte (c : Connection) (b : Nat) : Connection × Option (List Nat) :=
  let buf_curr_size := c.msg_buf.length
  if buf_curr_size = 0 ∧ b = MAGIC1 then
    ({ c with msg_buf := c.msg_buf ++ [b] }, none)
  else if buf_curr_size = 1 ∧ b = MAGIC2 then
    ({ c with msg_buf := c.msg_buf ++ [b] }, none)
  else if buf_curr_size = 2 ∧ b = MAGIC3 then
    ({ c with msg_buf := c.msg_buf ++ [b] }, none)
  else if buf_curr_size = 3 ∧ b > 0 ∧ b < MAX_MSG_TYPE then
    ({ c with msg_buf := c.msg_buf ++ [b] }, none)
  else if buf_curr_size = 4 then
    ({ msg_buf := c.msg_buf ++ [b], msg_len := (b <<< 8) &&& 0xff00 }, none)
  else if buf_curr_size = 5 then
    ({ msg_buf := c.msg_buf ++ [b], msg_len := c.msg_len ||| (b &&& 0x00ff) }, none)
  else if buf_curr_size ≥ 6 ∧ buf_curr_size < (c.msg_len + 6 - 1) % 2 ^ 64 then
    ({ c with msg_buf := c.msg_buf ++ [b] }, none)
  else if buf_curr_size = (c.msg_len + 6 - 1) % 2 ^ 64 then
    let buf := c.msg_buf ++ [b]
    match Message.parse buf with
    | .ok _ => ({ msg_buf := [], msg_len := 0 }, some buf)
    | .error _ => ({ c with msg_buf := buf }, some buf)
  else
    ({ msg_buf := [], msg_len := 0 }, none)

/-- The byte rule of `Connection::handleEvent` run over a sequence of received
bytes: the final parser state and the buffers handed to `handleMessage`, in
order. -/
def Connection.feed (c : Connection) : List Nat → Connection × List (List Nat)
  | [] => (c, [])
  | b :: bs =>
    let r := c.handleByte b
    let rs := Connection.feed r.1 bs
    (rs.1, r.2.toList ++ rs.2)

/-- One call of `Connection::handleEvent` that finds the bytes `avail` on the
socket: the loop takes them one at a time until `recv` reports that no more
are available. -/
def Connection.handleEvent (c : Connection) (avail : List Nat) :
    Connection × List (List Nat) :=
  c.feed avail

/-- A sequence of `handleEvent` calls, one for each read. -/
def Connection.handleEvents (c : Connection) :
    List (List Nat) → Connection × List (List Nat)
  | [] => (c, [])
  | r :: rs =>
    let x := c.handleEvent r
    let y := Connection.handleEvents x.1 rs
    (y.1, x.2 ++ y.2)

/-- The six envelope bytes of a COMPLETE frame that announces length 0. -/
def zeroLengthEnvelope : List Nat := [0x87, 0xFE, 0x77, 4, 0, 0]

end netwrk

/-! ## `file/ft_file_meta.cpp`, `file/ft_file.cpp`: sidecar, source and sink

A file on disk is an `Option (List Nat)`: `none` when the path does not
exist, `some bytes` otherwise.  The digest function (BLAKE2b of Crypto++,
external to the repository) is a parameter `H` of every operation that
hashes. -/

namespace file

open proto

/-- Constant `CHUNK_SIZE = ft::proto::MAX_MSG_PAYLOAD_SIZE`. -/
def CHUNK_SIZE : Nat := MAX_MSG_PAYLOAD_SIZE

/-- Conversion of a stream position to `int` (32 bits, two's complement). -/
def toInt32 (x : Nat) : Int :=
  if x % 2 ^ 32 < 2 ^ 31 then (x % 2 ^ 32 : Nat) else ((x % 2 ^ 32 : Nat) : Int) - 2 ^ 32

/-- Conversion of a signed value to `size_t` (64 bits, modular). -/
def toSizeT (i : Int) : Nat := (i % 2 ^ 64).toNat

/-- The members of class `FileMetadata` that its methods read. -/
structure FileMetadata where
  file_size : Nat
  file_chunk_size : Nat
  file_hash : List Nat
  file_n_chunks : Nat
  header_size : Nat
  bitmap_size : Nat
  deriving DecidableEq, Repr

/-- Constructor `FileMetadata::FileMetadata`: the member initialisers.  (The
only caller passes `CHUNK_SIZE` as chunk size; a division by zero is taken
as 0 here.) -/
def FileMetadata.new (file_size file_chunk_size : Nat) (file_hash : List Nat) :
    FileMetadata :=
  let file_n_chunks :=
    (file_size / file_chunk_size + (if file_size % file_chunk_size > 0 then 1 else 0)) % 2 ^ 64
  { file_size := file_size
    file_chunk_size := file_chunk_size
    file_hash := file_hash
    file_n_chunks := file_n_chunks
    header_size := 8 + 8 + HASH_SIZE
    bitmap_size := file_n_chunks / 8 + (if file_n_chunks % 8 > 0 then 1 else 0) }

/-- The eight bytes of a `size_t` object in the byte order of the host, taken
to be little-endian. -/
def nativeBytes8 (v : Nat) : List Nat :=
  (List.range 8).map (fun i => (v >>> (8 * i)) &&& 0xff)

/-- A `size_t` object after `read` has stored the given bytes at its start:
bytes that were not read keep the initial value 0. -/
def nativeValue (bytes : List Nat) : Nat :=
  bytes.foldr (fun b acc => b + 256 * acc) 0

/-- Method `FileMetadata::createIfNotExist`: the sidecar afterwards. -/
def FileMetadata.createIfNotExist (md : FileMetadata) (sidecar : Option (List Nat)) :
    Option (List Nat) :=
  match sidecar with
  | some bytes => some bytes
  | none =>
    some (nativeBytes8 md.file_size ++ nativeBytes8 md.file_chunk_size ++
      md.file_hash.take HASH_SIZE ++ List.replicate md.bitmap_size 0)

/-- Method `FileMetadata::markChunk`: the sidecar afterwards.  The stream is
opened for reading and writing, which does not create a missing file; when
the one-byte `read` finds no byte at the position the stream fails and the
following `seekp` and `write` do nothing. -/
def FileMetadata.markChunk (md : FileMetadata) (sidecar : Option (List Nat))
    (chunk_idx : Nat) (valid : Bool) : Option (List Nat) :=
  match sidecar with
  | none => none
  | some bytes =>
    let pos := (md.header_size + chunk_idx / 8) % 2 ^ 64
    match bytes[pos]? with
    | none => some bytes
    | some bitmap =>
      let bit := (1 <<< (7 - chunk_idx % 8)) % 2 ^ 8
      let bitmap := if valid then bitmap ||| bit else bitmap &&& (0xFF ^^^ bit)
      some (bytes.set pos bitmap)

/-- The loop `while (ms && bitmap == 0xFF) ms.read(&bitmap, 1)` of
`nextMissingChunk`, started with `bitmap == 0xFF` on the bytes from the
current position `pos` on: the last value of `bitmap` and the stream
position.  At the end of the file `read` fails and `bitmap` keeps 0xFF. -/
def readWhileFF : List Nat → Nat → Nat × Nat
  | [], pos => (0xFF, pos)
  | b :: rest, pos => if b = 0xFF then readWhileFF rest (pos + 1) else (b, pos + 1)

/-- The loop `for (int i = 7; i >= 0 && ((bitmap >> i) & 0x01) == 0x01;
i--, ret++);` of `nextMissingChunk`; the first argument is `i + 1`. -/
def scanBits (bitmap : Nat) : Nat → Nat → Nat
  | 0, ret => ret
  | i + 1, ret =>
    if (bitmap >>> i) &&& 0x01 = 0x01 then scanBits bitmap i ((ret + 1) % 2 ^ 64) else ret

/-- Method `FileMetadata::nextMissingChunk`.  A sidecar that cannot be opened
leaves the stream failed, the loop does not run and the sentinel is
returned. -/
def FileMetadata.nextMissingChunk (md : FileMetadata) (sidecar : Option (List Nat))
    (from_chunk_idx : Nat) : Nat :=
  match sidecar with
  | none => UINT64_MAX
  | some bytes =>
    let start := (md.header_size + from_chunk_idx / 8) % 2 ^ 64
    let r := readWhileFF (bytes.drop start) start
    let bitmap := r.1
    let tellg := r.2
    if bitmap ≠ 0xFF then
      let ret := toSizeT ((toInt32 tellg - md.header_size - 1) * 8)
      let ret := scanBits bitmap 8 ret
      if ret < md.file_n_chunks then ret else UINT64_MAX
    else UINT64_MAX

/-- Static method `FileMetadata::readHeader`: `(file_size, file_chunk_size,
file_hash)`.  A missing sidecar leaves the sizes 0; a short sidecar leaves
the bytes that could not be read 0. -/
def FileMetadata.readHeader (sidecar : Option (List Nat)) : Nat × Nat × List Nat :=
  match sidecar with
  | none => (0, 0, List.replicate HASH_SIZE 0)
  | some bytes =>
    let h := (bytes.drop 16).take HASH_SIZE
    (nativeValue (bytes.take 8), nativeValue ((bytes.drop 8).take 8),
      h ++ List.replicate (HASH_SIZE - h.length) 0)

/-- The spec's reading of the bitmap: chunk `k` is marked when bit
`7 - k mod 8` of the sidecar byte at offset `80 + k / 8` is 1. -/
def chunkMarked (bytes : List Nat) (k : Nat) : Bool :=
  (bytes.getD (80 + k / 8) 0).testBit (7 - k % 8)

/-- Class `FileChunk` without its back pointer to the file. -/
structure FileChunk where
  idx : Nat
  data : List Nat
  hash : List Nat
  deriving DecidableEq, Repr

/-- The exceptions of `ft_file.cpp`. -/
inductive FileError where
  | rangeError
  | domainError
  deriving DecidableEq, Repr

/-- A `std::vector<uint8_t>` of `n` zero bytes after `seekg(offset)` and
`read` of `n` bytes on the file: the bytes that exist at the position
replace the start of the vector, the rest stays 0.  An offset that does not
fit the signed stream offset makes the seek fail. -/
def readAt (content : Option (List Nat)) (offset n : Nat) : List Nat :=
  match content with
  | none => List.replicate n 0
  | some bytes =>
    if offset < 2 ^ 63 then
      let got := (bytes.drop offset).take n
      got ++ List.replicate (n - got.length) 0
    else List.replicate n 0

/-- The content of a file after a stream opened for reading and writing does
`seekp(offset)` and `write(data)`.  A missing file is not created; a failed
seek or an empty write changes nothing; a write past the end extends the
file, the gap reading as zero bytes. -/
def writeAt (content : Option (List Nat)) (offset : Nat) (data : List Nat) :
    Option (List Nat) :=
  match content with
  | none => none
  | some bytes =>
    if offset < 2 ^ 63 ∧ data ≠ [] then
      some (bytes.take offset ++ List.replicate (offset - bytes.length) 0 ++ data ++
        bytes.drop (offset + data.length))
    else some bytes

/-- Class `FileLocal`: the members `hash` and `size` of `File`. -/
structure FileLocal where
  hash : List Nat
  size : Nat
  deriving DecidableEq, Repr

/-- Method `File::getNumOfChunks`. -/
def getNumOfChunks (size : Nat) : Nat :=
  (size / CHUNK_SIZE + (if size % CHUNK_SIZE > 0 then 1 else 0)) % 2 ^ 64

/-- Method `FileLocal::getChunk` on a file with the given content. -/
def FileLocal.getChunk (H : List Nat → List Nat) (f : FileLocal)
    (content : Option (List Nat)) (idx : Nat) : Except FileError FileChunk :=
  let offset := (idx * CHUNK_SIZE) % 2 ^ 64
  if offset > f.size then
    .error .rangeError
  else
    let chunk_size := if f.size - offset < CHUNK_SIZE then f.size - offset else CHUNK_SIZE
    let chunk_data := readAt content offset chunk_size
    .ok { idx := idx, data := chunk_data, hash := H chunk_data }

/-- The two files of a sink: the destination (`effective_path`) and the
sidecar (`metadata_file`). -/
structure Disk where
  dest : Option (List Nat)
  sidecar : Option (List Nat)
  deriving DecidableEq, Repr

/-- Class `FileRemote`: the members `hash` and `size` of `File` and the
member `file_metadata`. -/
structure FileRemote where
  hash : List Nat
  size : Nat
  file_metadata : FileMetadata
  deriving DecidableEq, Repr

/-- Constructor `FileRemote::FileRemote`: the object and the disk afterwards.
A missing destination is created by an output stream that seeks to
`size - 1` and writes one zero byte; for `size = 0` the offset wraps, the
seek fails and the file stays empty. -/
def FileRemote.new (hash : List Nat) (size : Nat) (d : Disk) : FileRemote × Disk :=
  let file_metadata := FileMetadata.new size CHUNK_SIZE hash
  let sidecar := file_metadata.createIfNotExist d.sidecar
  let dest :=
    match d.dest with
    | some bytes => some bytes
    | none => writeAt (some []) ((size + 2 ^ 64 - 1) % 2 ^ 64) [0]
  ({ hash := hash, size := size, file_metadata := file_metadata },
    { dest := dest, sidecar := sidecar })

/-- The test `memcmp(a, b, n) == 0`. -/
def memcmpEq (a b : List Nat) (n : Nat) : Bool :=
  a.take n == b.take n

/-- Method `FileRemote::isComplete`. -/
def FileRemote.isComplete (H : List Nat → List Nat) (f : FileRemote) (d : Disk) : Bool :=
  match d.dest with
  | none => false
  | some content =>
    if f.file_metadata.nextMissingChunk d.sidecar 0 = UINT64_MAX then
      memcmpEq f.hash (H content) f.hash.length
    else false

/-- Method `FileRemote::getNextMissingChunk`. -/
def FileRemote.getNextMissingChunk (f : FileRemote) (d : Disk)
    (from_chunk_idx : Nat) : Nat :=
  f.file_metadata.nextMissingChunk d.sidecar from_chunk_idx

/-- Method `FileRemote::saveChunk`: the disk afterwards.  Both early returns
only log. -/
def FileRemote.saveChunk (f : FileRemote) (d : Disk) (chunk : FileChunk) : Disk :=
  let offset := (chunk.idx * CHUNK_SIZE) % 2 ^ 64
  if offset > f.size then d
  else
    let chunk_size := if f.size - offset < CHUNK_SIZE then f.size - offset else CHUNK_SIZE
    if chunk_size ≠ chunk.data.length then d
    else
      { dest := writeAt d.dest offset chunk.data
        sidecar := f.file_metadata.markChunk d.sidecar chunk.idx true }

/-- A 64-byte file hash used in examples. -/
def exampleHash : List Nat := List.replicate 64 5

/-- The sidecar of a 10000-byte file (three chunks) with chunk 0 marked. -/
def exampleSidecar : List Nat :=
  nativeBytes8 10000 ++ nativeBytes8 3968 ++ exampleHash ++ [0x80]

/-- A stand-in digest for examples: 64 copies of the byte sum modulo 256. -/
def exampleDigest (x : List Nat) : List Nat := List.replicate 64 (x.sum % 256)

/-- A sink for a 10000-byte file. -/
def exampleSink : FileRemote :=
  { hash := exampleHash, size := 10000,
    file_metadata := FileMetadata.new 10000 CHUNK_SIZE exampleHash }

/-- A disk for `exampleSink`: the preallocated destination and the sidecar
with chunk 0 marked. -/
def exampleDisk : Disk :=
  { dest := some (List.replicate 10000 0), sidecar := some exampleSidecar }

/-- A sink for a 5-byte file (one chunk). -/
def tinySink : FileRemote :=
  { hash := exampleHash, size := 5, file_metadata := FileMetadata.new 5 CHUNK_SIZE exampleHash }

/-- The fresh sidecar of `tinySink`: header and one zero bitmap byte. -/
def tinySidecar : List Nat :=
  nativeBytes8 5 ++ nativeBytes8 3968 ++ exampleHash ++ [0x00]

/-- The fresh disk of `tinySink`. -/
def tinyDisk : Disk :=
  { dest := some [0, 0, 0, 0, 0], sidecar := some tinySidecar }

/-- The only chunk of a 5-byte file. -/
def tinyChunk : FileChunk := { idx := 0, data := [1, 2, 3, 4, 5], hash := [] }

/-- A sink for a 0-byte file (no chunk). -/
def emptySink : FileRemote :=
  { hash := exampleHash, size := 0, file_metadata := FileMetadata.new 0 CHUNK_SIZE exampleHash }

/-- The sidecar of `emptySink`: the 80-byte header and no bitmap byte. -/
def emptySidecar : List Nat :=
  nativeBytes8 0 ++ nativeBytes8 3968 ++ exampleHash

/-- The size of a file of 2^34 - 640 chunks. -/
def hugeSize : Nat := 3968 * (2 ^ 34 - 640)

/-- The sidecar of a file of `hugeSize` bytes, 2^31 bytes long, in which
every chunk is marked except the eight chunks of the last bitmap byte. -/
def hugeSidecar : List Nat :=
  (nativeBytes8 hugeSize ++ nativeBytes8 3968 ++ exampleHash) ++
    (List.replicate (2 ^ 31 - 81) 0xFF ++ [0x00])

/-- The size of a file of 8 * (2^32 + 1) chunks, whose bitmap takes 2^32 + 1
bytes. -/
def wrapSize : Nat := 3968 * (8 * (2 ^ 32 + 1))

/-- A sidecar of a file of `wrapSize` bytes in which every chunk of the first
2^32 bitmap bytes is marked except chunk 0, and no chunk of the last bitmap
byte is marked. -/
def wrapSidecarBefore : List Nat :=
  (nativeBytes8 wrapSize ++ nativeBytes8 3968 ++ exampleHash) ++
    ([0x7F] ++ (List.replicate (2 ^ 32 - 1) 0xFF ++ [0x00]))

/-- The sidecar `wrapSidecarBefore` with chunk 0 marked as well. -/
def wrapSidecarAfter : List Nat :=
  (nativeBytes8 wrapSize ++ nativeBytes8 3968 ++ exampleHash) ++
    (List.replicate (2 ^ 32) 0xFF ++ [0x00])

/-- The sidecar after `markChunk(k, true)` for every `k` of a list, in
order. -/
def markAll (md : FileMetadata) (sidecar : Option (List Nat)) (ks : List Nat) :
    Option (List Nat) :=
  ks.foldl (fun s k => md.markChunk s k true) sidecar

/-- A sink for a file of 3968 bytes: exactly one chunk. -/
def oneChunkSink : FileRemote :=
  { hash := exampleHash, size := 3968,
    file_metadata := FileMetadata.new 3968 CHUNK_SIZE exampleHash }

/-- The fresh disk of `oneChunkSink`: 3968 zero bytes and a sidecar with one
zero bitmap byte. -/
def oneChunkDisk : Disk :=
  { dest := some (List.replicate 3968 0)
    sidecar := some (nativeBytes8 3968 ++ nativeBytes8 3968 ++ exampleHash ++ [0x00]) }

end file

/-! ## `protocol/ft_msg_fctry.cpp`, `ft_server.cpp`: the receiver role

The receiver handles one message against the two files of the path
`<root>/<peer id>/<file name>` that the message names; these two files are the
`Disk` argument. -/

namespace server

open proto file

/-- The call `path.filename()` on the file path built from a file name: the
bytes after the last `/`. -/
def filename (file_name : List Nat) : List Nat :=
  (file_name.reverse.takeWhile (fun b => b ≠ 0x2F)).reverse

/-- Function `MessageFactory::buildMsgChunkReq`; the sequence number and both
indices are `uint16_t` parameters. -/
def buildMsgChunkReq (seq_number : Nat) (client_uuid file_name : List Nat)
    (chunk_idx_first chunk_idx_last : Nat) : Message :=
  { msg_type := MSGTYPE_FILE_CHUNK_REQ
    seq_number := seq_number % 2 ^ 16
    client_uuid := client_uuid
    file_name := filename file_name
    chunk_req :=
      { chunk_idx_first := chunk_idx_first % 2 ^ 16, chunk_idx_last := chunk_idx_last % 2 ^ 16 } }

/-- Function `MessageFactory::buildMsgComplete`; the sequence number is a
`uint16_t` parameter. -/
def buildMsgComplete (seq_number : Nat) (client_uuid file_name : List Nat) : Message :=
  { msg_type := MSGTYPE_FILE_COMPLETE
    seq_number := seq_number % 2 ^ 16
    client_uuid := client_uuid
    file_name := filename file_name }

/-- Static method `File::makeRemoteFile(path, hash, size)`. -/
def makeRemoteFileOffered (hash : List Nat) (size : Nat) (d : Disk) : FileRemote × Disk :=
  FileRemote.new hash size d

/-- Static method `File::makeRemoteFile(path)`: the sink described by the
sidecar header, or no sink when the chunk size read is 0. -/
def makeRemoteFile (d : Disk) : Option (FileRemote × Disk) :=
  let hdr := FileMetadata.readHeader d.sidecar
  if hdr.2.1 > 0 then some (FileRemote.new hdr.2.2 hdr.1 d) else none

/-- The reply of both branches of `handleRequest` once the sink is there:
COMPLETE when the sink is complete, else a CHUNK_REQ for the next missing
chunk with `UINT16_MAX` as last index. -/
def replyFor (H : List Nat → List Nat) (msg : Message) (file : FileRemote) (d : Disk) :
    Message :=
  if file.isComplete H d then
    buildMsgComplete msg.seq_number msg.client_uuid msg.file_name
  else
    buildMsgChunkReq (msg.seq_number + 1) msg.client_uuid msg.file_name
      (file.getNextMissingChunk d 0) UINT16_MAX

/-- The `FileChunk` that `handleRequest` builds from a CHUNK_DATA message. -/
def chunkOf (msg : Message) : FileChunk :=
  { idx := msg.chunk_data.idx, data := msg.chunk_data.data, hash := msg.chunk_data.hash }

/-- Method `ServerRequestHandler::handleRequest`: the disk afterwards and the
response message, which is serialized and sent when there is one. -/
def handleRequest (H : List Nat → List Nat) (msg : Message) (d : Disk) :
    Disk × Option Message :=
  if msg.msg_type = MSGTYPE_FILE_OFFER then
    let r := makeRemoteFileOffered msg.offer.file_hash msg.offer.file_size d
    (r.2, some (replyFor H msg r.1 r.2))
  else if msg.msg_type = MSGTYPE_FILE_CHUNK_DATA then
    match makeRemoteFile d with
    | none => (d, none)
    | some r =>
      let d2 := r.1.saveChunk r.2 (chunkOf msg)
      (d2, some (replyFor H msg r.1 d2))
  else
    (d, none)

/-- The frames that `handleRequest` sends on the connection: the serialized
response, if there is one and `serialize` does not throw. -/
def sentFrames (response : Option Message) : List (List Nat) :=
  match response with
  | none => []
  | some m => (m.serialize []).toOption.toList

/-- The disk of a receiver that has accepted the offer of a 1-byte file with
hash `exampleHash`: destination preallocated, no chunk marked. -/
def oneByteDisk : Disk :=
  { dest := some [0]
    sidecar := some (nativeBytes8 1 ++ nativeBytes8 CHUNK_SIZE ++ exampleHash ++ [0x00]) }

/-- A CHUNK_DATA message for chunk 0 of the 1-byte file carrying the byte 5;
`exampleDigest [5]` is `exampleHash`. -/
def goodChunkMsg : Message :=
  { msg_type := MSGTYPE_FILE_CHUNK_DATA, seq_number := 2,
    client_uuid := List.replicate 16 9, file_name := [97],
    chunk_data := { idx := 0, data := [5], hash := List.replicate 32 0 } }

/-- A CHUNK_DATA message for chunk 0 of the 1-byte file carrying the byte 9,
whose digest is not `exampleHash`. -/
def badChunkMsg : Message :=
  { msg_type := MSGTYPE_FILE_CHUNK_DATA, seq_number := 2,
    client_uuid := List.replicate 16 9, file_name := [97],
    chunk_data := { idx := 0, data := [9], hash := List.replicate 32 0 } }

/-- An OFFER of the 1-byte file with hash `exampleHash`. -/
def oneByteOffer : Message :=
  { msg_type := MSGTYPE_FILE_OFFER, seq_number := 1,
    client_uuid := List.replicate 16 9, file_name := [97],
    offer := { file_size := 1, file_n_chunks := 1, file_hash := exampleHash } }

/-- The size of a file of 65537 chunks (about 248 MiB). -/
def bigSize : Nat := 65537 * 3968

/-- An OFFER of a file of `bigSize` bytes with hash `exampleHash`. -/
def bigOffer : Message :=
  { msg_type := MSGTYPE_FILE_OFFER, seq_number := 1,
    client_uuid := List.replicate 16 9, file_name := [97],
    offer := { file_size := bigSize, file_n_chunks := 65537, file_hash := exampleHash } }

/-- A receiver disk for the file of `bigSize` bytes on which the chunks 0 to
65534 are marked and the chunks 65535 and 65536 are not. -/
def bigDiskBefore : Disk :=
  { dest := some (List.replicate bigSize 0)
    sidecar := some (nativeBytes8 bigSize ++ nativeBytes8 CHUNK_SIZE ++ exampleHash ++
      (List.replicate 8191 0xFF ++ [0xFE, 0x00])) }

/-- A receiver disk for the file of `bigSize` bytes on which the chunks 0 to
65535 are marked and chunk 65536, the last one, is not. -/
def bigDiskAfter : Disk :=
  { dest := some (List.replicate bigSize 0)
    sidecar := some (nativeBytes8 bigSize ++ nativeBytes8 CHUNK_SIZE ++ exampleHash ++
      (List.replicate 8192 0xFF ++ [0x00])) }

/-- A CHUNK_DATA message with chunk 65535 of the file of `bigSize` bytes. -/
def bigChunkMsg : Message :=
  { msg_type := MSGTYPE_FILE_CHUNK_DATA, seq_number := 2,
    client_uuid := List.replicate 16 9, file_name := [97],
    chunk_data := { idx := 65535, data := List.replicate 3968 0, hash := List.replicate 32 0 } }

/-- A receiver disk for the 1-byte file on which chunk 0 is marked but the
destination byte is 9, whose digest is not `exampleHash`. -/
def mismatchDisk : Disk :=
  { dest := some [9]
    sidecar := some (nativeBytes8 1 ++ nativeBytes8 CHUNK_SIZE ++ exampleHash ++ [0x80]) }

/-- A receiver disk for the 1-byte file after a finished transfer: the
destination holds the byte 5, whose digest is `exampleHash`, and chunk 0 is
marked. -/
def oneByteDone : Disk :=
  { dest := some [5]
    sidecar := some (nativeBytes8 1 ++ nativeBytes8 CHUNK_SIZE ++ exampleHash ++ [0x80]) }

/-! ### The paths of the receiver's files

Paths are byte strings in the POSIX format of `std::filesystem::path` (no
root name).  The operations below are the ones of the standard library that
`handleRequest`, `File::makeRemoteFile` and the constructor of
`FileMetadata` call; `boost::uuids::to_string` is the textual form of the
peer id. -/

/-- The lower-case hexadecimal digit of a value below 16. -/
def hexChar (n : Nat) : Nat :=
  if n ≤ 9 then 0x30 + n else 0x61 + (n - 10)

/-- The loop of `boost::uuids::to_string` from byte number `i` on: two
hexadecimal digits per byte and a dash after the bytes 3, 5, 7 and 9. -/
def to_string_from : Nat → List Nat → List Nat
  | _, [] => []
  | i, b :: rest =>
    [hexChar ((b >>> 4) &&& 0x0F), hexChar (b &&& 0x0F)] ++
      (if i = 3 ∨ i = 5 ∨ i = 7 ∨ i = 9 then [0x2D] else []) ++ to_string_from (i + 1) rest

/-- Function `boost::uuids::to_string` on the bytes of a uuid. -/
def to_string (uuid : List Nat) : List Nat :=
  to_string_from 0 uuid

/-- Method `path::is_absolute`: the path starts with `/`. -/
def isAbsolute (p : List Nat) : Bool :=
  p.head? == some 0x2F

/-- Method `path::has_filename`: `filename()` is not empty. -/
def hasFilename (p : List Nat) : Bool :=
  !(filename p).isEmpty

/-- The operator `lhs /= p` of `std::filesystem::path`: an absolute `p`
replaces `lhs`; otherwise a separator is appended when `lhs` has a file name,
and then `p`. -/
def pathAppend (lhs p : List Nat) : List Nat :=
  if isAbsolute p then p
  else if hasFilename lhs then lhs ++ 0x2F :: p
  else lhs ++ p

/-- Method `path::parent_path`: the path without its last component and
without the separators before it; the root directory is its own parent. -/
def parentPath (p : List Nat) : List Nat :=
  let dir := p.take (p.length - (filename p).length)
  let stripped := (dir.reverse.dropWhile (fun b => b == 0x2F)).reverse
  if stripped.isEmpty then dir.take 1 else stripped

/-- Constant `SERVER_BASE_PATH` of `ft_server.cpp`, the string `/in`, which
`main` installs as `File::sm_path_prefix`. -/
def SERVER_BASE_PATH : List Nat := [0x2F, 0x69, 0x6E]

/-- The local `file_path` of `handleRequest`:
`to_string(msg->client_uuid)` followed by `/= msg->file_name`. -/
def filePath (msg : Message) : List Nat :=
  pathAppend (to_string msg.client_uuid) msg.file_name

/-- The local `effective_path` of `File::makeRemoteFile`:
`File::sm_path_prefix` followed by `/= path`. -/
def effectivePath (path : List Nat) : List Nat :=
  pathAppend SERVER_BASE_PATH path

/-- Member `metadata_file` as the constructor of `FileMetadata` (and
`readHeader`) computes it: the parent path of the effective path, followed by
`/=` of `.`, the file name and `.meta`. -/
def metadataFile (file_effective_path : List Nat) : List Nat :=
  pathAppend (parentPath file_effective_path)
    ([0x2E] ++ filename file_effective_path ++ [0x2E, 0x6D, 0x65, 0x74, 0x61])

/-- The file name that a stream receives through `c_str()`: the bytes before
the first NUL. -/
def cstr (p : List Nat) : List Nat :=
  p.takeWhile (fun b => b ≠ 0)

/-- The name under which `handleRequest` opens the destination file of a
message. -/
def destPath (msg : Message) : List Nat :=
  cstr (effectivePath (filePath msg))

/-- The name under which `handleRequest` opens the sidecar of a message. -/
def sidecarPath (msg : Message) : List Nat :=
  cstr (metadataFile (effectivePath (filePath msg)))

/-- The directory `<root>/<to_string(peer id)>` of a message. -/
def peerDir (msg : Message) : List Nat :=
  SERVER_BASE_PATH ++ 0x2F :: to_string msg.client_uuid

/-- The components of a path name: the byte strings between separators. -/
def components : List Nat → List (List Nat)
  | [] => [[]]
  | c :: rest =>
    if c = 0x2F then [] :: components rest
    else
      match components rest with
      | [] => [[c]]
      | h :: t => (c :: h) :: t

/-- One step of path name resolution without symbolic links: an empty
component and `.` stay, `..` goes to the parent (the root is its own
parent), any other name goes down. -/
def resolveStep (stack : List (List Nat)) (c : List Nat) : List (List Nat) :=
  if c = [] ∨ c = [0x2E] then stack
  else if c = [0x2E, 0x2E] then stack.dropLast
  else stack ++ [c]

/-- The location that an absolute path name denotes: the names from the root
down, after resolution of `.` and `..`. -/
def resolve (p : List Nat) : List (List Nat) :=
  (components p).foldl resolveStep []

/-- The spec's "lies inside the directory": the location of `p` is strictly
below the location of `dir`. -/
def insideDir (dir p : List Nat) : Bool :=
  decide ((resolve p).take (resolve dir).length = resolve dir ∧
    (resolve dir).length < (resolve p).length)

/-- An OFFER of the 1-byte file under the file name `../x`. -/
def dotdotOffer : Message :=
  { msg_type := MSGTYPE_FILE_OFFER, seq_number := 1,
    client_uuid := List.replicate 16 9, file_name := [0x2E, 0x2E, 0x2F, 0x78],
    offer := { file_size := 1, file_n_chunks := 1, file_hash := exampleHash } }

/-- An OFFER of the 1-byte file under the absolute file name `/x`. -/
def absoluteOffer : Message :=
  { msg_type := MSGTYPE_FILE_OFFER, seq_number := 1,
    client_uuid := List.replicate 16 9, file_name := [0x2F, 0x78],
    offer := { file_size := 1, file_n_chunks := 1, file_hash := exampleHash } }

end server

/-! ## `protocol/ft_msg_fctry.cpp`, `ft_client.cpp`: the uploader role -/

namespace client

open proto file

/-- A file offered by the uploader: the member `path` of `File`, the members
`hash` and `size` that `FileLocal` got when it was made, and the content of
the file on disk, which `getChunk` reads at each request. -/
structure ClientFile where
  path : List Nat
  file : FileLocal
  content : Option (List Nat)
  deriving DecidableEq, Repr

/-- Static method `File::makeLocalFile` on an existing regular file with the
given content: the hash is computed over the content and the size is that of
the content. -/
def makeLocalFile (H : List Nat → List Nat) (path content : List Nat) : ClientFile :=
  { path := path, file := { hash := H content, size := content.length % 2 ^ 64 },
    content := some content }

/-- Function `MessageFactory::buildMsgOffer`; the sequence number is a
`uint16_t` parameter and the fields `file_size` and `file_n_chunks` are
`uint32_t`, assigned from `size_t` values. -/
def buildMsgOffer (seq_number : Nat) (client_uuid : List Nat) (f : ClientFile) : Message :=
  { msg_type := MSGTYPE_FILE_OFFER
    seq_number := seq_number % 2 ^ 16
    client_uuid := client_uuid
    file_name := server.filename f.path
    offer :=
      { file_size := f.file.size % 2 ^ 32
        file_n_chunks := getNumOfChunks f.file.size % 2 ^ 32
        file_hash := f.file.hash } }

/-- Function `MessageFactory::buildMsgChunkData`; the sequence number and the
chunk index are `uint16_t` parameters.  `getChunk` returns a chunk or throws,
so the test `!fchunk` never holds; the member `chunk_data.hash` is not
assigned. -/
def buildMsgChunkData (H : List Nat → List Nat) (seq_number : Nat) (client_uuid : List Nat)
    (f : ClientFile) (chunk_idx : Nat) : Except FileError Message :=
  let chunk_idx := chunk_idx % 2 ^ 16
  match f.file.getChunk H f.content chunk_idx with
  | .error e => .error e
  | .ok fchunk =>
    .ok { msg_type := MSGTYPE_FILE_CHUNK_DATA
          seq_number := seq_number % 2 ^ 16
          client_uuid := client_uuid
          file_name := server.filename f.path
          chunk_data := { idx := chunk_idx, data := fchunk.data } }

/-- Class `ClientRequestHandler`: the peer id and the map of offered files,
keyed by file name. -/
structure ClientRequestHandler where
  client_uuid : List Nat
  client_files : List (List Nat × ClientFile)
  deriving DecidableEq, Repr

/-- The exceptions that leave a method of the handler. -/
inductive HandlerError where
  | file (e : FileError)
  | codec (e : CodecError)
  deriving DecidableEq, Repr

/-- The tail of both handler methods: `response->serialize(buf)` followed by
`conn->sendBuffer(buf)`.  The result is the list of frames sent. -/
def send (response : Message) : Except HandlerError (List (List Nat)) :=
  match response.serialize [] with
  | .error e => .error (.codec e)
  | .ok buf => .ok [buf]

/-- Method `ClientRequestHandler::handleRequest`: the handler afterwards and
the frames sent on the connection, or the exception that leaves the
method. -/
def handleRequest (H : List Nat → List Nat) (h : ClientRequestHandler) (msg : Message) :
    ClientRequestHandler × Except HandlerError (List (List Nat)) :=
  if msg.client_uuid ≠ h.client_uuid then (h, .ok [])
  else
    match h.client_files.lookup msg.file_name with
    | none => (h, .ok [])
    | some file =>
      if msg.msg_type = MSGTYPE_FILE_CHUNK_REQ then
        match buildMsgChunkData H msg.seq_number h.client_uuid file
            msg.chunk_req.chunk_idx_first with
        | .error e => (h, .error (.file e))
        | .ok response => (h, send response)
      else if msg.msg_type = MSGTYPE_FILE_COMPLETE then
        ({ h with client_files := h.client_files.filter (fun kv => kv.1 ≠ msg.file_name) },
          .ok [])
      else (h, .ok [])

/-- Method `ClientRequestHandler::offer`: the handler afterwards and the
frames sent.  `std::map::insert` keeps an entry that is already there. -/
def offer (h : ClientRequestHandler) (f : ClientFile) :
    ClientRequestHandler × Except HandlerError (List (List Nat)) :=
  let key := server.filename f.path
  let files :=
    match h.client_files.lookup key with
    | some _ => h.client_files
    | none => h.client_files ++ [(key, f)]
  ({ h with client_files := files }, send (buildMsgOffer 1 h.client_uuid f))

/-- An uploader in the examples: peer id of 16 nines, nothing offered. -/
def exampleClient : ClientRequestHandler :=
  { client_uuid := List.replicate 16 9, client_files := [] }

/-- A local file "a" of 2^32 bytes with hash `exampleHash`; its content is
not needed for an offer. -/
def fourGiBFile : ClientFile :=
  { path := [97], file := { hash := exampleHash, size := 2 ^ 32 }, content := none }

/-- The OFFER frame that announces a file "a" of 0 bytes and 1082402
(0x108422) chunks with hash `exampleHash`. -/
def zeroSizeOfferFrame : List Nat :=
  [0x87, 0xFE, 0x77, 1, 0, 92, 0, 1] ++ List.replicate 16 9 ++ [1, 97] ++
    [0, 0, 0, 0] ++ [0, 0x10, 0x84, 0x22] ++ exampleHash

/-- The content of a file of 65537 chunks: chunk 0 holds ones, the other
chunks hold twos. -/
def bigContent : List Nat :=
  List.replicate 3968 1 ++ List.replicate (65536 * 3968) 2

/-- The local file "a" with content `bigContent`, as `makeLocalFile` makes it
with the digest `exampleDigest`: 65537 * 3968 bytes, and a hash of 64 bytes
128, the byte sum of the content modulo 256. -/
def bigFile : ClientFile :=
  { path := [97], file := { hash := List.replicate 64 128, size := server.bigSize },
    content := some bigContent }

/-- The example uploader after it has offered `bigFile`. -/
def bigClient : ClientRequestHandler :=
  { client_uuid := List.replicate 16 9, client_files := [([97], bigFile)] }

/-- A CHUNK_REQ for chunk 65536, the last chunk of `bigFile`. -/
def lastChunkReq : Message :=
  { msg_type := MSGTYPE_FILE_CHUNK_REQ, msg_len := 29, seq_number := 2,
    client_uuid := List.replicate 16 9, file_name := [97],
    chunk_req := { chunk_idx_first := 65536, chunk_idx_last := 0xFFFF } }

/-- The CHUNK_DATA message with sequence number `seq` for chunk 0 of
`bigFile`. -/
def firstChunkData (seq : Nat) : Message :=
  { msg_type := MSGTYPE_FILE_CHUNK_DATA, seq_number := seq,
    client_uuid := List.replicate 16 9, file_name := [97],
    chunk_data := { idx := 0, data := List.replicate 3968 1 } }

/-- A receiver disk for `bigFile` on which the chunks 0 to 65535 are marked
and the destination holds their bytes, while chunk 65536, the last one, is
unmarked and its bytes are still zero. -/
def resumeDisk : Disk :=
  { dest := some (List.replicate 3968 1 ++
      (List.replicate (65535 * 3968) 2 ++ List.replicate 3968 0))
    sidecar := some (nativeBytes8 server.bigSize ++ nativeBytes8 CHUNK_SIZE ++
      List.replicate 64 128 ++ (List.replicate 8192 0xFF ++ [0x00])) }

/-- A CHUNK_REQ message for the file "a" of the example uploader that asks
for chunk 0. -/
def requestsChunkZero (r : Message) : Bool :=
  decide (r.msg_type = MSGTYPE_FILE_CHUNK_REQ ∧ r.seq_number < 2 ^ 16 ∧
    r.client_uuid = List.replicate 16 9 ∧ r.file_name = [97] ∧
    r.chunk_req.chunk_idx_first = 0 ∧ r.chunk_req.chunk_idx_last = 0xFFFF)

/-- Method `ClientRequestHandler::uploadsCompleted`: the map of offered
files is empty. -/
def uploadsCompleted (h : ClientRequestHandler) : Bool :=
  h.client_files.isEmpty

/-- The handler after `offer` has been called for each file of a list, in
order (`main` offers one file and notes that more can be offered). -/
def offerAll (h : ClientRequestHandler) (files : List ClientFile) : ClientRequestHandler :=
  files.foldl (fun s f => (offer s f).1) h

/-- The handler after `handleRequest` has been called for each message of a
list, in order. -/
def handleAll (H : List Nat → List Nat) (h : ClientRequestHandler) (msgs : List Message) :
    ClientRequestHandler :=
  msgs.foldl (fun s m => (handleRequest H s m).1) h

/-- A COMPLETE message from the receiver for the file "a" of the example
uploader. -/
def completeMsg : Message :=
  { msg_type := MSGTYPE_FILE_COMPLETE, seq_number := 3,
    client_uuid := List.replicate 16 9, file_name := [97] }

/-- A CHUNK_REQ for chunk 0 of the file "a" of the example uploader. -/
def firstChunkReq : Message :=
  { msg_type := MSGTYPE_FILE_CHUNK_REQ, seq_number := 2,
    client_uuid := List.replicate 16 9, file_name := [97],
    chunk_req := { chunk_idx_first := 0, chunk_idx_last := 0xFFFF } }

end client

/-! ## `loop/ft_poll_grp.cpp`: the poll group -/

namespace loop

/-- The event bit `POLLIN` of `<poll.h>` on Linux. -/
def POLLIN : Nat := 0x001

/-- The event bit `POLLERR` of `<poll.h>` on Linux. -/
def POLLERR : Nat := 0x008

/-- The event bit `POLLHUP` of `<poll.h>` on Linux. -/
def POLLHUP : Nat := 0x010

/-- Class `Pollable`: the member `fd`; `id` stands for the identity of the
object, which is what two `PollablePtr` are compared by. -/
structure Pollable where
  id : Nat
  fd : Int
  deriving DecidableEq, Repr

/-- The `struct pollfd` of `<poll.h>`. -/
structure Pollfd where
  fd : Int
  events : Nat
  revents : Nat
  deriving DecidableEq, Repr

/-- Class `PollGroup`: its three members. -/
structure PollGroup where
  max_pollables : Nat
  pollables : List Pollable
  cached_pollfd : List Pollfd
  deriving DecidableEq, Repr

/-- The exception of `PollGroup::add`. -/
inductive PollError where
  | limitExceeded
  deriving DecidableEq, Repr

/-- The rebuild of `cached_pollfd` at the end of `add` and `remove`:
`resize(pollables.size())` followed by the loop that assigns `fd` and
`events` of every entry.  The member `revents` of an entry that `resize`
keeps is not assigned; an entry that `resize` appends is zero. -/
def rebuild : List Pollable → List Pollfd → List Pollfd
  | [], _ => []
  | p :: ps, [] => { fd := p.fd, events := POLLIN, revents := 0 } :: rebuild ps []
  | p :: ps, c :: cs => { fd := p.fd, events := POLLIN, revents := c.revents } :: rebuild ps cs

/-- Method `PollGroup::add`: the group afterwards and the exception, if
any. -/
def PollGroup.add (g : PollGroup) (pollable : Pollable) : PollGroup × Option PollError :=
  if g.pollables.length ≥ g.max_pollables then (g, some .limitExceeded)
  else
    let pollables := g.pollables ++ [pollable]
    ({ g with pollables := pollables, cached_pollfd := rebuild pollables g.cached_pollfd },
      none)

/-- Method `PollGroup::remove`: `std::find` stops at the first pointer to the
same object. -/
def PollGroup.remove (g : PollGroup) (pollable : Pollable) : PollGroup :=
  if g.pollables.any (fun q => q.id == pollable.id) then
    let pollables := g.pollables.eraseP (fun q => q.id == pollable.id)
    { g with pollables := pollables, cached_pollfd := rebuild pollables g.cached_pollfd }
  else g

/-- The call `poll(cached_pollfd.data(), cached_pollfd.size(), 500)`: the
kernel stores the events of entry `i`, given as `events[i]`, in its member
`revents`. -/
def pollStore : List Pollfd → List Nat → List Pollfd
  | [], _ => []
  | c :: cs, [] => { c with revents := 0 } :: pollStore cs []
  | c :: cs, e :: es => { c with revents := e } :: pollStore cs es

/-- The `for` loop of `PollGroup::pollAndHandle` from index `i` on.  The
first argument bounds the number of iterations; `handleEvent` is the effect
of the handler on its object (an exception of the handler is caught and
logged).  The result is the group afterwards and the identities of the
objects whose handler was invoked, in order.  After `remove` the statement
`i--` and the increment of the loop leave `i` as it is. -/
def PollGroup.handleFrom (handleEvent : Pollable → Pollable) :
    Nat → Nat → PollGroup → PollGroup × List Nat
  | 0, _, g => (g, [])
  | fuel + 1, i, g =>
    match g.pollables[i]?, g.cached_pollfd[i]? with
    | some p, some c =>
      if c.revents = 0 then PollGroup.handleFrom handleEvent fuel (i + 1) g
      else
        let readable := c.revents &&& POLLIN ≠ 0
        let p1 := if readable then handleEvent p else p
        let g1 := { g with pollables := g.pollables.set i p1 }
        let called := if readable then [p.id] else []
        if c.revents &&& POLLERR ≠ 0 ∨ c.revents &&& POLLHUP ≠ 0 ∨ p1.fd = -1 then
          let r := PollGroup.handleFrom handleEvent fuel i (g1.remove p1)
          (r.1, called ++ r.2)
        else
          let r := PollGroup.handleFrom handleEvent fuel (i + 1) g1
          (r.1, called ++ r.2)
    | _, _ => (g, [])

/-- Method `PollGroup::pollAndHandle` when `poll` reports the given events
(`ret > 0` when some entry has events).  Every iteration of the loop either
advances `i` or removes a handle, so the number of handles bounds the number
of iterations. -/
def PollGroup.pollAndHandle (handleEvent : Pollable → Pollable) (g : PollGroup)
    (events : List Nat) : PollGroup × List Nat :=
  let g0 := { g with cached_pollfd := pollStore g.cached_pollfd events }
  if g0.cached_pollfd.any (fun c => c.revents ≠ 0) then
    PollGroup.handleFrom handleEvent g0.pollables.length 0 g0
  else (g0, [])

/-- A handler that leaves its object as it is. -/
def idleHandler (p : Pollable) : Pollable := p

/-- A handler that invalidates its descriptor, as `Connection::handleEvent`
does when the peer has closed the socket. -/
def closingHandler (p : Pollable) : Pollable := { id := p.id, fd := -1 }

/-- A group of capacity 4 with two handles, objects 1 and 2 on descriptors 3
and 4, built with `add`. -/
def twoHandles : PollGroup :=
  ((PollGroup.add { max_pollables := 4, pollables := [], cached_pollfd := [] }
      { id := 1, fd := 3 }).1.add { id := 2, fd := 4 }).1

end loop

/-! ## `request/ft_req_brkr.cpp`: the request queue

The queue `sm_req_list` and the flag `sm_terminate` are only touched while
`sm_req_brkr_mtx` is held, so an execution is a sequence of critical regions,
in the order in which the threads hold the mutex.  A request is identified by
a number. -/

namespace request

/-- The static members of class `RequestBroker` that the critical regions
use. -/
structure RequestBroker where
  sm_req_list : List Nat := []
  sm_terminate : Bool := false
  deriving DecidableEq, Repr

/-- Method `RequestBroker::queueRequest`: `push_back` under the mutex. -/
def RequestBroker.queueRequest (s : RequestBroker) (request : Nat) : RequestBroker :=
  { s with sm_req_list := s.sm_req_list ++ [request] }

/-- The critical region of `RequestBroker::stopWorkers`. -/
def RequestBroker.stopWorkers (s : RequestBroker) : RequestBroker :=
  { s with sm_terminate := true }

/-- The critical region of `RequestBrokerWorker::run`, from the moment the
worker holds the mutex: the broker afterwards and the request taken, if any.
With an empty queue and the flag not set the worker waits on the condition
variable, which gives the mutex back with the state as it was; with the flag
set it leaves the region without a request; otherwise it takes `front()` and
does `pop_front()`. -/
def RequestBroker.workerTurn (s : RequestBroker) : RequestBroker × Option Nat :=
  if s.sm_req_list.isEmpty ∧ ¬ s.sm_terminate then (s, none)
  else if s.sm_terminate then (s, none)
  else
    match s.sm_req_list with
    | [] => (s, none)
    | req :: rest => ({ s with sm_req_list := rest }, some req)

/-- The critical regions of an execution: a call of `queueRequest`, one turn
of the worker with the given number, or `stopWorkers`. -/
inductive BrokerOp where
  | queueRequest (request : Nat)
  | workerTurn (worker : Nat)
  | stopWorkers
  deriving DecidableEq, Repr

/-- An interleaving, as the list of critical regions in the order in which
they hold the mutex: the broker at the end and the requests taken from the
queue, in order, each with the worker that took it. -/
def RequestBroker.run (s : RequestBroker) : List BrokerOp → RequestBroker × List (Nat × Nat)
  | [] => (s, [])
  | .queueRequest request :: ops => RequestBroker.run (s.queueRequest request) ops
  | .workerTurn worker :: ops =>
    let r := s.workerTurn
    let rs := RequestBroker.run r.1 ops
    (rs.1, (r.2.map (fun req => (worker, req))).toList ++ rs.2)
  | .stopWorkers :: ops => RequestBroker.run s.stopWorkers ops

/-- The requests that an interleaving enqueues, in order. -/
def enqueued : List BrokerOp → List Nat
  | [] => []
  | .queueRequest request :: ops => request :: enqueued ops
  | _ :: ops => enqueued ops

/-- An interleaving in the examples: two requests are queued, worker 1 takes
one, a third request is queued, and worker 0 takes two. -/
def exampleOps : List BrokerOp :=
  [.queueRequest 10, .queueRequest 11, .workerTurn 1, .queueRequest 12, .workerTurn 0,
    .workerTurn 0, .workerTurn 1]

end request
end ft

/-! # Theorems -/

namespace ft

namespace proto

theorem testBit_byte (v k j : Nat) :
    ((v >>> k) &&& 0xff).testBit j = (decide (j < 8) && v.testBit (k + j)) := by
  have h : (0xff : Nat) = 2 ^ 8 - 1 := by decide
  rw [h, Nat.testBit_and, Nat.testBit_shiftRight, Nat.testBit_two_pow_sub_one, Bool.and_comm]

theorem testBit_low (v j : Nat) :
    (v &&& 0xff).testBit j = (decide (j < 8) && v.testBit j) := by
  have h : (0xff : Nat) = 2 ^ 8 - 1 := by decide
  rw [h, Nat.testBit_and, Nat.testBit_two_pow_sub_one, Bool.and_comm]

theorem testBit_mask (b k i : Nat) :
    ((b <<< k) &&& (0xff <<< k)).testBit i
      = (decide (k ≤ i) && (decide (i - k < 8) && b.testBit (i - k))) := by
  have h : (0xff : Nat) = 2 ^ 8 - 1 := by decide
  rw [h, Nat.testBit_and, Nat.testBit_shiftLeft, Nat.testBit_shiftLeft, Nat.testBit_two_pow_sub_one]
  by_cases h1 : k ≤ i <;> simp [h1, Bool.and_comm]

theorem get_put_u16 (v : Nat) (h : v < 2 ^ 16) :
    ((((v >>> 8) &&& 0xff) <<< 8) &&& 0xff00) ||| ((v &&& 0xff) &&& 0x00ff) = v := by
  apply Nat.eq_of_testBit_eq
  intro i
  have e1 : (0xff00 : Nat) = 0xff <<< 8 := by decide
  rw [e1, Nat.testBit_or, testBit_mask, testBit_byte, testBit_low, testBit_low]
  by_cases h8 : i < 8
  · have : ¬ 8 ≤ i := by omega
    simp [h8, this]
  · by_cases h16 : i < 16
    · have a : 8 ≤ i := by omega
      have b : i - 8 < 8 := by omega
      have c : 8 + (i - 8) = i := by omega
      simp [h8, a, b, c]
    · have : v.testBit i = false := by
        apply Nat.testBit_lt_two_pow
        calc v < 2 ^ 16 := h
          _ ≤ 2 ^ i := Nat.pow_le_pow_right (by decide) (by omega)
      have b : ¬ i - 8 < 8 := by omega
      simp [h8, b, this]

theorem get_put_u32 (v : Nat) (h : v < 2 ^ 32) :
    ((((v >>> 24) &&& 0xff) <<< 24) &&& 0xff000000) |||
    ((((v >>> 16) &&& 0xff) <<< 16) &&& 0x00ff0000) |||
    ((((v >>> 8) &&& 0xff) <<< 8) &&& 0x0000ff00) |||
    ((v &&& 0xff) &&& 0x000000ff) = v := by
  apply Nat.eq_of_testBit_eq
  intro i
  have e1 : (0xff00 : Nat) = 0xff <<< 8 := by decide
  have e2 : (0xff0000 : Nat) = 0xff <<< 16 := by decide
  have e3 : (0xff000000 : Nat) = 0xff <<< 24 := by decide
  rw [e1, e2, e3]
  simp only [Nat.testBit_or, testBit_mask, testBit_byte, testBit_low]
  by_cases h8 : i < 8
  · have a1 : ¬ 8 ≤ i := by omega
    have a2 : ¬ 16 ≤ i := by omega
    have a3 : ¬ 24 ≤ i := by omega
    simp [h8, a1, a2, a3]
  · by_cases h16 : i < 16
    · have a : 8 ≤ i := by omega
      have b : i - 8 < 8 := by omega
      have c : 8 + (i - 8) = i := by omega
      have a2 : ¬ 16 ≤ i := by omega
      have a3 : ¬ 24 ≤ i := by omega
      simp [h8, a, b, c, a2, a3]
    · by_cases h24 : i < 24
      · have a : 16 ≤ i := by omega
        have b : i - 16 < 8 := by omega
        have c : 16 + (i - 16) = i := by omega
        have a1 : ¬ i - 8 < 8 := by omega
        have a3 : ¬ 24 ≤ i := by omega
        simp [h8, a, b, c, a1, a3]
      · by_cases h32 : i < 32
        · have a : 24 ≤ i := by omega
          have b : i - 24 < 8 := by omega
          have c : 24 + (i - 24) = i := by omega
          have a1 : ¬ i - 8 < 8 := by omega
          have a2 : ¬ i - 16 < 8 := by omega
          simp [h8, a, b, c, a1, a2]
        · have : v.testBit i = false := by
            apply Nat.testBit_lt_two_pow
            calc v < 2 ^ 32 := h
              _ ≤ 2 ^ i := Nat.pow_le_pow_right (by decide) (by omega)
          have a1 : ¬ i - 8 < 8 := by omega
          have a2 : ¬ i - 16 < 8 := by omega
          have a3 : ¬ i - 24 < 8 := by omega
          simp [h8, a1, a2, a3, this]

theorem getU32_putU32 (v : Nat) (h : v < 2 ^ 32) (rest : List Nat) :
    getU32 (putU32 v ++ rest) = .ok (v, rest) := by
  simp only [putU32, getU32, List.cons_append, List.nil_append]
  rw [get_put_u32 v h]

theorem getU16_putU16 (v : Nat) (h : v < 2 ^ 16) (rest : List Nat) :
    getU16 (putU16 v ++ rest) = .ok (v, rest) := by
  simp only [putU16, getU16, List.cons_append, List.nil_append]
  rw [get_put_u16 v h]

theorem copyN_append (a rest : List Nat) (n : Nat) (h : a.length = n) :
    copyN (a ++ rest) n = .ok (a, rest) := by
  subst h
  simp [copyN]

theorem copyN_all (a : List Nat) (n : Nat) (h : a.length = n) :
    copyN a n = .ok (a, []) := by
  have := copyN_append a [] n h
  simpa using this

/-- The bytes that `serialize` writes before the variant part, read back by
the constructor up to its `switch`. -/
theorem parse_prefix (t L seq : Nat) (uuid name var : List Nat)
    (ht : t < 2 ^ 32) (hL : L < 2 ^ 16) (hseq : seq < 2 ^ 16)
    (hu : uuid.length = 16) (hn : name.length ≤ 255) :
    Message.parse (putU32 t ++ putU16 L ++ (putU16 seq ++ uuid ++
        [name.length &&& 0xff] ++ name ++ var)) = 
    (let msg : Message :=
    { msg_type := t, msg_len := L, seq_number := seq,
      client_uuid := uuid, file_name := name }
  if t = MSGTYPE_FILE_OFFER then do
    let (file_size, it) ← getU32 var
    let (file_n_chunks, it) ← getU32 it
    let (file_hash, _) ← copyN it HASH_SIZE
    pure { msg with offer :=
      { file_size := file_size, file_n_chunks := file_n_chunks, file_hash := file_hash } }
  else if t = MSGTYPE_FILE_CHUNK_REQ then do
    let (chunk_idx_first, it) ← getU32 var
    let (chunk_idx_last, _) ← getU32 it
    pure { msg with chunk_req :=
      { chunk_idx_first := chunk_idx_first, chunk_idx_last := chunk_idx_last } }
  else if t = MSGTYPE_FILE_CHUNK_DATA then do
    let (idx, it) ← getU32 var
    let (chunk_len, it) ← getU16 it
    let (data, _) ← copyN it chunk_len
    pure { msg with chunk_data :=
      { idx := idx, data := data, hash := List.replicate CHUNK_HASH_SIZE 0 } }
  else if t = MSGTYPE_FILE_COMPLETE then
    pure msg
  else
    .error .notSupportedMsgType) := by
  have hlen : name.length &&& 0xff = name.length := by
    have h : (0xff : Nat) = 2 ^ 8 - 1 := by decide
    rw [h, Nat.and_pow_two_sub_one_eq_mod]
    exact Nat.mod_eq_of_lt (by omega)
  unfold Message.parse
  simp only [List.append_assoc]
  rw [getU32_putU32 t ht]
  simp only [bind, Except.bind]
  rw [getU16_putU16 L hL, ]
  simp only []
  rw [getU16_putU16 seq hseq]
  simp only []
  rw [copyN_append uuid _ 16 hu]
  simp only [List.cons_append, List.nil_append, getU8, hlen]
  rw [copyN_append name _ _ rfl]


theorem serializePayload_eq (m : Message) (hn : m.file_name.length ≤ 255) (var : List Nat)
    (hv : m.serializeVariant = .ok var) :
    m.serializePayload = .ok (putU16 m.seq_number ++ m.client_uuid ++
      [m.file_name.length &&& 0xff] ++ m.file_name ++ var) := by
  have h1 : (if m.file_name.length < UINT8_MAX then m.file_name.length else UINT8_MAX)
      = m.file_name.length := by
    unfold UINT8_MAX
    split <;> omega
  simp only [Message.serializePayload, h1, hv, bind, Except.bind, pure, Except.pure,
    List.take_length]

theorem serialize_eq (m : Message) (hn : m.file_name.length ≤ 255) (var out : List Nat)
    (hv : m.serializeVariant = .ok var) :
    m.serialize out = .ok (out ++ putU32 m.msg_type ++
      putU16 ((putU16 m.seq_number ++ m.client_uuid ++
        [m.file_name.length &&& 0xff] ++ m.file_name ++ var).length % 2 ^ 16) ++
      (putU16 m.seq_number ++ m.client_uuid ++
        [m.file_name.length &&& 0xff] ++ m.file_name ++ var)) := by
  simp only [Message.serialize, serializePayload_eq m hn var hv, bind, Except.bind, pure,
    Except.pure]

theorem serialize_frame (m : Message) (hn : m.file_name.length ≤ 255) (var : List Nat)
    (hv : m.serializeVariant = .ok var) :
    ∃ L, L < 2 ^ 16 ∧
      L = (putU16 m.seq_number ++ m.client_uuid ++
        [m.file_name.length &&& 0xff] ++ m.file_name ++ var).length % 2 ^ 16 ∧
      m.serialize [] = .ok (putU32 m.msg_type ++ putU16 L ++
        (putU16 m.seq_number ++ m.client_uuid ++
          [m.file_name.length &&& 0xff] ++ m.file_name ++ var)) := by
  refine ⟨_, Nat.mod_lt _ (by decide), rfl, ?_⟩
  rw [serialize_eq m hn var [] hv, List.nil_append]


/-- Shape of every frame that `serialize` produces for a message with a
16-byte peer id: magic, type tag, exact payload length, and a payload that
the constructor parses. -/
theorem serialize_wellFramed (m : Message) (f : List Nat)
    (hu : m.client_uuid.length = 16) (hseq : m.seq_number < 2 ^ 16)
    (hs : m.serialize [] = .ok f) :
    ∃ t L payload m', 0 < t ∧ t < 5 ∧ L < 2 ^ 16 ∧ payload.length = L ∧ 1 ≤ L ∧
      f = [0x87, 0xFE, 0x77, t] ++ putU16 L ++ payload ∧ Message.parse f = .ok m' := by
  -- the file name as written: at most 255 bytes of it
  obtain ⟨name, hname, hnl⟩ : ∃ name : List Nat,
      name = m.file_name.take
        (if m.file_name.length < UINT8_MAX then m.file_name.length else UINT8_MAX) ∧
      name.length = (if m.file_name.length < UINT8_MAX then m.file_name.length
        else UINT8_MAX) := by
    refine ⟨_, rfl, ?_⟩
    rw [List.length_take]
    unfold UINT8_MAX
    split <;> omega
  have hn : name.length ≤ 255 := by
    rw [hnl]; unfold UINT8_MAX; split <;> omega
  have hname' : List.take name.length m.file_name = name := by
    rw [hnl]; exact hname.symm
  have key : ∀ var : List Nat, m.serializeVariant = .ok var →
      f = putU32 m.msg_type ++ putU16 ((putU16 m.seq_number ++ m.client_uuid ++
        [name.length &&& 0xff] ++ name ++ var).length % 2 ^ 16) ++
        (putU16 m.seq_number ++ m.client_uuid ++ [name.length &&& 0xff] ++ name ++ var) := by
    intro var hv
    simp only [Message.serialize, Message.serializePayload, hv, bind, Except.bind, pure,
      Except.pure, List.nil_append, ← hnl, hname'] at hs
    injection hs with hs
    exact hs.symm
  have plen : ∀ var : List Nat, (putU16 m.seq_number ++ m.client_uuid ++
        [name.length &&& 0xff] ++ name ++ var).length = 19 + name.length + var.length := by
    intro var
    simp only [List.length_append, putU16, List.length_cons, List.length_nil, hu]
    try omega
  have d12 : MSGTYPE_FILE_CHUNK_REQ ≠ MSGTYPE_FILE_OFFER := by decide
  have d13 : MSGTYPE_FILE_CHUNK_DATA ≠ MSGTYPE_FILE_OFFER := by decide
  have d14 : MSGTYPE_FILE_COMPLETE ≠ MSGTYPE_FILE_OFFER := by decide
  have d23 : MSGTYPE_FILE_CHUNK_DATA ≠ MSGTYPE_FILE_CHUNK_REQ := by decide
  have d24 : MSGTYPE_FILE_COMPLETE ≠ MSGTYPE_FILE_CHUNK_REQ := by decide
  have d34 : MSGTYPE_FILE_COMPLETE ≠ MSGTYPE_FILE_CHUNK_DATA := by decide
  have hmod : ∀ n : Nat, n < 2 ^ 16 → n % 2 ^ 16 = n := fun n h => Nat.mod_eq_of_lt h
  by_cases ht1 : m.msg_type = MSGTYPE_FILE_OFFER
  · by_cases hh : HASH_SIZE ≤ m.offer.file_hash.length
    · have hv : m.serializeVariant = .ok (putU32 m.offer.file_size ++
          putU32 m.offer.file_n_chunks ++ m.offer.file_hash.take HASH_SIZE) := by
        simp only [Message.serializeVariant, ht1, if_true, hh]
      have hf := key _ hv
      have hl := plen (putU32 m.offer.file_size ++
          putU32 m.offer.file_n_chunks ++ m.offer.file_hash.take HASH_SIZE)
      have hvl : (putU32 m.offer.file_size ++
          putU32 m.offer.file_n_chunks ++ m.offer.file_hash.take HASH_SIZE).length = 72 := by
        simp only [List.length_append, putU32, List.length_cons, List.length_nil,
          List.length_take]
        unfold HASH_SIZE at hh ⊢
        omega
      have hlt : (putU16 m.seq_number ++ m.client_uuid ++
        [name.length &&& 0xff] ++ name ++ (putU32 m.offer.file_size ++
          putU32 m.offer.file_n_chunks ++ m.offer.file_hash.take HASH_SIZE)).length < 2 ^ 16 := by
        rw [hl, hvl]; omega
      rw [hmod _ hlt] at hf
      have hp := parse_prefix m.msg_type _ _ _ name (putU32 m.offer.file_size ++
          putU32 m.offer.file_n_chunks ++ m.offer.file_hash.take HASH_SIZE)
        (by rw [ht1]; decide) hlt hseq hu hn
      rw [← hf] at hp
      have h64 : (m.offer.file_hash.take HASH_SIZE).length = HASH_SIZE := by
        rw [List.length_take]; omega
      simp only [ht1, if_true, List.append_assoc, putU32, getU32, List.cons_append,
        List.nil_append, bind, Except.bind, copyN_all _ _ h64, pure, Except.pure] at hp
      refine ⟨1, _, _, _, by decide, by decide, hlt, rfl, by rw [hl]; omega, ?_, hp⟩
      rw [hf, ht1]
      rfl
    · simp only [Message.serialize, Message.serializePayload, Message.serializeVariant, ht1,
        if_true, hh, if_false, bind, Except.bind] at hs
      cases hs
  · by_cases ht2 : m.msg_type = MSGTYPE_FILE_CHUNK_REQ
    · have hv : m.serializeVariant = .ok (putU32 m.chunk_req.chunk_idx_first ++
          putU32 m.chunk_req.chunk_idx_last) := by
        simp only [Message.serializeVariant, ht2, d12, if_true, if_false]
      have hf := key _ hv
      have hl := plen (putU32 m.chunk_req.chunk_idx_first ++
          putU32 m.chunk_req.chunk_idx_last)
      have hvl : (putU32 m.chunk_req.chunk_idx_first ++
          putU32 m.chunk_req.chunk_idx_last).length = 8 := rfl
      have hlt : (putU16 m.seq_number ++ m.client_uuid ++
        [name.length &&& 0xff] ++ name ++ (putU32 m.chunk_req.chunk_idx_first ++
          putU32 m.chunk_req.chunk_idx_last)).length < 2 ^ 16 := by
        rw [hl, hvl]; omega
      rw [hmod _ hlt] at hf
      have hp := parse_prefix m.msg_type _ _ _ name (putU32 m.chunk_req.chunk_idx_first ++
          putU32 m.chunk_req.chunk_idx_last)
        (by rw [ht2]; decide) hlt hseq hu hn
      rw [← hf] at hp
      simp only [ht2, d12, if_true, if_false, List.append_assoc, putU32, getU32,
        List.cons_append, List.nil_append, bind, Except.bind, pure, Except.pure] at hp
      refine ⟨2, _, _, _, by decide, by decide, hlt, rfl, by rw [hl]; omega, ?_, hp⟩
      rw [hf, ht2]
      rfl
    · by_cases ht3 : m.msg_type = MSGTYPE_FILE_CHUNK_DATA
      · by_cases hd : m.chunk_data.data.length > MAX_MSG_PAYLOAD_SIZE ∨
            m.chunk_data.data.length = 0
        · simp only [Message.serialize, Message.serializePayload, Message.serializeVariant,
            ht3, d13, d23, if_true, hd, if_false, bind, Except.bind] at hs
          cases hs
        · have hdl : m.chunk_data.data.length < 2 ^ 16 ∧ m.chunk_data.data.length ≤ 3968 := by
            unfold MAX_MSG_PAYLOAD_SIZE MAX_MSG_SIZE at hd
            omega
          have hv : m.serializeVariant = .ok (putU32 m.chunk_data.idx ++
              putU16 (m.chunk_data.data.length % 2 ^ 16) ++ m.chunk_data.data) := by
            simp only [Message.serializeVariant, ht3, d13, d23, if_true, if_false, hd]
          rw [hmod _ hdl.1] at hv
          have hf := key _ hv
          have hl := plen (putU32 m.chunk_data.idx ++
              putU16 m.chunk_data.data.length ++ m.chunk_data.data)
          have hvl : (putU32 m.chunk_data.idx ++
              putU16 m.chunk_data.data.length ++ m.chunk_data.data).length
                = 6 + m.chunk_data.data.length := by
            simp only [List.length_append, putU32, putU16, List.length_cons, List.length_nil]
            try omega
          have hlt : (putU16 m.seq_number ++ m.client_uuid ++
            [name.length &&& 0xff] ++ name ++ (putU32 m.chunk_data.idx ++
              putU16 m.chunk_data.data.length ++ m.chunk_data.data)).length < 2 ^ 16 := by
            rw [hl, hvl]; omega
          rw [hmod _ hlt] at hf
          have hp := parse_prefix m.msg_type _ _ _ name (putU32 m.chunk_data.idx ++
              putU16 m.chunk_data.data.length ++ m.chunk_data.data)
            (by rw [ht3]; decide) hlt hseq hu hn
          rw [← hf] at hp
          simp only [ht3, d13, d23, if_true, if_false, List.append_assoc] at hp
          simp only [putU32, getU32, List.cons_append, List.nil_append, bind, Except.bind] at hp
          rw [getU16_putU16 _ hdl.1] at hp
          simp only [copyN_all _ _ rfl, pure, Except.pure] at hp
          refine ⟨3, _, _, _, by decide, by decide, hlt, rfl, by rw [hl]; omega, ?_, hp⟩
          rw [hf, ht3]
          rfl
      · by_cases ht4 : m.msg_type = MSGTYPE_FILE_COMPLETE
        · have hv : m.serializeVariant = .ok [] := by
            simp only [Message.serializeVariant, ht4, d14, d24, d34, if_true, if_false]
          have hf := key _ hv
          have hl := plen []
          have hlt : (putU16 m.seq_number ++ m.client_uuid ++
            [name.length &&& 0xff] ++ name ++ []).length < 2 ^ 16 := by
            rw [hl, List.length_nil]; omega
          rw [hmod _ hlt] at hf
          have hp := parse_prefix m.msg_type _ _ _ name []
            (by rw [ht4]; decide) hlt hseq hu hn
          rw [← hf] at hp
          simp only [ht4, d14, d24, d34, if_true, if_false, pure, Except.pure] at hp
          refine ⟨4, _, _, _, by decide, by decide, hlt, rfl, by rw [hl]; omega, ?_, hp⟩
          rw [hf, ht4]
          rfl
        · simp only [Message.serialize, Message.serializePayload, Message.serializeVariant,
            ht1, ht2, ht3, ht4, if_false, bind, Except.bind] at hs
          cases hs

/-- C1 (amended): for every valid message of the four variants, parsing the
bytes produced by `serialize` gives back its type, sequence number, peer id
and file name, the offer fields of an OFFER, the indices of a CHUNK_REQ, and
the index and data of a CHUNK_DATA; the chunk hash is not written by
`serialize`, and the parsed chunk hash is always 32 zero bytes. -/
theorem roundtrip_except_chunk_hash (m : Message) (hv : m.valid) :
    ∃ f m', m.serialize [] = .ok f ∧ Message.parse f = .ok m' ∧
      m'.msg_type = m.msg_type ∧ m'.seq_number = m.seq_number ∧
      m'.client_uuid = m.client_uuid ∧ m'.file_name = m.file_name ∧
      (m.msg_type = MSGTYPE_FILE_OFFER → m'.offer = m.offer) ∧
      (m.msg_type = MSGTYPE_FILE_CHUNK_REQ → m'.chunk_req = m.chunk_req) ∧
      (m.msg_type = MSGTYPE_FILE_CHUNK_DATA → m'.chunk_data.idx = m.chunk_data.idx ∧
        m'.chunk_data.data = m.chunk_data.data ∧
        m'.chunk_data.hash = List.replicate CHUNK_HASH_SIZE 0) := by
  obtain ⟨hseq, hu, hn, hcase⟩ := hv
  have hL : ∀ n : Nat, n % 2 ^ 16 < 2 ^ 16 := fun n => Nat.mod_lt _ (by decide)
  have d12 : MSGTYPE_FILE_CHUNK_REQ ≠ MSGTYPE_FILE_OFFER := by decide
  have d13 : MSGTYPE_FILE_CHUNK_DATA ≠ MSGTYPE_FILE_OFFER := by decide
  have d14 : MSGTYPE_FILE_COMPLETE ≠ MSGTYPE_FILE_OFFER := by decide
  have d23 : MSGTYPE_FILE_CHUNK_DATA ≠ MSGTYPE_FILE_CHUNK_REQ := by decide
  have d24 : MSGTYPE_FILE_COMPLETE ≠ MSGTYPE_FILE_CHUNK_REQ := by decide
  have d34 : MSGTYPE_FILE_COMPLETE ≠ MSGTYPE_FILE_CHUNK_DATA := by decide
  rcases hcase with ⟨ht, h1, h2, h3⟩ | ⟨ht, h1, h2⟩ | ⟨ht, h1, h2, h3, h4⟩ | ht
  · have hvar : m.serializeVariant = .ok (putU32 m.offer.file_size ++
        putU32 m.offer.file_n_chunks ++ m.offer.file_hash) := by
      simp only [Message.serializeVariant, ht, if_true, h3, le_refl]
      rw [← h3, List.take_length]
    obtain ⟨L, hLlt, -, hs⟩ := serialize_frame m hn _ hvar
    have hp := parse_prefix m.msg_type L _ _ _ (putU32 m.offer.file_size ++
        putU32 m.offer.file_n_chunks ++ m.offer.file_hash)
      (by rw [ht]; decide) hLlt hseq hu hn
    simp only [ht, if_true, List.append_assoc] at hp
    rw [getU32_putU32 _ h1] at hp
    simp only [bind, Except.bind] at hp
    rw [getU32_putU32 _ h2] at hp
    simp only [] at hp
    rw [copyN_all _ _ h3] at hp
    simp only [pure, Except.pure] at hp
    simp only [ht, List.append_assoc] at hs
    refine ⟨_, _, hs, hp, ht.symm, rfl, rfl, rfl, ?_, ?_, ?_⟩ <;> intro h <;>
      first
      | rfl
      | exact ⟨rfl, rfl, rfl⟩
      | (rw [ht] at h; exact absurd h (by decide))
  · have hvar : m.serializeVariant = .ok (putU32 m.chunk_req.chunk_idx_first ++
        putU32 m.chunk_req.chunk_idx_last) := by
      simp only [Message.serializeVariant, ht, if_true, d12, if_false]
    obtain ⟨L, hLlt, -, hs⟩ := serialize_frame m hn _ hvar
    have hp := parse_prefix m.msg_type L _ _ _ (putU32 m.chunk_req.chunk_idx_first ++
        putU32 m.chunk_req.chunk_idx_last)
      (by rw [ht]; decide) hLlt hseq hu hn
    simp only [ht, if_true, d12, if_false] at hp
    rw [getU32_putU32 _ h1] at hp
    simp only [bind, Except.bind] at hp
    have h2' := getU32_putU32 _ h2 []
    rw [List.append_nil] at h2'
    rw [h2'] at hp
    simp only [pure, Except.pure] at hp
    simp only [ht] at hs
    refine ⟨_, _, hs, hp, ht.symm, rfl, rfl, rfl, ?_, ?_, ?_⟩ <;> intro h <;>
      first
      | rfl
      | exact ⟨rfl, rfl, rfl⟩
      | (rw [ht] at h; exact absurd h (by decide))
  · have hlen : m.chunk_data.data.length % 2 ^ 16 = m.chunk_data.data.length := by
      unfold MAX_MSG_PAYLOAD_SIZE MAX_MSG_SIZE at h3
      omega
    have hvar : m.serializeVariant = .ok (putU32 m.chunk_data.idx ++
        putU16 (m.chunk_data.data.length % 2 ^ 16) ++ m.chunk_data.data) := by
      have : ¬ (m.chunk_data.data.length > MAX_MSG_PAYLOAD_SIZE ∨
          m.chunk_data.data.length = 0) := by omega
      simp only [Message.serializeVariant, ht, if_true, d13, d23, if_false, this]
    obtain ⟨L, hLlt, -, hs⟩ := serialize_frame m hn _ hvar
    have hp := parse_prefix m.msg_type L _ _ _ (putU32 m.chunk_data.idx ++
        putU16 (m.chunk_data.data.length % 2 ^ 16) ++ m.chunk_data.data)
      (by rw [ht]; decide) hLlt hseq hu hn
    simp only [ht, if_true, d13, d23, if_false, List.append_assoc] at hp
    rw [getU32_putU32 _ h1] at hp
    simp only [bind, Except.bind] at hp
    rw [getU16_putU16 _ (hL _)] at hp
    simp only [] at hp
    rw [copyN_all _ _ hlen.symm] at hp
    simp only [pure, Except.pure] at hp
    simp only [ht, List.append_assoc] at hs
    refine ⟨_, _, hs, hp, ht.symm, rfl, rfl, rfl, ?_, ?_, ?_⟩ <;> intro h <;>
      first
      | rfl
      | exact ⟨rfl, rfl, rfl⟩
      | (rw [ht] at h; exact absurd h (by decide))
  · have hvar : m.serializeVariant = .ok [] := by
      simp only [Message.serializeVariant, ht, if_true, d14, d24, d34, if_false]
    obtain ⟨L, hLlt, -, hs⟩ := serialize_frame m hn _ hvar
    have hp := parse_prefix m.msg_type L _ _ _ []
      (by rw [ht]; decide) hLlt hseq hu hn
    simp only [ht, if_true, d14, d24, d34, if_false, pure, Except.pure] at hp
    simp only [ht] at hs
    refine ⟨_, _, hs, hp, ht.symm, rfl, rfl, rfl, ?_, ?_, ?_⟩ <;> intro h <;>
      first
      | rfl
      | exact ⟨rfl, rfl, rfl⟩
      | (rw [ht] at h; exact absurd h (by decide))

/-- Witness for C1 (amended): the theorem at a concrete CHUNK_DATA message. -/
theorem roundtrip_except_chunk_hash_witness :
    exampleChunkData.valid ∧
    ∃ f m', exampleChunkData.serialize [] = .ok f ∧ Message.parse f = .ok m' ∧
      m'.msg_type = exampleChunkData.msg_type ∧
      m'.seq_number = exampleChunkData.seq_number ∧
      m'.client_uuid = exampleChunkData.client_uuid ∧
      m'.file_name = exampleChunkData.file_name ∧
      (exampleChunkData.msg_type = MSGTYPE_FILE_OFFER → m'.offer = exampleChunkData.offer) ∧
      (exampleChunkData.msg_type = MSGTYPE_FILE_CHUNK_REQ →
        m'.chunk_req = exampleChunkData.chunk_req) ∧
      (exampleChunkData.msg_type = MSGTYPE_FILE_CHUNK_DATA →
        m'.chunk_data.idx = exampleChunkData.chunk_data.idx ∧
        m'.chunk_data.data = exampleChunkData.chunk_data.data ∧
        m'.chunk_data.hash = List.replicate CHUNK_HASH_SIZE 0) :=
  ⟨by decide, roundtrip_except_chunk_hash exampleChunkData (by decide)⟩

/-- C1 (counterexample): a valid CHUNK_DATA message with a 32-byte chunk hash
of ones serializes to a frame that parses to a message whose chunk hash is 32
zero bytes, so the chunk hash does not survive the round trip. -/
theorem roundtrip_loses_chunk_hash :
    exampleChunkData.valid ∧
    exampleChunkData.msg_type = MSGTYPE_FILE_CHUNK_DATA ∧
    exampleChunkData.serialize [] = .ok exampleChunkDataFrame ∧
    (Message.parse exampleChunkDataFrame).toOption.map (fun m' => m'.chunk_data.hash)
      = some (List.replicate 32 0) ∧
    exampleChunkData.chunk_data.hash = List.replicate 32 1 ∧
    (Message.parse exampleChunkDataFrame).toOption.map (fun m' => m'.chunk_data.hash)
      ≠ some exampleChunkData.chunk_data.hash :=
  ⟨by decide, rfl, rfl, rfl, rfl, by decide⟩

end proto

namespace netwrk

open proto

theorem feed_append (c : Connection) (a b : List Nat) :
    c.feed (a ++ b) = ((Connection.feed (c.feed a).1 b).1,
      (c.feed a).2 ++ (Connection.feed (c.feed a).1 b).2) := by
  induction a generalizing c with
  | nil => simp [Connection.feed]
  | cons x xs ih =>
    rw [List.cons_append]
    simp only [Connection.feed]
    rw [ih]
    simp only [List.append_assoc]

theorem handleEvents_eq_feed (c : Connection) (reads : List (List Nat)) :
    c.handleEvents reads = c.feed reads.flatten := by
  induction reads generalizing c with
  | nil => simp [Connection.handleEvents, Connection.feed]
  | cons r rs ih =>
    simp only [Connection.handleEvents, Connection.handleEvent, List.flatten_cons,
      feed_append, ih]

/-- Payload phase: once the six envelope bytes are in the buffer, the rest of
the frame is accumulated and the last byte hands the whole frame over. -/
theorem feed_payload (rest : List Nat) : ∀ (c : Connection) (m : Message),
    6 ≤ c.msg_buf.length → c.msg_len < 2 ^ 16 → rest ≠ [] →
    c.msg_buf.length + rest.length = c.msg_len + 6 →
    Message.parse (c.msg_buf ++ rest) = .ok m →
    c.feed rest = ({ msg_buf := [], msg_len := 0 }, [c.msg_buf ++ rest]) := by
  induction rest with
  | nil => intro c m _ _ h; exact absurd rfl h
  | cons b bs ih =>
    intro c m h6 hL _ hlen hp
    have n0 : ¬ (c.msg_buf.length = 0 ∧ b = MAGIC1) := by omega
    have n1 : ¬ (c.msg_buf.length = 1 ∧ b = MAGIC2) := by omega
    have n2 : ¬ (c.msg_buf.length = 2 ∧ b = MAGIC3) := by omega
    have n3 : ¬ (c.msg_buf.length = 3 ∧ b > 0 ∧ b < MAX_MSG_TYPE) := by omega
    have n4 : ¬ (c.msg_buf.length = 4) := by omega
    have n5 : ¬ (c.msg_buf.length = 5) := by omega
    rw [List.length_cons] at hlen
    cases bs with
    | nil =>
      rw [List.length_nil] at hlen
      have e1 : ¬ (c.msg_buf.length ≥ 6 ∧
          c.msg_buf.length < (c.msg_len + 6 - 1) % 2 ^ 64) := by omega
      have e2 : c.msg_buf.length = (c.msg_len + 6 - 1) % 2 ^ 64 := by omega
      have step : c.handleByte b = ({ msg_buf := [], msg_len := 0 }, some (c.msg_buf ++ [b])) := by
        unfold Connection.handleByte
        simp only []
        rw [if_neg n0, if_neg n1, if_neg n2, if_neg n3, if_neg n4, if_neg n5, if_neg e1,
          if_pos e2, hp]
      simp only [Connection.feed, step, Option.toList, List.append_nil]
    | cons b2 bs2 =>
      rw [List.length_cons] at hlen
      have e1 : (c.msg_buf.length ≥ 6 ∧
          c.msg_buf.length < (c.msg_len + 6 - 1) % 2 ^ 64) := by omega
      have step : c.handleByte b = ({ c with msg_buf := c.msg_buf ++ [b] }, none) := by
        unfold Connection.handleByte
        simp only []
        rw [if_neg n0, if_neg n1, if_neg n2, if_neg n3, if_neg n4, if_neg n5, if_pos e1]
      rw [Connection.feed, step]
      have := ih { c with msg_buf := c.msg_buf ++ [b] } m
        (by simp only [List.length_append, List.length_cons, List.length_nil]; omega) hL (by simp)
        (by simp only [List.length_append, List.length_cons, List.length_nil]; omega)
        (by simpa using hp)
      simp only [this, Option.toList, List.nil_append, List.append_assoc, List.singleton_append]

/-- A whole frame fed to an idle connection is handed over exactly once and
leaves the connection idle. -/
theorem feed_frame (t L : Nat) (payload : List Nat) (m : Message)
    (ht0 : 0 < t) (ht : t < 5) (hL : L < 2 ^ 16) (hlen : payload.length = L) (h1 : 1 ≤ L)
    (hp : Message.parse ([0x87, 0xFE, 0x77, t] ++ putU16 L ++ payload) = .ok m) :
    Connection.feed { msg_buf := [], msg_len := 0 } ([0x87, 0xFE, 0x77, t] ++ putU16 L ++ payload)
      = ({ msg_buf := [], msg_len := 0 }, [[0x87, 0xFE, 0x77, t] ++ putU16 L ++ payload]) := by
  have hget := get_put_u16 L hL
  have hhdr : Connection.feed { msg_buf := [], msg_len := 0 } ([0x87, 0xFE, 0x77, t] ++ putU16 L)
      = ({ msg_buf := [0x87, 0xFE, 0x77, t] ++ putU16 L, msg_len := L }, []) := by
    have a1 : (0x87 : Nat) = MAGIC1 := by decide
    have a2 : (0xFE : Nat) = MAGIC2 := by decide
    have a3 : (0x77 : Nat) = MAGIC3 := by decide
    have a4 : t < MAX_MSG_TYPE := by
      have : MAX_MSG_TYPE = 5 := by decide
      omega
    have b2 : ¬ (0xFE : Nat) = MAGIC1 := by decide
    simp only [putU16, List.cons_append, List.nil_append, Connection.feed, Connection.handleByte,
      List.length_nil, List.length_cons, a1, a2, a3]
    simp [a4, ht0, hget]
  rw [feed_append, hhdr]
  have := feed_payload payload { msg_buf := [0x87, 0xFE, 0x77, t] ++ putU16 L, msg_len := L } m
    (by simp [putU16]) hL (by intro h; rw [h] at hlen; simp at hlen; omega)
    (by simp [putU16]; omega) hp
  simp only [this, List.nil_append]

/-- C2: from an idle connection (empty accumulator, expected length 0), any
sequence of reads whose concatenation is the concatenation of frames produced
by `serialize` hands exactly those frames, in order, to `handleMessage`,
nothing else, and leaves the connection idle. -/
theorem framing_clean_stream (ms : List Message) (frames reads : List (List Nat))
    (hty : ∀ m ∈ ms, m.client_uuid.length = 16 ∧ m.seq_number < 2 ^ 16)
    (hser : List.Forall₂ (fun m f => m.serialize [] = .ok f) ms frames)
    (hsplit : reads.flatten = frames.flatten) :
    Connection.handleEvents { msg_buf := [], msg_len := 0 } reads
      = ({ msg_buf := [], msg_len := 0 }, frames) := by
  rw [handleEvents_eq_feed, hsplit]
  clear hsplit
  induction hser with
  | nil => rfl
  | @cons m f ms' fs' hmf _ ih =>
    obtain ⟨hu, hseq⟩ := hty m (List.mem_cons_self _ _)
    obtain ⟨t, L, payload, m', ht0, ht, hL, hlen, h1, hf, hp⟩ :=
      serialize_wellFramed m f hu hseq hmf
    have hone := feed_frame t L payload m' ht0 ht hL hlen h1 (hf ▸ hp)
    rw [← hf] at hone
    rw [List.flatten_cons, feed_append, hone,
      ih (fun x hx => hty x (List.mem_cons_of_mem _ hx))]
    rfl

/-- Witness for C2: two frames delivered in three reads that cut through
both of them. -/
theorem framing_clean_stream_witness :
    (∀ m ∈ [exampleChunkData, exampleComplete], m.client_uuid.length = 16 ∧
      m.seq_number < 2 ^ 16) ∧
    List.Forall₂ (fun m f => m.serialize [] = .ok f) [exampleChunkData, exampleComplete]
      [exampleChunkDataFrame, exampleCompleteFrame] ∧
    exampleReads.flatten = [exampleChunkDataFrame, exampleCompleteFrame].flatten ∧
    Connection.handleEvents { msg_buf := [], msg_len := 0 } exampleReads
      = ({ msg_buf := [], msg_len := 0 }, [exampleChunkDataFrame, exampleCompleteFrame]) :=
  ⟨by decide, List.Forall₂.cons rfl (List.Forall₂.cons rfl List.Forall₂.nil), by decide,
    framing_clean_stream [exampleChunkData, exampleComplete]
      [exampleChunkDataFrame, exampleCompleteFrame] exampleReads (by decide)
      (List.Forall₂.cons rfl (List.Forall₂.cons rfl List.Forall₂.nil)) (by decide)⟩

end netwrk

namespace file
open proto

theorem testBit_set_bit (old j i : Nat) :
    (old ||| 2 ^ j).testBit i = (old.testBit i || decide (j = i)) := by
  rw [Nat.testBit_or, Nat.testBit_two_pow]

theorem testBit_clear_bit (old j i : Nat) (hold : old < 256) :
    (old &&& (0xFF ^^^ 2 ^ j)).testBit i = (old.testBit i && !decide (j = i)) := by
  have h : (0xFF : Nat) = 2 ^ 8 - 1 := by decide
  rw [Nat.testBit_and, Nat.testBit_xor, Nat.testBit_two_pow, h, Nat.testBit_two_pow_sub_one]
  by_cases hi : i < 8
  · by_cases hji : j = i <;> simp [hi, hji]
  · have : old.testBit i = false := by
      apply Nat.testBit_lt_two_pow
      calc old < 2 ^ 8 := hold
        _ ≤ 2 ^ i := Nat.pow_le_pow_right (by decide) (by omega)
    simp [this]

theorem mark_bit_value (k : Nat) : (1 <<< (7 - k % 8)) % 2 ^ 8 = 2 ^ (7 - k % 8) := by
  rw [Nat.shiftLeft_eq, Nat.one_mul]
  apply Nat.mod_eq_of_lt
  exact Nat.pow_lt_pow_right (by decide) (by omega)

/-- C5: on a sidecar of the constructor's length, `markChunk(k, v)` with
`k < n_chunks` keeps the length, changes no byte other than the one at offset
`80 + k / 8`, and in that byte sets bit `7 - k mod 8` to `v` and leaves every
other bit as it was. -/
theorem markChunk_rewrites_one_bit (size : Nat) (hash bytes : List Nat) (k : Nat) (v : Bool)
    (hlen : bytes.length = (FileMetadata.new size CHUNK_SIZE hash).header_size +
      (FileMetadata.new size CHUNK_SIZE hash).bitmap_size)
    (hb : ∀ b ∈ bytes, b < 256)
    (hk : k < (FileMetadata.new size CHUNK_SIZE hash).file_n_chunks) :
    ∃ bytes', (FileMetadata.new size CHUNK_SIZE hash).markChunk (some bytes) k v = some bytes' ∧
      bytes'.length = bytes.length ∧
      (∀ i, i ≠ 80 + k / 8 → bytes'[i]? = bytes[i]?) ∧
      ∃ old new, bytes[80 + k / 8]? = some old ∧ bytes'[80 + k / 8]? = some new ∧
        new.testBit (7 - k % 8) = v ∧ ∀ j, j ≠ 7 - k % 8 → new.testBit j = old.testBit j := by
  generalize hmd : FileMetadata.new size CHUNK_SIZE hash = md at hlen hk
  have h80 : md.header_size = 80 := by rw [← hmd]; rfl
  have hbm : md.bitmap_size = md.file_n_chunks / 8 + (if md.file_n_chunks % 8 > 0 then 1 else 0) := by
    rw [← hmd]; rfl
  have hn : md.file_n_chunks < 2 ^ 64 := by
    rw [← hmd]; exact Nat.mod_lt _ (by decide)
  have hpos : (md.header_size + k / 8) % 2 ^ 64 = 80 + k / 8 := by
    rw [h80]; omega
  have hin : 80 + k / 8 < bytes.length := by
    rw [hlen, h80, hbm]
    split <;> omega
  have hold : bytes[80 + k / 8] < 256 := hb _ (List.getElem_mem _)
  have hget : bytes[80 + k / 8]? = some bytes[80 + k / 8] := List.getElem?_eq_getElem hin
  cases v
  · refine ⟨bytes.set (80 + k / 8) (bytes[80 + k / 8] &&& (0xFF ^^^ 2 ^ (7 - k % 8))),
      ?_, List.length_set _ _ _, fun i hi => List.getElem?_set_ne (Ne.symm hi),
      bytes[80 + k / 8], bytes[80 + k / 8] &&& (0xFF ^^^ 2 ^ (7 - k % 8)), hget,
      List.getElem?_set_self (by simpa using hin), ?_, ?_⟩
    · simp only [FileMetadata.markChunk, hpos, hget, mark_bit_value]
      rfl
    · simp [testBit_clear_bit _ _ _ hold]
    · intro j hne
      simp [testBit_clear_bit _ _ _ hold, Ne.symm hne]
  · refine ⟨bytes.set (80 + k / 8) (bytes[80 + k / 8] ||| 2 ^ (7 - k % 8)),
      ?_, List.length_set _ _ _, fun i hi => List.getElem?_set_ne (Ne.symm hi),
      bytes[80 + k / 8], bytes[80 + k / 8] ||| 2 ^ (7 - k % 8), hget,
      List.getElem?_set_self (by simpa using hin), ?_, ?_⟩
    · simp only [FileMetadata.markChunk, hpos, hget, mark_bit_value]
      rfl
    · simp [testBit_set_bit]
    · intro j hne
      simp [testBit_set_bit, Ne.symm hne]

/-- Witness for C5: chunk 1 of a three-chunk sidecar is marked. -/
theorem markChunk_rewrites_one_bit_witness :
    (exampleSidecar.length = (FileMetadata.new 10000 CHUNK_SIZE exampleHash).header_size +
      (FileMetadata.new 10000 CHUNK_SIZE exampleHash).bitmap_size) ∧
    (∀ b ∈ exampleSidecar, b < 256) ∧
    1 < (FileMetadata.new 10000 CHUNK_SIZE exampleHash).file_n_chunks ∧
    ∃ bytes', (FileMetadata.new 10000 CHUNK_SIZE exampleHash).markChunk
        (some exampleSidecar) 1 true = some bytes' ∧
      bytes'.length = exampleSidecar.length ∧
      (∀ i, i ≠ 80 + 1 / 8 → bytes'[i]? = exampleSidecar[i]?) ∧
      ∃ old new, exampleSidecar[80 + 1 / 8]? = some old ∧ bytes'[80 + 1 / 8]? = some new ∧
        new.testBit (7 - 1 % 8) = true ∧ ∀ j, j ≠ 7 - 1 % 8 → new.testBit j = old.testBit j :=
  ⟨by decide, by decide, by decide,
    markChunk_rewrites_one_bit 10000 exampleHash exampleSidecar 1 true
      (by decide) (by decide) (by decide)⟩

end file

namespace file
open proto

/-- The scan loop adds its count to the starting value. -/
theorem scanBits_add (b : Nat) : ∀ (i r : Nat), r + i < 2 ^ 64 →
    scanBits b i r = r + scanBits b i 0 := by
  intro i
  induction i with
  | zero => intro r _; simp [scanBits]
  | succ i ih =>
    intro r hr
    simp only [scanBits]
    split
    · rw [ih ((r + 1) % 2 ^ 64) (by omega), ih ((0 + 1) % 2 ^ 64) (by omega)]
      omega
    · rfl

set_option maxRecDepth 1000000 in
/-- For a byte other than 0xFF the scan loop counts the ones before the first
zero, seen from the most significant bit. -/
theorem scanBits_byte : ∀ b, b < 256 → b ≠ 255 →
    scanBits b 8 0 < 8 ∧ b.testBit (7 - scanBits b 8 0) = false ∧
    ∀ i, i < scanBits b 8 0 → b.testBit (7 - i) = true := by
  decide

theorem readWhileFF_all (l : List Nat) : ∀ p : Nat, (∀ b ∈ l, b = 255) →
    readWhileFF l p = (255, p + l.length) := by
  induction l with
  | nil => intro p _; rfl
  | cons x xs ih =>
    intro p h
    have hx : x = 255 := h x (List.mem_cons_self _ _)
    rw [readWhileFF, if_pos hx, ih (p + 1) (fun b hb => h b (List.mem_cons_of_mem _ hb))]
    simp only [List.length_cons, Prod.mk.injEq, true_and]
    omega

theorem readWhileFF_first (l : List Nat) : ∀ p : Nat, (∃ b ∈ l, b ≠ 255) →
    ∃ j b, l[j]? = some b ∧ b ≠ 255 ∧ (∀ i, i < j → l[i]? = some 255) ∧
      readWhileFF l p = (b, p + j + 1) := by
  induction l with
  | nil => intro p ⟨b, hb, _⟩; cases hb
  | cons x xs ih =>
    intro p h
    by_cases hx : x = 255
    · have h2 : ∃ b ∈ xs, b ≠ 255 := by
        obtain ⟨b, hb, hne⟩ := h
        rcases List.mem_cons.mp hb with rfl | hb
        · exact absurd hx hne
        · exact ⟨b, hb, hne⟩
      obtain ⟨j, b, hj, hb, hall, hr⟩ := ih (p + 1) h2
      refine ⟨j + 1, b, by simpa using hj, hb, ?_, ?_⟩
      · intro i hi
        cases i with
        | zero => simp [hx]
        | succ i => simpa using hall i (by omega)
      · rw [readWhileFF, if_pos hx, hr]
        simp only [Prod.mk.injEq, true_and]
        omega
    · refine ⟨0, x, by simp, hx, fun i hi => absurd hi (by omega), ?_⟩
      rw [readWhileFF, if_neg hx]

theorem toSizeT_tellg (j : Nat) (h : 81 + j < 2 ^ 31) :
    toSizeT ((toInt32 (80 + j + 1) - (80 : Nat) - 1) * 8) = 8 * j := by
  have h1 : (80 + j + 1) % 2 ^ 32 = 80 + j + 1 := Nat.mod_eq_of_lt (by omega)
  have h2 : toInt32 (80 + j + 1) = ((80 + j + 1 : Nat) : Int) := by
    unfold toInt32
    rw [h1, if_pos (by omega)]
  rw [h2]
  unfold toSizeT
  omega

theorem chunkMarked_of_byte (bytes : List Nat) (k b : Nat)
    (h : bytes[80 + k / 8]? = some b) :
    chunkMarked bytes k = b.testBit (7 - k % 8) := by
  unfold chunkMarked
  rw [List.getD_eq_getElem?_getD, h]
  rfl

/-- What `nextMissingChunk(0)` computes on a sidecar shorter than 2^31 bytes:
either every bitmap byte is 0xFF and the result is the sentinel, or the
result is decided by the first zero bit `q` of the bitmap. -/
theorem nextMissingChunk_core (md : FileMetadata) (bytes : List Nat)
    (h80 : md.header_size = 80) (hb : ∀ b ∈ bytes, b < 256)
    (hsmall : bytes.length < 2 ^ 31) :
    ((∀ i b, 80 ≤ i → bytes[i]? = some b → b = 255) ∧
      md.nextMissingChunk (some bytes) 0 = UINT64_MAX) ∨
    (∃ q, 80 + q / 8 < bytes.length ∧ chunkMarked bytes q = false ∧
      (∀ k, k < q → chunkMarked bytes k = true) ∧
      md.nextMissingChunk (some bytes) 0 = if q < md.file_n_chunks then q else UINT64_MAX) := by
  have hstart : (80 + 0 / 8) % 2 ^ 64 = 80 := by decide
  by_cases hall : ∀ b ∈ bytes.drop 80, b = 255
  · left
    constructor
    · intro i b hi hget
      apply hall
      have : (bytes.drop 80)[i - 80]? = some b := by
        rw [List.getElem?_drop]
        rw [show 80 + (i - 80) = i by omega]
        exact hget
      exact List.getElem?_mem this
    · simp only [FileMetadata.nextMissingChunk, h80, hstart, readWhileFF_all _ 80 hall]
      simp
  · right
    have hex : ∃ b ∈ bytes.drop 80, b ≠ 255 := by
      by_contra hcon
      apply hall
      intro b hb'
      by_contra hne
      exact hcon ⟨b, hb', hne⟩
    obtain ⟨j, b, hj, hbne, hbefore, hr⟩ := readWhileFF_first (bytes.drop 80) 80 hex
    rw [List.getElem?_drop] at hj
    have hjlt : 80 + j < bytes.length := by
      by_contra hcon
      rw [List.getElem?_eq_none (by omega)] at hj
      cases hj
    have hb256 : b < 256 := hb b (List.getElem?_mem hj)
    obtain ⟨hc8, hczero, hcones⟩ := scanBits_byte b hb256 hbne
    have hscan : scanBits b 8 (8 * j) = 8 * j + scanBits b 8 0 :=
      scanBits_add b 8 (8 * j) (by omega)
    refine ⟨8 * j + scanBits b 8 0, ?_, ?_, ?_, ?_⟩
    · have : (8 * j + scanBits b 8 0) / 8 = j := by omega
      rw [this]; exact hjlt
    · have h1 : (8 * j + scanBits b 8 0) / 8 = j := by omega
      have h2 : (8 * j + scanBits b 8 0) % 8 = scanBits b 8 0 := by omega
      rw [chunkMarked_of_byte bytes _ b (by rw [h1]; exact hj), h2]
      exact hczero
    · intro k hk
      by_cases hkj : k / 8 < j
      · have := hbefore (k / 8) hkj
        rw [List.getElem?_drop] at this
        rw [chunkMarked_of_byte bytes k 255 this]
        have : k % 8 < 8 := Nat.mod_lt _ (by decide)
        generalize k % 8 = m at this
        interval_cases m <;> decide
      · have h1 : k / 8 = j := by omega
        have h2 : k % 8 < scanBits b 8 0 := by omega
        rw [chunkMarked_of_byte bytes k b (by rw [h1]; exact hj)]
        exact hcones _ h2
    · simp only [FileMetadata.nextMissingChunk, h80, hstart, hr]
      rw [if_pos hbne, toSizeT_tellg j (by omega), hscan]

/-- C4 (amended): on a sidecar of 80 header bytes and ceil(n_chunks / 8)
bitmap bytes that is shorter than 2^31 bytes, `nextMissingChunk(0)` returns
the smallest unmarked chunk index below `n_chunks`, returns the sentinel if
and only if every chunk below `n_chunks` is marked, and returns the sentinel
for `n_chunks = 0`; padding bits do not matter. -/
theorem nextMissingChunk_zero_spec (md : FileMetadata) (bytes : List Nat)
    (h80 : md.header_size = 80)
    (hlen : bytes.length =
      80 + (md.file_n_chunks / 8 + (if md.file_n_chunks % 8 > 0 then 1 else 0)))
    (hb : ∀ b ∈ bytes, b < 256)
    (hsmall : bytes.length < 2 ^ 31) :
    (∀ k, k < md.file_n_chunks → chunkMarked bytes k = false →
      (∀ j, j < k → chunkMarked bytes j = true) →
      md.nextMissingChunk (some bytes) 0 = k) ∧
    (md.nextMissingChunk (some bytes) 0 = UINT64_MAX ↔
      ∀ k, k < md.file_n_chunks → chunkMarked bytes k = true) ∧
    (md.file_n_chunks = 0 → md.nextMissingChunk (some bytes) 0 = UINT64_MAX) := by
  have hn : md.file_n_chunks < 2 ^ 34 := by
    rw [hlen] at hsmall
    split at hsmall <;> omega
  have hmax : UINT64_MAX = 2 ^ 64 - 1 := rfl
  rcases nextMissingChunk_core md bytes h80 hb hsmall with ⟨hff, hr⟩ | ⟨q, hq, hq0, hq1, hr⟩
  · have hallm : ∀ k, k < md.file_n_chunks → chunkMarked bytes k = true := by
      intro k hk
      have hin : 80 + k / 8 < bytes.length := by
        rw [hlen]; split <;> omega
      have hget : bytes[80 + k / 8]? = some bytes[80 + k / 8] := List.getElem?_eq_getElem hin
      have h255 := hff _ _ (by omega) hget
      rw [chunkMarked_of_byte bytes k _ hget, h255]
      have : k % 8 < 8 := Nat.mod_lt _ (by decide)
      generalize k % 8 = m at this
      interval_cases m <;> decide
    refine ⟨?_, ?_, fun _ => hr⟩
    · intro k hk hk0 _
      rw [hallm k hk] at hk0
      cases hk0
    · exact ⟨fun _ => hallm, fun _ => hr⟩
  · by_cases hqn : q < md.file_n_chunks
    · rw [if_pos hqn] at hr
      refine ⟨?_, ?_, ?_⟩
      · intro k hk hk0 hbefore
        rw [hr]
        rcases Nat.lt_trichotomy q k with h | h | h
        · have := hbefore q h
          rw [hq0] at this
          cases this
        · exact h
        · have := hq1 k h
          rw [hk0] at this
          cases this
      · constructor
        · intro h
          rw [hr, hmax] at h
          omega
        · intro h
          have := h q hqn
          rw [hq0] at this
          cases this
      · intro h0
        omega
    · rw [if_neg hqn] at hr
      have hallm : ∀ k, k < md.file_n_chunks → chunkMarked bytes k = true :=
        fun k hk => hq1 k (by omega)
      refine ⟨?_, ⟨fun _ => hallm, fun _ => hr⟩, fun _ => hr⟩
      intro k hk hk0 _
      rw [hallm k hk] at hk0
      cases hk0

/-- Witness for C4 (amended): the sidecar of a three-chunk file with chunk 0
marked. -/
theorem nextMissingChunk_zero_spec_witness :
    (FileMetadata.new 10000 CHUNK_SIZE exampleHash).header_size = 80 ∧
    (exampleSidecar.length =
      80 + ((FileMetadata.new 10000 CHUNK_SIZE exampleHash).file_n_chunks / 8 +
        (if (FileMetadata.new 10000 CHUNK_SIZE exampleHash).file_n_chunks % 8 > 0
          then 1 else 0))) ∧
    (∀ b ∈ exampleSidecar, b < 256) ∧
    exampleSidecar.length < 2 ^ 31 ∧
    (∀ k, k < (FileMetadata.new 10000 CHUNK_SIZE exampleHash).file_n_chunks →
      chunkMarked exampleSidecar k = false →
      (∀ j, j < k → chunkMarked exampleSidecar j = true) →
      (FileMetadata.new 10000 CHUNK_SIZE exampleHash).nextMissingChunk
        (some exampleSidecar) 0 = k) ∧
    ((FileMetadata.new 10000 CHUNK_SIZE exampleHash).nextMissingChunk
        (some exampleSidecar) 0 = UINT64_MAX ↔
      ∀ k, k < (FileMetadata.new 10000 CHUNK_SIZE exampleHash).file_n_chunks →
        chunkMarked exampleSidecar k = true) ∧
    ((FileMetadata.new 10000 CHUNK_SIZE exampleHash).file_n_chunks = 0 →
      (FileMetadata.new 10000 CHUNK_SIZE exampleHash).nextMissingChunk
        (some exampleSidecar) 0 = UINT64_MAX) :=
  ⟨by decide, by decide, by decide, by decide,
    nextMissingChunk_zero_spec (FileMetadata.new 10000 CHUNK_SIZE exampleHash) exampleSidecar
      (by decide) (by decide) (by decide) (by decide)⟩

theorem readWhileFF_replicate (m : Nat) (l : List Nat) : ∀ p : Nat,
    readWhileFF (List.replicate m 0xFF ++ l) p = readWhileFF l (p + m) := by
  induction m with
  | zero => intro p; rfl
  | succ m ih =>
    intro p
    rw [List.replicate_succ, List.cons_append, readWhileFF, if_pos rfl, ih (p + 1)]
    congr 1
    omega

theorem hugeSidecar_header_length :
    (nativeBytes8 hugeSize ++ nativeBytes8 3968 ++ exampleHash).length = 80 := by
  decide

theorem hugeSidecar_length : hugeSidecar.length = 2 ^ 31 := by
  unfold hugeSidecar
  rw [List.length_append, hugeSidecar_header_length, List.length_append,
    List.length_replicate]
  decide

theorem hugeSidecar_bytes : ∀ b ∈ hugeSidecar, b < 256 := by
  intro b hb
  unfold hugeSidecar at hb
  rcases List.mem_append.mp hb with h | h
  · clear hb
    revert b
    decide
  · rcases List.mem_append.mp h with h | h
    · rw [List.eq_of_mem_replicate h]; decide
    · rw [List.mem_singleton.mp h]; decide

theorem hugeSidecar_unmarked : chunkMarked hugeSidecar (2 ^ 34 - 648) = false := by
  have hidx : 80 + (2 ^ 34 - 648) / 8 = 80 + (2 ^ 31 - 81) := by decide
  have hget : hugeSidecar[80 + (2 ^ 34 - 648) / 8]? = some 0 := by
    unfold hugeSidecar
    rw [hidx, List.getElem?_append_right (by rw [hugeSidecar_header_length]; omega),
      hugeSidecar_header_length,
      List.getElem?_append_right (by rw [List.length_replicate]; omega),
      List.length_replicate]
    rfl
  rw [chunkMarked_of_byte _ _ 0 hget]
  decide

/-- On the 2^31-byte sidecar the stream position after the first byte that is
not 0xFF is 2^31, which the conversion to `int` turns negative: the computed
index is not below `n_chunks` and the sentinel is returned. -/
theorem nextMissingChunk_hugeSidecar (md : FileMetadata) (h80 : md.header_size = 80)
    (hn : md.file_n_chunks = 2 ^ 34 - 640) :
    md.nextMissingChunk (some hugeSidecar) 0 = UINT64_MAX := by
  have hdrop : hugeSidecar.drop 80 = List.replicate (2 ^ 31 - 81) 0xFF ++ [0x00] := by
    unfold hugeSidecar
    exact List.drop_left' hugeSidecar_header_length
  have hstart : (80 + 0 / 8) % 2 ^ 64 = 80 := by decide
  simp only [FileMetadata.nextMissingChunk, h80, hn, hstart, hdrop, readWhileFF_replicate]
  decide

/-- C4 (counterexample): on a well-formed sidecar of 2^31 bytes whose first
unmarked chunk is chunk 2^34 - 648 (below `n_chunks`), `nextMissingChunk(0)`
returns the sentinel: the stream position 2^31 does not fit the `int` it is
converted to. -/
theorem nextMissingChunk_huge_sidecar :
    (FileMetadata.new hugeSize CHUNK_SIZE exampleHash).header_size = 80 ∧
    hugeSidecar.length =
      80 + ((FileMetadata.new hugeSize CHUNK_SIZE exampleHash).file_n_chunks / 8 +
        (if (FileMetadata.new hugeSize CHUNK_SIZE exampleHash).file_n_chunks % 8 > 0
          then 1 else 0)) ∧
    (∀ b ∈ hugeSidecar, b < 256) ∧
    2 ^ 34 - 648 < (FileMetadata.new hugeSize CHUNK_SIZE exampleHash).file_n_chunks ∧
    chunkMarked hugeSidecar (2 ^ 34 - 648) = false ∧
    (FileMetadata.new hugeSize CHUNK_SIZE exampleHash).nextMissingChunk
      (some hugeSidecar) 0 = UINT64_MAX := by
  have hn : (FileMetadata.new hugeSize CHUNK_SIZE exampleHash).file_n_chunks = 2 ^ 34 - 640 := by
    decide
  refine ⟨rfl, ?_, hugeSidecar_bytes, ?_, hugeSidecar_unmarked,
    nextMissingChunk_hugeSidecar _ rfl hn⟩
  · rw [hn, hugeSidecar_length]
    decide
  · rw [hn]; decide

end file

namespace file
open proto

theorem memcmpEq_iff (a b : List Nat) (ha : a.length = 64) (hb : b.length = 64) :
    memcmpEq a b a.length = true ↔ b = a := by
  unfold memcmpEq
  rw [List.take_length, ← hb.trans ha.symm, List.take_length]
  simp only [beq_iff_eq]
  exact eq_comm

theorem isComplete_eq_true_iff (H : List Nat → List Nat) (f : FileRemote) (d : Disk)
    (hH : ∀ x, (H x).length = 64) (hhash : f.hash.length = 64) :
    f.isComplete H d = true ↔
      ∃ content, d.dest = some content ∧
        f.file_metadata.nextMissingChunk d.sidecar 0 = UINT64_MAX ∧ H content = f.hash := by
  unfold FileRemote.isComplete
  cases hd : d.dest with
  | none => simp
  | some content =>
    by_cases hn : f.file_metadata.nextMissingChunk d.sidecar 0 = UINT64_MAX
    · simp only [hn, if_true, memcmpEq_iff f.hash (H content) hhash (hH content),
        Option.some.injEq, true_and, exists_eq_left']
    · simp [hn]

/-- C3 (amended): `isComplete` is true exactly when the destination exists,
`nextMissingChunk(0)` is the sentinel and the hash recomputed over the
destination equals the sink's 64-byte hash; it is false whenever the hash
differs, and, for a well-formed sidecar shorter than 2^31 bytes, whenever a
chunk below `n_chunks` is unmarked, whatever the destination bytes are. -/
theorem isComplete_two_stage (H : List Nat → List Nat) (f : FileRemote) (d : Disk)
    (hH : ∀ x, (H x).length = 64) (hhash : f.hash.length = 64)
    (hmd : f.file_metadata = FileMetadata.new f.size CHUNK_SIZE f.hash) :
    (f.isComplete H d = true ↔
      ∃ content, d.dest = some content ∧
        f.file_metadata.nextMissingChunk d.sidecar 0 = UINT64_MAX ∧ H content = f.hash) ∧
    (∀ bytes, d.sidecar = some bytes →
      bytes.length = f.file_metadata.header_size + f.file_metadata.bitmap_size →
      (∀ b ∈ bytes, b < 256) → bytes.length < 2 ^ 31 →
      (∃ k, k < f.file_metadata.file_n_chunks ∧ chunkMarked bytes k = false) →
      f.isComplete H d = false) ∧
    (∀ content, d.dest = some content → H content ≠ f.hash → f.isComplete H d = false) := by
  have hiff := isComplete_eq_true_iff H f d hH hhash
  refine ⟨hiff, ?_, ?_⟩
  · intro bytes hs hlen hb hsmall ⟨k, hk, hk0⟩
    have h80 : f.file_metadata.header_size = 80 := by rw [hmd]; rfl
    have hbm : f.file_metadata.bitmap_size = f.file_metadata.file_n_chunks / 8 +
        (if f.file_metadata.file_n_chunks % 8 > 0 then 1 else 0) := by rw [hmd]; rfl
    have hspec := nextMissingChunk_zero_spec f.file_metadata bytes h80
      (by rw [hlen, h80, hbm]) hb hsmall
    have hne : f.file_metadata.nextMissingChunk d.sidecar 0 ≠ UINT64_MAX := by
      rw [hs]
      intro h
      have := hspec.2.1.mp h k hk
      rw [hk0] at this
      cases this
    cases hc : f.isComplete H d with
    | false => rfl
    | true =>
      obtain ⟨_, _, h, _⟩ := hiff.mp hc
      exact absurd h hne
  · intro content hd hne
    cases hc : f.isComplete H d with
    | false => rfl
    | true =>
      obtain ⟨c, hc1, _, hc3⟩ := hiff.mp hc
      rw [hd] at hc1
      cases hc1
      exact absurd hc3 hne

/-- Witness for C3 (amended): a three-chunk sink with only chunk 0 marked. -/
theorem isComplete_two_stage_witness :
    (∀ x, (exampleDigest x).length = 64) ∧ exampleSink.hash.length = 64 ∧
    exampleSink.file_metadata = FileMetadata.new exampleSink.size CHUNK_SIZE exampleSink.hash ∧
    ((exampleSink.isComplete exampleDigest exampleDisk = true ↔
      ∃ content, exampleDisk.dest = some content ∧
        exampleSink.file_metadata.nextMissingChunk exampleDisk.sidecar 0 = UINT64_MAX ∧
        exampleDigest content = exampleSink.hash) ∧
    (∀ bytes, exampleDisk.sidecar = some bytes →
      bytes.length = exampleSink.file_metadata.header_size +
        exampleSink.file_metadata.bitmap_size →
      (∀ b ∈ bytes, b < 256) → bytes.length < 2 ^ 31 →
      (∃ k, k < exampleSink.file_metadata.file_n_chunks ∧ chunkMarked bytes k = false) →
      exampleSink.isComplete exampleDigest exampleDisk = false) ∧
    (∀ content, exampleDisk.dest = some content → exampleDigest content ≠ exampleSink.hash →
      exampleSink.isComplete exampleDigest exampleDisk = false)) :=
  ⟨fun _ => List.length_replicate _ _, by decide, rfl,
    isComplete_two_stage exampleDigest exampleSink exampleDisk
      (fun _ => List.length_replicate _ _) (by decide) rfl⟩

/-- C3 (counterexample): with the well-formed 2^31-byte sidecar in which
chunk 2^34 - 648 (below `n_chunks`) is unmarked, a sink whose hash is the
digest of its destination is reported complete, for every digest function
and every destination content. -/
theorem isComplete_huge_sidecar :
    2 ^ 34 - 648 < (FileMetadata.new hugeSize CHUNK_SIZE exampleHash).file_n_chunks ∧
    chunkMarked hugeSidecar (2 ^ 34 - 648) = false ∧
    ∀ (H : List Nat → List Nat) (content : List Nat),
      FileRemote.isComplete H
        { hash := H content, size := hugeSize,
          file_metadata := FileMetadata.new hugeSize CHUNK_SIZE (H content) }
        { dest := some content, sidecar := some hugeSidecar } = true := by
  refine ⟨by decide, hugeSidecar_unmarked, ?_⟩
  intro H content
  have hn : (FileMetadata.new hugeSize CHUNK_SIZE (H content)).file_n_chunks
      = 2 ^ 34 - 640 := by
    show (hugeSize / CHUNK_SIZE + (if hugeSize % CHUNK_SIZE > 0 then 1 else 0)) % 2 ^ 64
      = 2 ^ 34 - 640
    decide
  simp only [FileRemote.isComplete, nextMissingChunk_hugeSidecar _ rfl hn, if_true, memcmpEq,
    beq_self_eq_true]

end file

namespace file
open proto

theorem CHUNK_SIZE_eq : CHUNK_SIZE = 3968 := rfl

theorem getNumOfChunks_eq (size : Nat) (h : size < 2 ^ 64) :
    getNumOfChunks size = size / 3968 + (if size % 3968 > 0 then 1 else 0) := by
  unfold getNumOfChunks
  rw [CHUNK_SIZE_eq]
  apply Nat.mod_eq_of_lt
  split <;> omega

/-- C6: for a file with content `F` and every `k < n_chunks`, `getChunk(k)`
returns a chunk with index `k` and data `F[k*3968 .. min((k+1)*3968, size))`;
the data length is 3968 for every chunk but the last and
`size - (n_chunks - 1) * 3968`, between 1 and 3968, for the last; a
10000-byte file has three chunks of 3968, 3968 and 2064 bytes. -/
theorem getChunk_returns_file_bytes (H : List Nat → List Nat) (hash F : List Nat) (k : Nat)
    (hF : F.length < 2 ^ 63) (hk : k < getNumOfChunks F.length) :
    ∃ c, FileLocal.getChunk H { hash := hash, size := F.length } (some F) k = .ok c ∧
      c.idx = k ∧
      c.data = (F.drop (k * 3968)).take (min ((k + 1) * 3968) F.length - k * 3968) ∧
      (k + 1 < getNumOfChunks F.length → c.data.length = 3968) ∧
      (k + 1 = getNumOfChunks F.length →
        c.data.length = F.length - (getNumOfChunks F.length - 1) * 3968 ∧
        1 ≤ c.data.length ∧ c.data.length ≤ 3968) ∧
      (F.length = 10000 → getNumOfChunks F.length = 3 ∧
        c.data.length = if k < 2 then 3968 else 2064) := by
  have hn : ∃ e, e ≤ 1 ∧ (e = 1 ↔ F.length % 3968 > 0) ∧
      getNumOfChunks F.length = F.length / 3968 + e := by
    rw [getNumOfChunks_eq F.length (by omega)]
    by_cases hr : F.length % 3968 > 0
    · exact ⟨1, le_refl _, by simp [hr], by rw [if_pos hr]⟩
    · exact ⟨0, by omega, by simp [hr], by rw [if_neg hr]⟩
  obtain ⟨e, he1, he, hn⟩ := hn
  rw [hn] at hk ⊢
  have hoff : k * 3968 < F.length := by omega
  have hmod : (k * 3968) % 2 ^ 64 = k * 3968 := by omega
  have hcs : (if F.length - k * 3968 < 3968 then F.length - k * 3968 else 3968)
      = min ((k + 1) * 3968) F.length - k * 3968 := by
    split <;> omega
  have hgot : ((F.drop (k * 3968)).take (min ((k + 1) * 3968) F.length - k * 3968)).length
      = min ((k + 1) * 3968) F.length - k * 3968 := by
    rw [List.length_take, List.length_drop]
    omega
  refine ⟨FileChunk.mk k ((F.drop (k * 3968)).take
      (min ((k + 1) * 3968) F.length - k * 3968)) (H ((F.drop (k * 3968)).take
      (min ((k + 1) * 3968) F.length - k * 3968))), ?_, rfl, rfl, ?_, ?_, ?_⟩
  · have hread : readAt (some F) (k * 3968) (min ((k + 1) * 3968) F.length - k * 3968)
        = (F.drop (k * 3968)).take (min ((k + 1) * 3968) F.length - k * 3968) := by
      simp only [readAt]
      rw [if_pos (by omega), hgot, Nat.sub_self, List.replicate_zero, List.append_nil]
    simp only [FileLocal.getChunk, CHUNK_SIZE_eq, hmod]
    rw [if_neg (by omega), hcs, hread]
  · intro hlt
    show ((F.drop (k * 3968)).take (min ((k + 1) * 3968) F.length - k * 3968)).length = 3968
    rw [hgot]
    omega
  · intro heq
    show ((F.drop (k * 3968)).take (min ((k + 1) * 3968) F.length - k * 3968)).length
        = _ ∧ 1 ≤ ((F.drop (k * 3968)).take
          (min ((k + 1) * 3968) F.length - k * 3968)).length ∧
        ((F.drop (k * 3968)).take (min ((k + 1) * 3968) F.length - k * 3968)).length ≤ 3968
    rw [hgot]
    omega
  · intro h10
    show _ ∧ ((F.drop (k * 3968)).take (min ((k + 1) * 3968) F.length - k * 3968)).length = _
    rw [hgot]
    constructor
    · omega
    · split <;> omega

/-- Witness for C6: the second chunk of a 10000-byte file. -/
theorem getChunk_returns_file_bytes_witness :
    (List.replicate 10000 7).length < 2 ^ 63 ∧
    1 < getNumOfChunks (List.replicate 10000 7).length ∧
    ∃ c, FileLocal.getChunk exampleDigest
        { hash := exampleHash, size := (List.replicate 10000 7).length }
        (some (List.replicate 10000 7)) 1 = .ok c ∧
      c.idx = 1 ∧
      c.data = ((List.replicate 10000 7).drop (1 * 3968)).take
        (min ((1 + 1) * 3968) (List.replicate 10000 7).length - 1 * 3968) ∧
      (1 + 1 < getNumOfChunks (List.replicate 10000 7).length → c.data.length = 3968) ∧
      (1 + 1 = getNumOfChunks (List.replicate 10000 7).length →
        c.data.length = (List.replicate 10000 7).length -
          (getNumOfChunks (List.replicate 10000 7).length - 1) * 3968 ∧
        1 ≤ c.data.length ∧ c.data.length ≤ 3968) ∧
      ((List.replicate 10000 7).length = 10000 →
        getNumOfChunks (List.replicate 10000 7).length = 3 ∧
        c.data.length = if 1 < 2 then 3968 else 2064) :=
  ⟨by rw [List.length_replicate]; decide, by rw [List.length_replicate]; decide,
    getChunk_returns_file_bytes exampleDigest exampleHash (List.replicate 10000 7) 1
      (by rw [List.length_replicate]; decide) (by rw [List.length_replicate]; decide)⟩

end file

namespace file
open proto

/-- Overwriting `data` inside a list: length and every position. -/
theorem splice_spec (D data : List Nat) (off : Nat) (h : off + data.length ≤ D.length) :
    (D.take off ++ data ++ D.drop (off + data.length)).length = D.length ∧
    (∀ i, i < data.length →
      (D.take off ++ data ++ D.drop (off + data.length))[off + i]? = data[i]?) ∧
    (∀ i, (i < off ∨ off + data.length ≤ i) →
      (D.take off ++ data ++ D.drop (off + data.length))[i]? = D[i]?) := by
  have htake : (D.take off).length = off := by
    rw [List.length_take]; omega
  refine ⟨?_, ?_, ?_⟩
  · simp only [List.length_append, List.length_drop, htake]
    omega
  · intro i hi
    rw [List.append_assoc, List.getElem?_append_right (by rw [htake]; omega), htake,
      List.getElem?_append_left (by omega)]
    congr 1
    omega
  · intro i hi
    rcases hi with hi | hi
    · rw [List.append_assoc, List.getElem?_append_left (by rw [htake]; exact hi),
        List.getElem?_take_of_lt hi]
    · rw [List.getElem?_append_right (by simp only [List.length_append, htake]; omega),
        List.getElem?_drop]
      congr 1
      simp only [List.length_append, htake]
      omega

/-- Marking a chunk whose bitmap byte exists sets one bit of that byte. -/
theorem markChunk_true_eq (md : FileMetadata) (S : List Nat) (k : Nat)
    (h80 : md.header_size = 80) (hin : 80 + k / 8 < S.length) (hS : S.length < 2 ^ 64) :
    md.markChunk (some S) k true
      = some (S.set (80 + k / 8) (S[80 + k / 8] ||| 2 ^ (7 - k % 8))) := by
  have hpos : (80 + k / 8) % 2 ^ 64 = 80 + k / 8 := Nat.mod_eq_of_lt (by omega)
  have hget : S[80 + k / 8]? = some S[80 + k / 8] := List.getElem?_eq_getElem hin
  simp only [FileMetadata.markChunk, h80, hpos, hget, mark_bit_value]
  rfl

/-- C7 (amended): in a sink whose destination has `size` bytes and whose
sidecar has the constructor's length, `saveChunk` of a chunk with
`idx * 3968 < size` and `|data| = min(3968, size - idx * 3968)` puts the data
at `[idx * 3968, idx * 3968 + |data|)` of the destination, changes no other
destination byte nor the destination length, sets the sidecar bit of `idx`
and changes no other sidecar bit nor the sidecar length. -/
theorem saveChunk_effect (f : FileRemote) (D S : List Nat) (c : FileChunk)
    (hmd : f.file_metadata = FileMetadata.new f.size CHUNK_SIZE f.hash)
    (hsz : f.size < 2 ^ 63) (hD : D.length = f.size)
    (hS : S.length = f.file_metadata.header_size + f.file_metadata.bitmap_size)
    (hoff : c.idx * 3968 < f.size)
    (hlen : c.data.length = min 3968 (f.size - c.idx * 3968)) :
    ∃ D' S', f.saveChunk { dest := some D, sidecar := some S } c
        = { dest := some D', sidecar := some S' } ∧
      D'.length = D.length ∧
      (∀ i, i < c.data.length → D'[c.idx * 3968 + i]? = c.data[i]?) ∧
      (∀ i, (i < c.idx * 3968 ∨ c.idx * 3968 + c.data.length ≤ i) → D'[i]? = D[i]?) ∧
      S'.length = S.length ∧
      chunkMarked S' c.idx = true ∧
      (∀ i, i ≠ 80 + c.idx / 8 → S'[i]? = S[i]?) ∧
      (∀ j, j ≠ 7 - c.idx % 8 →
        (S'.getD (80 + c.idx / 8) 0).testBit j = (S.getD (80 + c.idx / 8) 0).testBit j) := by
  have h80 : f.file_metadata.header_size = 80 := by rw [hmd]; rfl
  have hnc : f.file_metadata.file_n_chunks = getNumOfChunks f.size := by rw [hmd]; rfl
  have hbm : f.file_metadata.bitmap_size = f.file_metadata.file_n_chunks / 8 +
      (if f.file_metadata.file_n_chunks % 8 > 0 then 1 else 0) := by rw [hmd]; rfl
  have hn : ∃ e, e ≤ 1 ∧ (e = 1 ↔ f.size % 3968 > 0) ∧
      getNumOfChunks f.size = f.size / 3968 + e := by
    rw [getNumOfChunks_eq f.size (by omega)]
    by_cases hr : f.size % 3968 > 0
    · exact ⟨1, le_refl _, by simp [hr], by rw [if_pos hr]⟩
    · exact ⟨0, by omega, by simp [hr], by rw [if_neg hr]⟩
  obtain ⟨e, he1, he, hn⟩ := hn
  have hk : c.idx < f.file_metadata.file_n_chunks := by
    rw [hnc, hn]; omega
  have hin : 80 + c.idx / 8 < S.length := by
    rw [hS, h80, hbm]
    split <;> omega
  have hSlt : S.length < 2 ^ 64 := by
    rw [hS, h80, hbm, hnc, hn]
    split <;> omega
  have hmod : (c.idx * 3968) % 2 ^ 64 = c.idx * 3968 := by omega
  have hne : c.data ≠ [] := by
    intro h
    rw [h, List.length_nil] at hlen
    omega
  have hfit : c.idx * 3968 + c.data.length ≤ D.length := by omega
  obtain ⟨hs1, hs2, hs3⟩ := splice_spec D c.data (c.idx * 3968) hfit
  have hget : S[80 + c.idx / 8]? = some S[80 + c.idx / 8] := List.getElem?_eq_getElem hin
  refine ⟨D.take (c.idx * 3968) ++ c.data ++ D.drop (c.idx * 3968 + c.data.length),
    S.set (80 + c.idx / 8) (S[80 + c.idx / 8] ||| 2 ^ (7 - c.idx % 8)),
    ?_, hs1, hs2, hs3, List.length_set _ _ _, ?_,
    fun i hi => List.getElem?_set_ne (Ne.symm hi), ?_⟩
  · have hcs : (if f.size - c.idx * 3968 < 3968 then f.size - c.idx * 3968 else 3968)
        = c.data.length := by
      rw [hlen]; split <;> omega
    have hw : writeAt (some D) (c.idx * 3968) c.data
        = some (D.take (c.idx * 3968) ++ c.data ++ D.drop (c.idx * 3968 + c.data.length)) := by
      simp only [writeAt]
      rw [if_pos ⟨by omega, hne⟩, show c.idx * 3968 - D.length = 0 by omega,
        List.replicate_zero, List.append_nil]
    simp only [FileRemote.saveChunk, CHUNK_SIZE_eq, hmod]
    rw [if_neg (by omega), hcs, if_neg (by simp), hw, markChunk_true_eq _ S c.idx h80 hin hSlt]
  · rw [chunkMarked_of_byte _ _ _ (List.getElem?_set_self (by simpa using hin)),
      testBit_set_bit]
    simp
  · intro j hj
    rw [List.getD_eq_getElem?_getD, List.getD_eq_getElem?_getD,
      List.getElem?_set_self (by simpa using hin), hget]
    simp only [Option.getD_some, testBit_set_bit]
    simp [Ne.symm hj]

/-- Witness for C7 (amended): the only chunk of a 5-byte file. -/
theorem saveChunk_effect_witness :
    tinySink.file_metadata = FileMetadata.new tinySink.size CHUNK_SIZE tinySink.hash ∧
    tinySink.size < 2 ^ 63 ∧ [0, 0, 0, 0, 0].length = tinySink.size ∧
    tinySidecar.length = tinySink.file_metadata.header_size +
      tinySink.file_metadata.bitmap_size ∧
    tinyChunk.idx * 3968 < tinySink.size ∧
    tinyChunk.data.length = min 3968 (tinySink.size - tinyChunk.idx * 3968) ∧
    ∃ D' S', tinySink.saveChunk { dest := some [0, 0, 0, 0, 0], sidecar := some tinySidecar }
        tinyChunk = { dest := some D', sidecar := some S' } ∧
      D'.length = [0, 0, 0, 0, 0].length ∧
      (∀ i, i < tinyChunk.data.length → D'[tinyChunk.idx * 3968 + i]? = tinyChunk.data[i]?) ∧
      (∀ i, (i < tinyChunk.idx * 3968 ∨ tinyChunk.idx * 3968 + tinyChunk.data.length ≤ i) →
        D'[i]? = [0, 0, 0, 0, 0][i]?) ∧
      S'.length = tinySidecar.length ∧
      chunkMarked S' tinyChunk.idx = true ∧
      (∀ i, i ≠ 80 + tinyChunk.idx / 8 → S'[i]? = tinySidecar[i]?) ∧
      (∀ j, j ≠ 7 - tinyChunk.idx % 8 →
        (S'.getD (80 + tinyChunk.idx / 8) 0).testBit j
          = (tinySidecar.getD (80 + tinyChunk.idx / 8) 0).testBit j) :=
  ⟨rfl, by decide, by decide, by decide, by decide, by decide,
    saveChunk_effect tinySink [0, 0, 0, 0, 0] tinySidecar tinyChunk rfl (by decide) (by decide)
      (by decide) (by decide) (by decide)⟩

/-- C7 (counterexample): for a 0-byte file the chunk with index 0 and no data
satisfies `idx * 3968 <= size` and `|data| = min(3968, size - idx * 3968)`;
`saveChunk` accepts it, the sidecar has no bitmap byte to mark and stays as
it was, so the bit of chunk 0 is not 1 afterwards. -/
theorem saveChunk_empty_chunk_not_marked :
    emptySink.file_metadata = FileMetadata.new emptySink.size CHUNK_SIZE emptySink.hash ∧
    emptySidecar.length = emptySink.file_metadata.header_size +
      emptySink.file_metadata.bitmap_size ∧
    0 * 3968 ≤ emptySink.size ∧
    ([] : List Nat).length = min 3968 (emptySink.size - 0 * 3968) ∧
    emptySink.saveChunk { dest := some [], sidecar := some emptySidecar }
        { idx := 0, data := [], hash := [] }
      = { dest := some [], sidecar := some emptySidecar } ∧
    chunkMarked emptySidecar 0 = false := by
  decide

/-- C8 (amended): a chunk whose offset `idx * 3968` fits `size_t` and which
has `idx * 3968 > size` or `|data| ≠ min(3968, size - idx * 3968)` leaves the
destination and the sidecar exactly as they were; `saveChunk` has no error
result. -/
theorem saveChunk_ignores_invalid (f : FileRemote) (d : Disk) (c : FileChunk)
    (hfit : c.idx * 3968 < 2 ^ 64)
    (hbad : c.idx * 3968 > f.size ∨ c.data.length ≠ min 3968 (f.size - c.idx * 3968)) :
    f.saveChunk d c = d := by
  have hmod : (c.idx * 3968) % 2 ^ 64 = c.idx * 3968 := Nat.mod_eq_of_lt hfit
  simp only [FileRemote.saveChunk, CHUNK_SIZE_eq, hmod]
  by_cases h1 : c.idx * 3968 > f.size
  · rw [if_pos h1]
  · rw [if_neg h1]
    have h2 : (if f.size - c.idx * 3968 < 3968 then f.size - c.idx * 3968 else 3968)
        ≠ c.data.length := by
      rcases hbad with h | h
      · exact absurd h h1
      · split <;> omega
    rw [if_pos h2]

/-- Witness for C8 (amended): a chunk of the wrong length for a 5-byte file. -/
theorem saveChunk_ignores_invalid_witness :
    (0 * 3968 < 2 ^ 64) ∧
    (0 * 3968 > tinySink.size ∨ [1, 2, 3].length ≠ min 3968 (tinySink.size - 0 * 3968)) ∧
    tinySink.saveChunk tinyDisk { idx := 0, data := [1, 2, 3], hash := [] } = tinyDisk :=
  ⟨by decide, by decide,
    saveChunk_ignores_invalid tinySink tinyDisk { idx := 0, data := [1, 2, 3], hash := [] }
      (by decide) (by decide)⟩

/-- C8 (counterexample): for a 5-byte file the chunk with index 2^57 has
`idx * 3968 > size`, but the `size_t` product wraps to offset 0, the chunk
passes both checks and its data overwrites the destination. -/
theorem saveChunk_wrapped_index_writes :
    2 ^ 57 * 3968 > tinySink.size ∧
    tinyDisk.dest = some [0, 0, 0, 0, 0] ∧
    (tinySink.saveChunk tinyDisk { idx := 2 ^ 57, data := [1, 2, 3, 4, 5], hash := [] }).dest
      = some [1, 2, 3, 4, 5] ∧
    tinySink.saveChunk tinyDisk { idx := 2 ^ 57, data := [1, 2, 3, 4, 5], hash := [] }
      ≠ tinyDisk := by
  decide

end file

namespace file
open proto

theorem nativeValue_nativeBytes8 (v : Nat) (h : v < 2 ^ 64) :
    nativeValue (nativeBytes8 v) = v := by
  have e : (0xff : Nat) = 2 ^ 8 - 1 := by decide
  have r : List.range 8 = [0, 1, 2, 3, 4, 5, 6, 7] := by decide
  simp only [nativeBytes8, nativeValue, r, List.map, List.foldr, e,
    Nat.and_pow_two_sub_one_eq_mod, Nat.shiftRight_eq_div_pow]
  omega

theorem nativeBytes8_length (v : Nat) : (nativeBytes8 v).length = 8 := by
  simp [nativeBytes8]

/-- Reading back the header of a sidecar written by `createIfNotExist`. -/
theorem readHeader_sidecar (size cs : Nat) (hash bitmap : List Nat)
    (hsize : size < 2 ^ 64) (hcs : cs < 2 ^ 64) (hhash : hash.length = 64) :
    FileMetadata.readHeader (some (nativeBytes8 size ++ nativeBytes8 cs ++ hash ++ bitmap))
      = (size, cs, hash) := by
  have h1 : (nativeBytes8 size ++ nativeBytes8 cs ++ hash ++ bitmap).take 8
      = nativeBytes8 size := by
    rw [List.append_assoc, List.append_assoc]
    exact List.take_left' (nativeBytes8_length size)
  have h2 : ((nativeBytes8 size ++ nativeBytes8 cs ++ hash ++ bitmap).drop 8).take 8
      = nativeBytes8 cs := by
    rw [List.append_assoc, List.append_assoc, List.drop_left' (nativeBytes8_length size),
      List.take_left' (nativeBytes8_length cs)]
  have h3 : ((nativeBytes8 size ++ nativeBytes8 cs ++ hash ++ bitmap).drop 16).take HASH_SIZE
      = hash := by
    rw [List.append_assoc, List.drop_left' (by simp [nativeBytes8_length])]
    exact List.take_left' hhash
  simp only [FileMetadata.readHeader, h1, h2, h3, nativeValue_nativeBytes8 size hsize,
    nativeValue_nativeBytes8 cs hcs, hhash]
  simp [HASH_SIZE]

end file

namespace proto

theorem serialize_ok_of_variant (m : Message) (var : List Nat)
    (hv : m.serializeVariant = .ok var) : ∃ f, m.serialize [] = .ok f := by
  simp only [Message.serialize, Message.serializePayload, hv, bind, Except.bind, pure,
    Except.pure, Except.ok.injEq, exists_eq']

end proto
namespace server
open proto file

theorem sentFrames_complete (seq : Nat) (uuid name : List Nat) :
    ∃ frame, sentFrames (some (buildMsgComplete seq uuid name)) = [frame] := by
  have d14 : MSGTYPE_FILE_COMPLETE ≠ MSGTYPE_FILE_OFFER := by decide
  have d24 : MSGTYPE_FILE_COMPLETE ≠ MSGTYPE_FILE_CHUNK_REQ := by decide
  have d34 : MSGTYPE_FILE_COMPLETE ≠ MSGTYPE_FILE_CHUNK_DATA := by decide
  have hv : (buildMsgComplete seq uuid name).serializeVariant = .ok [] := by
    simp only [buildMsgComplete, Message.serializeVariant, d14, d24, d34, if_true, if_false]
  obtain ⟨f, hf⟩ := serialize_ok_of_variant _ _ hv
  refine ⟨f, ?_⟩
  show ((buildMsgComplete seq uuid name).serialize []).toOption.toList = [f]
  rw [hf]
  rfl

theorem sentFrames_chunkReq (seq : Nat) (uuid name : List Nat) (a b : Nat) :
    ∃ frame, sentFrames (some (buildMsgChunkReq seq uuid name a b)) = [frame] := by
  have d12 : MSGTYPE_FILE_CHUNK_REQ ≠ MSGTYPE_FILE_OFFER := by decide
  have hv : (buildMsgChunkReq seq uuid name a b).serializeVariant
      = .ok (putU32 (a % 2 ^ 16) ++ putU32 (b % 2 ^ 16)) := by
    simp only [buildMsgChunkReq, Message.serializeVariant, d12, if_true, if_false]
  obtain ⟨f, hf⟩ := serialize_ok_of_variant _ _ hv
  refine ⟨f, ?_⟩
  show ((buildMsgChunkReq seq uuid name a b).serialize []).toOption.toList = [f]
  rw [hf]
  rfl

/-- The reply chosen by `replyFor`: one frame, COMPLETE exactly when the sink
is complete, else a CHUNK_REQ with last index 0xFFFF whose first index is the
next missing chunk index reduced to 16 bits. -/
theorem replyFor_spec (H : List Nat → List Nat) (msg : Message) (file : FileRemote)
    (d : Disk) :
    (∃ frame, sentFrames (some (replyFor H msg file d)) = [frame]) ∧
    (file.isComplete H d = true → (replyFor H msg file d).msg_type = MSGTYPE_FILE_COMPLETE) ∧
    (file.isComplete H d = false →
      (replyFor H msg file d).msg_type = MSGTYPE_FILE_CHUNK_REQ ∧
      (replyFor H msg file d).chunk_req.chunk_idx_last = 0xFFFF ∧
      (replyFor H msg file d).chunk_req.chunk_idx_first
        = file.getNextMissingChunk d 0 % 2 ^ 16) := by
  cases hc : file.isComplete H d with
  | true =>
    have e : replyFor H msg file d
        = buildMsgComplete msg.seq_number msg.client_uuid msg.file_name := by
      unfold replyFor
      rw [hc, if_pos rfl]
    rw [e]
    exact ⟨sentFrames_complete _ _ _, fun _ => rfl, fun h => by cases h⟩
  | false =>
    have e : replyFor H msg file d
        = buildMsgChunkReq (msg.seq_number + 1) msg.client_uuid msg.file_name
            (file.getNextMissingChunk d 0) UINT16_MAX := by
      unfold replyFor
      rw [hc, if_neg (by decide)]
    rw [e]
    exact ⟨sentFrames_chunkReq _ _ _ _ _, fun h => (by cases h), fun _ => ⟨rfl, rfl, rfl⟩⟩

theorem makeRemoteFile_sidecar (d : Disk) (size : Nat) (hash bitmap : List Nat)
    (hsize : size < 2 ^ 64) (hhash : hash.length = 64)
    (hsc : d.sidecar = some (nativeBytes8 size ++ nativeBytes8 CHUNK_SIZE ++ hash ++ bitmap)) :
    makeRemoteFile d = some (FileRemote.new hash size d) := by
  have hcs : CHUNK_SIZE < 2 ^ 64 := by decide
  have hpos : CHUNK_SIZE > 0 := by decide
  unfold makeRemoteFile
  rw [hsc, readHeader_sidecar size CHUNK_SIZE hash bitmap hsize hcs hhash]
  exact if_pos hpos

end server

namespace file
open proto

/-- The smallest unmarked chunk below `n_chunks` is what `nextMissingChunk(0)`
returns on a sidecar shorter than 2^31 bytes. -/
theorem nextMissingChunk_smallest (md : FileMetadata) (bytes : List Nat) (k : Nat)
    (h80 : md.header_size = 80) (hb : ∀ b ∈ bytes, b < 256) (hsmall : bytes.length < 2 ^ 31)
    (hin : 80 + k / 8 < bytes.length) (hk : k < md.file_n_chunks)
    (hk0 : chunkMarked bytes k = false) (hbefore : ∀ j, j < k → chunkMarked bytes j = true) :
    md.nextMissingChunk (some bytes) 0 = k := by
  rcases nextMissingChunk_core md bytes h80 hb hsmall with ⟨hff, _⟩ | ⟨q, _, hq0, hq1, hr⟩
  · have hget : bytes[80 + k / 8]? = some bytes[80 + k / 8] := List.getElem?_eq_getElem hin
    have h255 := hff _ _ (by omega) hget
    rw [chunkMarked_of_byte bytes k _ hget, h255] at hk0
    have hone : Nat.testBit 255 (7 - k % 8) = true := by
      have : k % 8 < 8 := Nat.mod_lt _ (by decide)
      generalize k % 8 = m at this
      interval_cases m <;> decide
    rw [hone] at hk0
    cases hk0
  · rcases Nat.lt_trichotomy q k with h | h | h
    · have := hbefore q h
      rw [hq0] at this
      cases this
    · rw [hr, h, if_pos hk]
    · have := hq1 k h
      rw [hk0] at this
      cases this

/-- On a freshly created sidecar of a file with at least one chunk the next
missing chunk is chunk 0. -/
theorem nextMissingChunk_fresh (md : FileMetadata) (hdr : List Nat) (b : Nat)
    (h80 : md.header_size = 80) (hhdr : hdr.length = 80) (hb : 0 < b)
    (hn : 0 < md.file_n_chunks) :
    md.nextMissingChunk (some (hdr ++ List.replicate b 0)) 0 = 0 := by
  obtain ⟨b', rfl⟩ : ∃ b', b = b' + 1 := ⟨b - 1, by omega⟩
  have hstart : (80 + 0 / 8) % 2 ^ 64 = 80 := by decide
  have hdrop : (hdr ++ List.replicate (b' + 1) 0).drop 80 = 0 :: List.replicate b' 0 := by
    rw [List.drop_left' hhdr, List.replicate_succ]
  have hread : readWhileFF (0 :: List.replicate b' 0) 80 = (0, 81) := by
    rw [readWhileFF, if_neg (by decide)]
  have hret : scanBits 0 8 (toSizeT ((toInt32 81 - (80 : Nat) - 1) * 8)) = 0 := by decide
  simp only [FileMetadata.nextMissingChunk, h80, hstart, hdrop, hread]
  rw [if_pos (by decide), hret, if_pos hn]

end file

namespace server
open proto file

theorem FileRemote_new_fst (hash : List Nat) (size : Nat) (d : Disk) :
    (FileRemote.new hash size d).1
      = { hash := hash, size := size, file_metadata := FileMetadata.new size CHUNK_SIZE hash } :=
  rfl

theorem handleRequest_chunkData (H : List Nat → List Nat) (msg : Message) (d : Disk)
    (r : FileRemote × Disk) (ht : msg.msg_type = MSGTYPE_FILE_CHUNK_DATA)
    (hr : makeRemoteFile d = some r) :
    handleRequest H msg d
      = (r.1.saveChunk r.2 (chunkOf msg),
          some (replyFor H msg r.1 (r.1.saveChunk r.2 (chunkOf msg)))) := by
  have d13 : MSGTYPE_FILE_CHUNK_DATA ≠ MSGTYPE_FILE_OFFER := by decide
  unfold handleRequest
  rw [ht, if_neg d13, if_pos rfl, hr]

/-- C9 (amended): on CHUNK_DATA for a file of up to 2^32 - 1 bytes whose
sidecar exists, the receiver reopens the sink from the sidecar header, saves
the chunk and replies with exactly one frame: COMPLETE if the sink is then
complete; otherwise a CHUNK_REQ with last index 0xFFFF whose first index is
the sink's next missing chunk index whenever that index is below 65536.  No
COMPLETE is sent when the hash of the destination differs from the sink's
hash. -/
theorem chunkData_reply (H : List Nat → List Nat) (msg : Message) (d : Disk) (size : Nat)
    (hash bitmap : List Nat)
    (hH : ∀ x, (H x).length = 64)
    (ht : msg.msg_type = MSGTYPE_FILE_CHUNK_DATA)
    (hsize : size < 2 ^ 32) (hhash : hash.length = 64)
    (hsc : d.sidecar = some (nativeBytes8 size ++ nativeBytes8 CHUNK_SIZE ++ hash ++ bitmap)) :
    ∃ file d1 resp frame,
      makeRemoteFile d = some (file, d1) ∧ file.size = size ∧ file.hash = hash ∧
      (handleRequest H msg d).1 = file.saveChunk d1 (chunkOf msg) ∧
      (handleRequest H msg d).2 = some resp ∧
      sentFrames (some resp) = [frame] ∧
      (file.isComplete H (handleRequest H msg d).1 = true →
        resp.msg_type = MSGTYPE_FILE_COMPLETE) ∧
      (file.isComplete H (handleRequest H msg d).1 = false →
        resp.msg_type = MSGTYPE_FILE_CHUNK_REQ ∧ resp.chunk_req.chunk_idx_last = 0xFFFF ∧
        (file.getNextMissingChunk (handleRequest H msg d).1 0 < 65536 →
          resp.chunk_req.chunk_idx_first
            = file.getNextMissingChunk (handleRequest H msg d).1 0)) ∧
      (∀ content, (handleRequest H msg d).1.dest = some content → H content ≠ hash →
        resp.msg_type ≠ MSGTYPE_FILE_COMPLETE) := by
  have hmk := makeRemoteFile_sidecar d size hash bitmap (by omega) hhash hsc
  have hreq := handleRequest_chunkData H msg d _ ht hmk
  obtain ⟨file, hfile⟩ : ∃ file, file = (FileRemote.new hash size d).1 := ⟨_, rfl⟩
  obtain ⟨d1, hd1⟩ : ∃ d1, d1 = (FileRemote.new hash size d).2 := ⟨_, rfl⟩
  rw [← hfile, ← hd1] at hreq
  obtain ⟨d2, hd2⟩ : ∃ d2, d2 = file.saveChunk d1 (chunkOf msg) := ⟨_, rfl⟩
  rw [← hd2] at hreq
  have hfh : file.hash = hash := by rw [hfile]; rfl
  obtain ⟨⟨frame, hframe⟩, hcomp, hreqst⟩ := replyFor_spec H msg file d2
  refine ⟨file, d1, replyFor H msg file d2, frame, ?_, ?_, hfh, ?_, ?_, hframe, ?_, ?_, ?_⟩
  · rw [hmk, hfile, hd1]
  · rw [hfile]; rfl
  · rw [hreq, hd2]
  · rw [hreq]
  · rw [hreq]; exact hcomp
  · rw [hreq]
    intro hc
    obtain ⟨h1, h2, h3⟩ := hreqst hc
    refine ⟨h1, h2, fun hlt => ?_⟩
    rw [h3]
    exact Nat.mod_eq_of_lt hlt
  · rw [hreq]
    intro content hdest hne hcomplete
    cases hc : file.isComplete H d2 with
    | true =>
      obtain ⟨c, hc1, _, hc3⟩ :=
        (isComplete_eq_true_iff H file d2 hH (by rw [hfh]; exact hhash)).mp hc
      rw [hdest] at hc1
      cases hc1
      rw [hfh] at hc3
      exact hne hc3
    | false =>
      rw [(hreqst hc).1] at hcomplete
      revert hcomplete
      decide

/-- Witness for C9 (amended): the chunk that completes the 1-byte file. -/
theorem chunkData_reply_witness :
    (∀ x, (exampleDigest x).length = 64) ∧
    goodChunkMsg.msg_type = MSGTYPE_FILE_CHUNK_DATA ∧
    1 < 2 ^ 32 ∧ exampleHash.length = 64 ∧
    oneByteDisk.sidecar
      = some (nativeBytes8 1 ++ nativeBytes8 CHUNK_SIZE ++ exampleHash ++ [0x00]) ∧
    ∃ file d1 resp frame,
      makeRemoteFile oneByteDisk = some (file, d1) ∧ file.size = 1 ∧ file.hash = exampleHash ∧
      (handleRequest exampleDigest goodChunkMsg oneByteDisk).1
        = file.saveChunk d1 (chunkOf goodChunkMsg) ∧
      (handleRequest exampleDigest goodChunkMsg oneByteDisk).2 = some resp ∧
      sentFrames (some resp) = [frame] ∧
      (file.isComplete exampleDigest (handleRequest exampleDigest goodChunkMsg oneByteDisk).1
          = true →
        resp.msg_type = MSGTYPE_FILE_COMPLETE) ∧
      (file.isComplete exampleDigest (handleRequest exampleDigest goodChunkMsg oneByteDisk).1
          = false →
        resp.msg_type = MSGTYPE_FILE_CHUNK_REQ ∧ resp.chunk_req.chunk_idx_last = 0xFFFF ∧
        (file.getNextMissingChunk (handleRequest exampleDigest goodChunkMsg oneByteDisk).1 0
            < 65536 →
          resp.chunk_req.chunk_idx_first
            = file.getNextMissingChunk
                (handleRequest exampleDigest goodChunkMsg oneByteDisk).1 0)) ∧
      (∀ content, (handleRequest exampleDigest goodChunkMsg oneByteDisk).1.dest = some content →
        exampleDigest content ≠ exampleHash →
        resp.msg_type ≠ MSGTYPE_FILE_COMPLETE) :=
  ⟨fun _ => List.length_replicate _ _, rfl, by decide, by decide, rfl,
    chunkData_reply exampleDigest goodChunkMsg oneByteDisk 1 exampleHash [0x00]
      (fun _ => List.length_replicate _ _) rfl (by decide) (by decide) rfl⟩

end server

namespace server
open proto file

theorem handleRequest_offer (H : List Nat → List Nat) (msg : Message) (d : Disk)
    (ht : msg.msg_type = MSGTYPE_FILE_OFFER) :
    handleRequest H msg d
      = ((FileRemote.new msg.offer.file_hash msg.offer.file_size d).2,
          some (replyFor H msg (FileRemote.new msg.offer.file_hash msg.offer.file_size d).1
            (FileRemote.new msg.offer.file_hash msg.offer.file_size d).2)) := by
  unfold handleRequest
  rw [ht, if_pos rfl]
  rfl

theorem n_chunks_bound (size : Nat) (hash : List Nat) (hsize : size < 2 ^ 32) :
    (FileMetadata.new size CHUNK_SIZE hash).file_n_chunks ≤ 1082402 ∧
    (FileMetadata.new size CHUNK_SIZE hash).bitmap_size ≤ 135301 ∧
    (0 < size → 0 < (FileMetadata.new size CHUNK_SIZE hash).file_n_chunks ∧
      0 < (FileMetadata.new size CHUNK_SIZE hash).bitmap_size) := by
  have h1 : (FileMetadata.new size CHUNK_SIZE hash).file_n_chunks
      = (size / 3968 + (if size % 3968 > 0 then 1 else 0)) % 2 ^ 64 := rfl
  have h2 : (FileMetadata.new size CHUNK_SIZE hash).bitmap_size
      = (FileMetadata.new size CHUNK_SIZE hash).file_n_chunks / 8 +
        (if (FileMetadata.new size CHUNK_SIZE hash).file_n_chunks % 8 > 0 then 1 else 0) := rfl
  rw [h2, h1]
  split <;> split <;> omega

/-- C10 (amended): on an OFFER of a file of up to 2^32 - 1 bytes the receiver
instantiates the sink with the offered size and hash and replies with exactly
one frame: COMPLETE if the sink is already complete; otherwise a CHUNK_REQ
with last index 0xFFFF whose first index is the smallest chunk index not
marked in the sidecar whenever there is one below 65536 (1 when only chunk 0
is marked), and 0 on a receiver that had no sidecar for a non-empty file. -/
theorem offer_reply (H : List Nat → List Nat) (msg : Message) (d : Disk)
    (ht : msg.msg_type = MSGTYPE_FILE_OFFER)
    (hsize : msg.offer.file_size < 2 ^ 32) (hhash : msg.offer.file_hash.length = 64) :
    ∃ file d1 resp frame,
      makeRemoteFileOffered msg.offer.file_hash msg.offer.file_size d = (file, d1) ∧
      file.size = msg.offer.file_size ∧ file.hash = msg.offer.file_hash ∧
      (handleRequest H msg d).1 = d1 ∧
      (handleRequest H msg d).2 = some resp ∧
      sentFrames (some resp) = [frame] ∧
      (file.isComplete H d1 = true → resp.msg_type = MSGTYPE_FILE_COMPLETE) ∧
      (file.isComplete H d1 = false →
        resp.msg_type = MSGTYPE_FILE_CHUNK_REQ ∧ resp.chunk_req.chunk_idx_last = 0xFFFF ∧
        ∀ bytes k, d1.sidecar = some bytes →
          bytes.length = file.file_metadata.header_size + file.file_metadata.bitmap_size →
          (∀ b ∈ bytes, b < 256) →
          k < file.file_metadata.file_n_chunks → k < 65536 →
          chunkMarked bytes k = false → (∀ j, j < k → chunkMarked bytes j = true) →
          resp.chunk_req.chunk_idx_first = k) ∧
      (d.sidecar = none → 0 < msg.offer.file_size →
        resp.msg_type = MSGTYPE_FILE_CHUNK_REQ ∧ resp.chunk_req.chunk_idx_first = 0 ∧
        resp.chunk_req.chunk_idx_last = 0xFFFF) := by
  have hreq := handleRequest_offer H msg d ht
  obtain ⟨file, hfile⟩ : ∃ file, file
      = (FileRemote.new msg.offer.file_hash msg.offer.file_size d).1 := ⟨_, rfl⟩
  obtain ⟨d1, hd1⟩ : ∃ d1, d1
      = (FileRemote.new msg.offer.file_hash msg.offer.file_size d).2 := ⟨_, rfl⟩
  rw [← hfile, ← hd1] at hreq
  have hmd : file.file_metadata
      = FileMetadata.new msg.offer.file_size CHUNK_SIZE msg.offer.file_hash := by
    rw [hfile]; rfl
  have h80 : file.file_metadata.header_size = 80 := by rw [hmd]; rfl
  obtain ⟨hnb, hbb, hpos⟩ := n_chunks_bound msg.offer.file_size msg.offer.file_hash hsize
  rw [← hmd] at hnb hbb hpos
  obtain ⟨⟨frame, hframe⟩, hcomp, hreqst⟩ := replyFor_spec H msg file d1
  refine ⟨file, d1, replyFor H msg file d1, frame, ?_, ?_, ?_, ?_, ?_, hframe, hcomp, ?_, ?_⟩
  · rw [hfile, hd1]; rfl
  · rw [hfile]; rfl
  · rw [hfile]; rfl
  · rw [hreq]
  · rw [hreq]
  · intro hc
    obtain ⟨h1, h2, h3⟩ := hreqst hc
    refine ⟨h1, h2, ?_⟩
    intro bytes k hs hlen hb hk hk16 hk0 hbefore
    have hin : 80 + k / 8 < bytes.length := by
      have hbm : file.file_metadata.bitmap_size = file.file_metadata.file_n_chunks / 8 +
          (if file.file_metadata.file_n_chunks % 8 > 0 then 1 else 0) := by rw [hmd]; rfl
      rw [hlen, h80, hbm]
      split <;> omega
    have hnm := nextMissingChunk_smallest file.file_metadata bytes k h80 hb
      (by rw [hlen, h80]; omega) hin hk hk0 hbefore
    rw [h3]
    unfold FileRemote.getNextMissingChunk
    rw [hs, hnm]
    exact Nat.mod_eq_of_lt hk16
  · intro hnone hsz
    obtain ⟨hn0, hb0⟩ := hpos hsz
    have hside : d1.sidecar = some ((nativeBytes8 msg.offer.file_size ++
        nativeBytes8 CHUNK_SIZE ++ msg.offer.file_hash.take HASH_SIZE) ++
        List.replicate file.file_metadata.bitmap_size 0) := by
      rw [hd1, hmd]
      show (FileMetadata.new msg.offer.file_size CHUNK_SIZE msg.offer.file_hash).createIfNotExist
        d.sidecar = _
      rw [hnone]
      rfl
    have hhdr : (nativeBytes8 msg.offer.file_size ++
        nativeBytes8 CHUNK_SIZE ++ msg.offer.file_hash.take HASH_SIZE).length = 80 := by
      simp only [List.length_append, nativeBytes8_length, List.length_take, hhash, HASH_SIZE]
      decide
    have hnm : file.getNextMissingChunk d1 0 = 0 := by
      unfold FileRemote.getNextMissingChunk
      rw [hside]
      exact nextMissingChunk_fresh _ _ _ h80 hhdr hb0 hn0
    have hc : file.isComplete H d1 = false := by
      have hne : file.file_metadata.nextMissingChunk d1.sidecar 0 ≠ UINT64_MAX := by
        have : file.file_metadata.nextMissingChunk d1.sidecar 0 = 0 := hnm
        rw [this]
        decide
      unfold FileRemote.isComplete
      cases d1.dest with
      | none => rfl
      | some content => exact if_neg hne
    obtain ⟨h1, h2, h3⟩ := hreqst hc
    refine ⟨h1, ?_, h2⟩
    rw [h3, hnm]
    decide

/-- Witness for C10 (amended): the offer of the 1-byte file on a receiver with
no file at all. -/
theorem offer_reply_witness :
    oneByteOffer.msg_type = MSGTYPE_FILE_OFFER ∧
    oneByteOffer.offer.file_size < 2 ^ 32 ∧ oneByteOffer.offer.file_hash.length = 64 ∧
    ∃ file d1 resp frame,
      makeRemoteFileOffered oneByteOffer.offer.file_hash oneByteOffer.offer.file_size
        { dest := none, sidecar := none } = (file, d1) ∧
      file.size = oneByteOffer.offer.file_size ∧ file.hash = oneByteOffer.offer.file_hash ∧
      (handleRequest exampleDigest oneByteOffer { dest := none, sidecar := none }).1 = d1 ∧
      (handleRequest exampleDigest oneByteOffer { dest := none, sidecar := none }).2
        = some resp ∧
      sentFrames (some resp) = [frame] ∧
      (file.isComplete exampleDigest d1 = true → resp.msg_type = MSGTYPE_FILE_COMPLETE) ∧
      (file.isComplete exampleDigest d1 = false →
        resp.msg_type = MSGTYPE_FILE_CHUNK_REQ ∧ resp.chunk_req.chunk_idx_last = 0xFFFF ∧
        ∀ bytes k, d1.sidecar = some bytes →
          bytes.length = file.file_metadata.header_size + file.file_metadata.bitmap_size →
          (∀ b ∈ bytes, b < 256) →
          k < file.file_metadata.file_n_chunks → k < 65536 →
          chunkMarked bytes k = false → (∀ j, j < k → chunkMarked bytes j = true) →
          resp.chunk_req.chunk_idx_first = k) ∧
      ((Disk.mk none none).sidecar = none → 0 < oneByteOffer.offer.file_size →
        resp.msg_type = MSGTYPE_FILE_CHUNK_REQ ∧ resp.chunk_req.chunk_idx_first = 0 ∧
        resp.chunk_req.chunk_idx_last = 0xFFFF) :=
  ⟨rfl, by decide, by decide,
    offer_reply exampleDigest oneByteOffer { dest := none, sidecar := none } rfl
      (by decide) (by decide)⟩

end server

namespace file
open proto

theorem bigHeader_length :
    (nativeBytes8 server.bigSize ++ nativeBytes8 CHUNK_SIZE ++ exampleHash).length = 80 := by
  decide

/-- `nextMissingChunk(0)` skips a run of 0xFF bytes at the start of the
bitmap. -/
theorem nextMissingChunk_skip (md : FileMetadata) (hdr rest : List Nat) (m : Nat)
    (h80 : md.header_size = 80) (hhdr : hdr.length = 80) :
    md.nextMissingChunk (some (hdr ++ (List.replicate m 0xFF ++ rest))) 0
      = (if (readWhileFF rest (80 + m)).1 ≠ 0xFF then
          (if scanBits (readWhileFF rest (80 + m)).1 8
                (toSizeT ((toInt32 (readWhileFF rest (80 + m)).2 - (80 : Nat) - 1) * 8))
              < md.file_n_chunks
            then scanBits (readWhileFF rest (80 + m)).1 8
                (toSizeT ((toInt32 (readWhileFF rest (80 + m)).2 - (80 : Nat) - 1) * 8))
            else UINT64_MAX)
        else UINT64_MAX) := by
  have hstart : (80 + 0 / 8) % 2 ^ 64 = 80 := by decide
  simp only [FileMetadata.nextMissingChunk, h80, hstart, List.drop_left' hhdr,
    readWhileFF_replicate]

/-- With the chunks 0 to 65535 marked and chunk 65536 of 65537 unmarked the
next missing chunk is 65536. -/
theorem nextMissingChunk_big (md : FileMetadata) (hdr : List Nat)
    (h80 : md.header_size = 80) (hhdr : hdr.length = 80) (hn : md.file_n_chunks = 65537) :
    md.nextMissingChunk (some (hdr ++ (List.replicate 8192 0xFF ++ [0x00]))) 0 = 65536 := by
  rw [nextMissingChunk_skip md hdr [0x00] 8192 h80 hhdr, hn]
  decide

/-- Marking chunk 65535 when the chunks 0 to 65534 are marked. -/
theorem markChunk_big (md : FileMetadata) (hdr : List Nat)
    (h80 : md.header_size = 80) (hhdr : hdr.length = 80) :
    md.markChunk (some (hdr ++ (List.replicate 8191 0xFF ++ [0xFE, 0x00]))) 65535 true
      = some (hdr ++ (List.replicate 8192 0xFF ++ [0x00])) := by
  have hpos : (80 + 65535 / 8) % 2 ^ 64 = 80 + 8191 := by decide
  have hget : (hdr ++ (List.replicate 8191 0xFF ++ [0xFE, 0x00]))[80 + 8191]? = some 0xFE := by
    rw [List.getElem?_append_right (by omega), hhdr,
      List.getElem?_append_right (le_of_eq_of_le (List.length_replicate _ _) (by omega)),
      List.length_replicate]
    rfl
  simp only [FileMetadata.markChunk, h80, hpos, hget, if_true]
  rw [List.set_append_right _ _ (by omega), hhdr,
    List.set_append_right _ _ (le_of_eq_of_le (List.length_replicate _ _) (by omega)), List.length_replicate,
    List.replicate_succ' 8191, List.append_assoc]
  rfl

end file

namespace server
open proto file

/-- While a chunk is missing the sink is not complete and the reply is a
CHUNK_REQ built from the next missing chunk index. -/
theorem replyFor_of_missing (H : List Nat → List Nat) (msg : Message) (file : FileRemote)
    (d : Disk) (k : Nat) (hk : file.file_metadata.nextMissingChunk d.sidecar 0 = k)
    (hne : k ≠ UINT64_MAX) :
    replyFor H msg file d
      = buildMsgChunkReq (msg.seq_number + 1) msg.client_uuid msg.file_name k UINT16_MAX := by
  have hc : file.isComplete H d = false := by
    unfold FileRemote.isComplete
    cases d.dest with
    | none => rfl
    | some content =>
      rw [hk]
      exact if_neg hne
  unfold replyFor
  rw [hc, if_neg (by decide)]
  unfold FileRemote.getNextMissingChunk
  rw [hk]

/-- On a receiver that has the chunks 0 to 65535 of the 65537-chunk file the
next missing chunk is 65536. -/
theorem offer_big_next :
    (FileRemote.new exampleHash bigSize bigDiskAfter).1.getNextMissingChunk bigDiskAfter 0
      = 65536 :=
  nextMissingChunk_big (FileMetadata.new bigSize CHUNK_SIZE exampleHash)
    (nativeBytes8 bigSize ++ nativeBytes8 CHUNK_SIZE ++ exampleHash) rfl bigHeader_length
    (by decide)

/-- The offer of a 65537-chunk file to a receiver that has the chunks 0 to
65535: the next missing chunk is 65536 and the CHUNK_REQ is built from it. -/
theorem offer_big_reply :
    (handleRequest exampleDigest bigOffer bigDiskAfter).2
      = some (buildMsgChunkReq 2 (List.replicate 16 9) [97] 65536 0xFFFF) := by
  rw [handleRequest_offer exampleDigest bigOffer bigDiskAfter rfl]
  have hd : (FileRemote.new bigOffer.offer.file_hash bigOffer.offer.file_size bigDiskAfter).2
      = bigDiskAfter := rfl
  rw [hd]
  have hk : (FileRemote.new bigOffer.offer.file_hash bigOffer.offer.file_size
      bigDiskAfter).1.file_metadata.nextMissingChunk bigDiskAfter.sidecar 0 = 65536 :=
    nextMissingChunk_big (FileMetadata.new bigSize CHUNK_SIZE exampleHash)
      (nativeBytes8 bigSize ++ nativeBytes8 CHUNK_SIZE ++ exampleHash) rfl bigHeader_length
      (by decide)
  rw [replyFor_of_missing _ _ _ _ 65536 hk (by decide)]
  rfl

/-- Chunk 65535 of the 65537-chunk file arrives at a receiver that has the
chunks 0 to 65534: afterwards the next missing chunk is 65536 and the
CHUNK_REQ is built from it. -/
theorem chunkData_big_reply :
    (FileRemote.new exampleHash bigSize bigDiskBefore).1.getNextMissingChunk
      (handleRequest exampleDigest bigChunkMsg bigDiskBefore).1 0 = 65536 ∧
    (handleRequest exampleDigest bigChunkMsg bigDiskBefore).2
      = some (buildMsgChunkReq 3 (List.replicate 16 9) [97] 65536 0xFFFF) := by
  have hmk : makeRemoteFile bigDiskBefore
      = some (FileRemote.new exampleHash bigSize bigDiskBefore) :=
    makeRemoteFile_sidecar bigDiskBefore bigSize exampleHash _ (by decide) (by decide) rfl
  have hreq := handleRequest_chunkData exampleDigest bigChunkMsg bigDiskBefore _ rfl hmk
  have hd : (FileRemote.new exampleHash bigSize bigDiskBefore).2 = bigDiskBefore := rfl
  rw [hd] at hreq
  have hsave : ((FileRemote.new exampleHash bigSize bigDiskBefore).1.saveChunk bigDiskBefore
      (chunkOf bigChunkMsg)).sidecar
      = some ((nativeBytes8 bigSize ++ nativeBytes8 CHUNK_SIZE ++ exampleHash) ++
          (List.replicate 8192 0xFF ++ [0x00])) := by
    have hlen : (chunkOf bigChunkMsg).data.length = 3968 := List.length_replicate _ _
    have hidx : (chunkOf bigChunkMsg).idx = 65535 := rfl
    have hsc : bigDiskBefore.sidecar
        = some ((nativeBytes8 bigSize ++ nativeBytes8 CHUNK_SIZE ++ exampleHash) ++
            (List.replicate 8191 0xFF ++ [0xFE, 0x00])) := rfl
    rw [FileRemote_new_fst]
    unfold FileRemote.saveChunk
    simp only [hlen, hidx, hsc]
    rw [if_neg (by decide), if_neg (by decide)]
    simp only []
    exact markChunk_big (FileMetadata.new bigSize CHUNK_SIZE exampleHash)
      (nativeBytes8 bigSize ++ nativeBytes8 CHUNK_SIZE ++ exampleHash) rfl bigHeader_length
  have hk : (FileRemote.new exampleHash bigSize bigDiskBefore).1.file_metadata.nextMissingChunk
      ((FileRemote.new exampleHash bigSize bigDiskBefore).1.saveChunk bigDiskBefore
        (chunkOf bigChunkMsg)).sidecar 0 = 65536 := by
    rw [hsave]
    exact nextMissingChunk_big (FileMetadata.new bigSize CHUNK_SIZE exampleHash)
      (nativeBytes8 bigSize ++ nativeBytes8 CHUNK_SIZE ++ exampleHash) rfl bigHeader_length
      (by decide)
  rw [hreq]
  refine ⟨hk, ?_⟩
  show some (replyFor _ _ _ _) = _
  rw [replyFor_of_missing _ _ _ _ 65536 hk (by decide)]
  rfl


/-- C9 (counterexample): two replies that are not the CHUNK_REQ of the claim.
First, the only chunk of a 1-byte file arrives with a byte whose digest is
not the sink's hash: the bitmap is then full, the sink is not complete, its
next missing chunk index is the sentinel 2^64 - 1, and the reply is a
CHUNK_REQ whose first index is 0xFFFF, not that index.  Second, chunk 65535
of a 65537-chunk file arrives when the chunks below it are marked: the next
missing chunk index is 65536 and the first index of the CHUNK_REQ is 0. -/
theorem chunkData_reply_hash_mismatch :
    (oneByteDisk.sidecar
      = some (nativeBytes8 1 ++ nativeBytes8 CHUNK_SIZE ++ exampleHash ++ [0x00]) ∧
    makeRemoteFile oneByteDisk = some (FileRemote.new exampleHash 1 oneByteDisk) ∧
    (handleRequest exampleDigest badChunkMsg oneByteDisk).1
      = { dest := some [9],
          sidecar := some (nativeBytes8 1 ++ nativeBytes8 CHUNK_SIZE ++ exampleHash ++ [0x80]) } ∧
    (FileRemote.new exampleHash 1 oneByteDisk).1.isComplete exampleDigest
      (handleRequest exampleDigest badChunkMsg oneByteDisk).1 = false ∧
    (FileRemote.new exampleHash 1 oneByteDisk).1.getNextMissingChunk
      (handleRequest exampleDigest badChunkMsg oneByteDisk).1 0 = 2 ^ 64 - 1 ∧
    (handleRequest exampleDigest badChunkMsg oneByteDisk).2
      = some (buildMsgChunkReq 3 (List.replicate 16 9) [97] 0xFFFF 0xFFFF) ∧
    (buildMsgChunkReq 3 (List.replicate 16 9) [97] 0xFFFF 0xFFFF).chunk_req.chunk_idx_first
      = 0xFFFF) ∧
    (FileRemote.new exampleHash bigSize bigDiskBefore).1.getNextMissingChunk
      (handleRequest exampleDigest bigChunkMsg bigDiskBefore).1 0 = 65536 ∧
    (handleRequest exampleDigest bigChunkMsg bigDiskBefore).2
      = some (buildMsgChunkReq 3 (List.replicate 16 9) [97] 65536 0xFFFF) ∧
    (buildMsgChunkReq 3 (List.replicate 16 9) [97] 65536 0xFFFF).chunk_req.chunk_idx_first
      = 0 :=
  ⟨by decide, chunkData_big_reply.1, chunkData_big_reply.2, by decide⟩

/-- C10 (counterexample): two offers whose reply is not the CHUNK_REQ of the
claim.  First, the 1-byte file is offered to a receiver on which chunk 0, the
only chunk, is marked but the destination does not hash to the offered hash:
the sink is not complete and the reply is a CHUNK_REQ whose first index is
0xFFFF, while no chunk of the file is unmarked and the first bit of the
sidecar that is 0 is that of index 1.  Second, a 65537-chunk file is offered
to a receiver that has the chunks 0 to 65535: the smallest unmarked chunk is
65536 and the first index of the CHUNK_REQ is 0. -/
theorem offer_reply_hash_mismatch :
    ((FileRemote.new exampleHash 1 mismatchDisk).1.file_metadata.file_n_chunks = 1 ∧
    (FileRemote.new exampleHash 1 mismatchDisk).2 = mismatchDisk ∧
    chunkMarked (nativeBytes8 1 ++ nativeBytes8 CHUNK_SIZE ++ exampleHash ++ [0x80]) 0 = true ∧
    chunkMarked (nativeBytes8 1 ++ nativeBytes8 CHUNK_SIZE ++ exampleHash ++ [0x80]) 1 = false ∧
    (FileRemote.new exampleHash 1 mismatchDisk).1.isComplete exampleDigest mismatchDisk
      = false ∧
    (handleRequest exampleDigest oneByteOffer mismatchDisk).2
      = some (buildMsgChunkReq 2 (List.replicate 16 9) [97] 0xFFFF 0xFFFF) ∧
    (buildMsgChunkReq 2 (List.replicate 16 9) [97] 0xFFFF 0xFFFF).chunk_req.chunk_idx_first
      = 0xFFFF) ∧
    (FileRemote.new exampleHash bigSize bigDiskAfter).1.getNextMissingChunk bigDiskAfter 0
      = 65536 ∧
    (handleRequest exampleDigest bigOffer bigDiskAfter).2
      = some (buildMsgChunkReq 2 (List.replicate 16 9) [97] 65536 0xFFFF) ∧
    (buildMsgChunkReq 2 (List.replicate 16 9) [97] 65536 0xFFFF).chunk_req.chunk_idx_first
      = 0 :=
  ⟨by decide, offer_big_next, offer_big_reply, by decide⟩

end server

namespace proto

theorem putU16_eq (v : Nat) (h : v < 2 ^ 16) : putU16 v = [v / 256, v % 256] := by
  have h1 : (0xff : Nat) = 2 ^ 8 - 1 := by decide
  have h2 : (256 : Nat) = 2 ^ 8 := by decide
  unfold putU16
  rw [h1, Nat.and_pow_two_sub_one_eq_mod, Nat.and_pow_two_sub_one_eq_mod,
    Nat.shiftRight_eq_div_pow, ← h2]
  have : v / 256 % 256 = v / 256 := Nat.mod_eq_of_lt (by omega)
  rw [this]

theorem putU32_eq (v : Nat) (h : v < 2 ^ 32) :
    putU32 v = [v / 2 ^ 24, v / 2 ^ 16 % 256, v / 2 ^ 8 % 256, v % 256] := by
  have h1 : (0xff : Nat) = 2 ^ 8 - 1 := by decide
  have h2 : (256 : Nat) = 2 ^ 8 := by decide
  unfold putU32
  rw [h1, Nat.and_pow_two_sub_one_eq_mod, Nat.and_pow_two_sub_one_eq_mod,
    Nat.and_pow_two_sub_one_eq_mod, Nat.and_pow_two_sub_one_eq_mod,
    Nat.shiftRight_eq_div_pow, Nat.shiftRight_eq_div_pow, Nat.shiftRight_eq_div_pow, ← h2]
  have : v / 2 ^ 24 % 256 = v / 2 ^ 24 := Nat.mod_eq_of_lt (by omega)
  rw [this]

/-- The length of the variant part that `serialize` writes. -/
theorem serializeVariant_length (m : Message) (var : List Nat)
    (hv : m.serializeVariant = .ok var) : var.length ≤ 3974 := by
  unfold Message.serializeVariant at hv
  have h4 : ∀ v, (putU32 v).length = 4 := fun _ => rfl
  have h2 : ∀ v, (putU16 v).length = 2 := fun _ => rfl
  split at hv
  · split at hv
    · cases hv
      simp only [List.length_append, h4, List.length_take, HASH_SIZE]
      omega
    · cases hv
  · split at hv
    · cases hv
      simp only [List.length_append, h4]
      omega
    · split at hv
      · split at hv
        · cases hv
        · rename_i hlen
          cases hv
          simp only [List.length_append, h4, h2]
          unfold MAX_MSG_PAYLOAD_SIZE MAX_MSG_SIZE at hlen
          omega
      · split at hv
        · cases hv
          simp
        · cases hv

/-- The four message types and their tags: `putU32` of a type is the magic
followed by the tag. -/
theorem serializeVariant_tag (m : Message) (var : List Nat)
    (hv : m.serializeVariant = .ok var) :
    ∃ tag, putU32 m.msg_type = [0x87, 0xFE, 0x77, tag] ∧
      ((m.msg_type = MSGTYPE_FILE_OFFER ∧ tag = 0x01) ∨
       (m.msg_type = MSGTYPE_FILE_CHUNK_REQ ∧ tag = 0x02) ∨
       (m.msg_type = MSGTYPE_FILE_CHUNK_DATA ∧ tag = 0x03) ∨
       (m.msg_type = MSGTYPE_FILE_COMPLETE ∧ tag = 0x04)) := by
  unfold Message.serializeVariant at hv
  by_cases h1 : m.msg_type = MSGTYPE_FILE_OFFER
  · exact ⟨1, by rw [h1]; rfl, Or.inl ⟨h1, rfl⟩⟩
  · by_cases h2 : m.msg_type = MSGTYPE_FILE_CHUNK_REQ
    · exact ⟨2, by rw [h2]; rfl, Or.inr (Or.inl ⟨h2, rfl⟩)⟩
    · by_cases h3 : m.msg_type = MSGTYPE_FILE_CHUNK_DATA
      · exact ⟨3, by rw [h3]; rfl, Or.inr (Or.inr (Or.inl ⟨h3, rfl⟩))⟩
      · by_cases h4 : m.msg_type = MSGTYPE_FILE_COMPLETE
        · exact ⟨4, by rw [h4]; rfl, Or.inr (Or.inr (Or.inr ⟨h4, rfl⟩))⟩
        · rw [if_neg h1, if_neg h2, if_neg h3, if_neg h4] at hv
          cases hv

theorem serialize_ok_variant (m : Message) (out res : List Nat)
    (hs : m.serialize out = .ok res) : ∃ var, m.serializeVariant = .ok var := by
  unfold Message.serialize Message.serializePayload at hs
  cases hv : m.serializeVariant with
  | ok var => exact ⟨var, rfl⟩
  | error e =>
    rw [hv] at hs
    cases hs

/-- C15: when `serialize` succeeds on a message with a 16-byte peer id, a
16-bit sequence number and a file name of n ≤ 255 bytes, the bytes appended
to the output are 0x87, 0xFE, 0x77, the type tag (1 OFFER, 2 CHUNK_REQ,
3 CHUNK_DATA, 4 COMPLETE), the big-endian payload length L and exactly L
payload bytes that begin with the big-endian sequence number, the peer id,
the byte n and the file name; the frame is 6 + L bytes long. -/
theorem serialize_envelope_and_prefix (m : Message) (out res : List Nat)
    (hu : m.client_uuid.length = 16) (hseq : m.seq_number < 2 ^ 16)
    (hn : m.file_name.length ≤ 255) (hs : m.serialize out = .ok res) :
    ∃ tag L rest payload,
      ((m.msg_type = MSGTYPE_FILE_OFFER ∧ tag = 0x01) ∨
       (m.msg_type = MSGTYPE_FILE_CHUNK_REQ ∧ tag = 0x02) ∨
       (m.msg_type = MSGTYPE_FILE_CHUNK_DATA ∧ tag = 0x03) ∨
       (m.msg_type = MSGTYPE_FILE_COMPLETE ∧ tag = 0x04)) ∧
      L < 2 ^ 16 ∧
      res = out ++ ([0x87, 0xFE, 0x77, tag] ++ [L / 256, L % 256] ++ payload) ∧
      payload.length = L ∧
      payload = [m.seq_number / 256, m.seq_number % 256] ++ m.client_uuid ++
        [m.file_name.length] ++ m.file_name ++ rest ∧
      ([0x87, 0xFE, 0x77, tag] ++ [L / 256, L % 256] ++ payload).length = 6 + L := by
  obtain ⟨var, hv⟩ := serialize_ok_variant m out res hs
  obtain ⟨tag, htag, hcases⟩ := serializeVariant_tag m var hv
  have hvl := serializeVariant_length m var hv
  have hlen : m.file_name.length &&& 0xff = m.file_name.length := by
    have h : (0xff : Nat) = 2 ^ 8 - 1 := by decide
    rw [h, Nat.and_pow_two_sub_one_eq_mod]
    exact Nat.mod_eq_of_lt (by omega)
  rw [serialize_eq m hn var out hv, hlen, putU16_eq m.seq_number hseq, htag] at hs
  have hL : ([m.seq_number / 256, m.seq_number % 256] ++ m.client_uuid ++
      [m.file_name.length] ++ m.file_name ++ var).length = 19 + m.file_name.length + var.length := by
    simp only [List.length_append, List.length_cons, List.length_nil, hu]
  have hmod : (19 + m.file_name.length + var.length) % 2 ^ 16
      = 19 + m.file_name.length + var.length := Nat.mod_eq_of_lt (by omega)
  rw [hL, hmod, putU16_eq _ (by omega)] at hs
  cases hs
  refine ⟨tag, 19 + m.file_name.length + var.length, var, _, hcases, by omega, ?_, hL, rfl, ?_⟩
  · simp only [List.append_assoc]
  · simp only [List.length_append, List.length_cons, List.length_nil, hu]

/-- C15 (witness): the frame of the example COMPLETE message. -/
theorem serialize_envelope_and_prefix_witness :
    exampleComplete.serialize [] = .ok exampleCompleteFrame ∧
    ∃ tag L rest payload,
      ((exampleComplete.msg_type = MSGTYPE_FILE_OFFER ∧ tag = 0x01) ∨
       (exampleComplete.msg_type = MSGTYPE_FILE_CHUNK_REQ ∧ tag = 0x02) ∨
       (exampleComplete.msg_type = MSGTYPE_FILE_CHUNK_DATA ∧ tag = 0x03) ∨
       (exampleComplete.msg_type = MSGTYPE_FILE_COMPLETE ∧ tag = 0x04)) ∧
      L < 2 ^ 16 ∧
      exampleCompleteFrame = [] ++ ([0x87, 0xFE, 0x77, tag] ++ [L / 256, L % 256] ++ payload) ∧
      payload.length = L ∧
      payload = [exampleComplete.seq_number / 256, exampleComplete.seq_number % 256] ++
        exampleComplete.client_uuid ++ [exampleComplete.file_name.length] ++
        exampleComplete.file_name ++ rest ∧
      ([0x87, 0xFE, 0x77, tag] ++ [L / 256, L % 256] ++ payload).length = 6 + L :=
  ⟨rfl, serialize_envelope_and_prefix exampleComplete [] exampleCompleteFrame rfl (by decide)
    (by decide) rfl⟩

end proto

namespace proto

/-- C16 (counterexample): the frame of the example CHUNK_DATA message (file
name of 2 bytes, 3 data bytes, chunk hash of 32 ones) ends with the data
bytes: the payload length is 30 = 19 + 2 + 6 + 3, not 62, and no byte of the
chunk hash is in the frame. -/
theorem chunkData_frame_has_no_hash :
    exampleChunkData.chunk_data.hash = List.replicate 32 1 ∧
    exampleChunkData.serialize []
      = .ok ([0x87, 0xFE, 0x77, 3, 0, 30] ++ examplePrefix ++ [0, 0, 0, 3, 0, 3, 1, 2, 3]) ∧
    (examplePrefix ++ [0, 0, 0, 3, 0, 3, 1, 2, 3]).length = 19 + 2 + 6 + 3 ∧
    (examplePrefix ++ [0, 0, 0, 3, 0, 3, 1, 2, 3]).length ≠ 19 + 2 + 6 + 3 + 32 :=
  ⟨rfl, rfl, by decide, by decide⟩

/-- C16 (amended): for a CHUNK_DATA message with k data bytes, 0 < k ≤ 3968,
a 32-bit index, a 16-byte peer id, a 16-bit sequence number and a file name
of n ≤ 255 bytes, the payload that `serialize` writes after the common
prefix is the 4-byte big-endian index, the 2-byte big-endian length k and
the k data bytes, and nothing else: L = 19 + n + 6 + k. -/
theorem chunkData_trailer (m : Message) (out : List Nat)
    (ht : m.msg_type = MSGTYPE_FILE_CHUNK_DATA)
    (hk0 : 0 < m.chunk_data.data.length) (hk : m.chunk_data.data.length ≤ 3968)
    (hidx : m.chunk_data.idx < 2 ^ 32)
    (hu : m.client_uuid.length = 16) (hseq : m.seq_number < 2 ^ 16)
    (hn : m.file_name.length ≤ 255) :
    ∃ L trailer,
      L = 19 + m.file_name.length + 6 + m.chunk_data.data.length ∧
      trailer = [m.chunk_data.idx / 2 ^ 24, m.chunk_data.idx / 2 ^ 16 % 256,
          m.chunk_data.idx / 2 ^ 8 % 256, m.chunk_data.idx % 256] ++
        [m.chunk_data.data.length / 256, m.chunk_data.data.length % 256] ++
        m.chunk_data.data ∧
      m.serialize out = .ok (out ++ ([0x87, 0xFE, 0x77, 3] ++ [L / 256, L % 256] ++
        ([m.seq_number / 256, m.seq_number % 256] ++ m.client_uuid ++
          [m.file_name.length] ++ m.file_name ++ trailer))) ∧
      ([m.seq_number / 256, m.seq_number % 256] ++ m.client_uuid ++
          [m.file_name.length] ++ m.file_name ++ trailer).length = L := by
  have hv : m.serializeVariant = .ok (putU32 m.chunk_data.idx ++
      putU16 (m.chunk_data.data.length % 2 ^ 16) ++ m.chunk_data.data) := by
    unfold Message.serializeVariant
    rw [ht, if_neg (by decide), if_neg (by decide), if_pos rfl, if_neg]
    unfold MAX_MSG_PAYLOAD_SIZE MAX_MSG_SIZE
    omega
  have hlen : m.file_name.length &&& 0xff = m.file_name.length := by
    have h : (0xff : Nat) = 2 ^ 8 - 1 := by decide
    rw [h, Nat.and_pow_two_sub_one_eq_mod]
    exact Nat.mod_eq_of_lt (by omega)
  have hkmod : m.chunk_data.data.length % 2 ^ 16 = m.chunk_data.data.length :=
    Nat.mod_eq_of_lt (by omega)
  have htag : putU32 m.msg_type = [0x87, 0xFE, 0x77, 3] := by rw [ht]; rfl
  rw [serialize_eq m hn _ out hv, hlen, putU16_eq m.seq_number hseq, htag, hkmod,
    putU16_eq m.chunk_data.data.length (by omega), putU32_eq m.chunk_data.idx hidx]
  have hL : ([m.seq_number / 256, m.seq_number % 256] ++ m.client_uuid ++
      [m.file_name.length] ++ m.file_name ++
      ([m.chunk_data.idx / 2 ^ 24, m.chunk_data.idx / 2 ^ 16 % 256,
          m.chunk_data.idx / 2 ^ 8 % 256, m.chunk_data.idx % 256] ++
        [m.chunk_data.data.length / 256, m.chunk_data.data.length % 256] ++
        m.chunk_data.data)).length
      = 19 + m.file_name.length + 6 + m.chunk_data.data.length := by
    simp only [List.length_append, List.length_cons, List.length_nil, hu]
    omega
  have hmod : (19 + m.file_name.length + 6 + m.chunk_data.data.length) % 2 ^ 16
      = 19 + m.file_name.length + 6 + m.chunk_data.data.length := Nat.mod_eq_of_lt (by omega)
  rw [hL, hmod, putU16_eq _ (by omega)]
  refine ⟨_, _, rfl, rfl, ?_, hL⟩
  simp only [List.append_assoc]

/-- C16 (witness): the example CHUNK_DATA message. -/
theorem chunkData_trailer_witness :
    exampleChunkData.msg_type = MSGTYPE_FILE_CHUNK_DATA ∧
    ∃ L trailer,
      L = 19 + exampleChunkData.file_name.length + 6 + exampleChunkData.chunk_data.data.length ∧
      trailer = [exampleChunkData.chunk_data.idx / 2 ^ 24,
          exampleChunkData.chunk_data.idx / 2 ^ 16 % 256,
          exampleChunkData.chunk_data.idx / 2 ^ 8 % 256, exampleChunkData.chunk_data.idx % 256] ++
        [exampleChunkData.chunk_data.data.length / 256,
          exampleChunkData.chunk_data.data.length % 256] ++
        exampleChunkData.chunk_data.data ∧
      exampleChunkData.serialize [] = .ok ([] ++ ([0x87, 0xFE, 0x77, 3] ++ [L / 256, L % 256] ++
        ([exampleChunkData.seq_number / 256, exampleChunkData.seq_number % 256] ++
          exampleChunkData.client_uuid ++
          [exampleChunkData.file_name.length] ++ exampleChunkData.file_name ++ trailer))) ∧
      ([exampleChunkData.seq_number / 256, exampleChunkData.seq_number % 256] ++
          exampleChunkData.client_uuid ++
          [exampleChunkData.file_name.length] ++ exampleChunkData.file_name ++ trailer).length
        = L :=
  ⟨rfl, chunkData_trailer exampleChunkData [] rfl (by decide) (by decide) (by decide) rfl
    (by decide) (by decide)⟩

end proto

namespace proto

/-- The constructor on a CHUNK_DATA frame that holds the data bytes its
chunk length field announces: the message is built whatever that length. -/
theorem parse_chunkData_frame (L seq idx : Nat) (uuid name data : List Nat)
    (hL : L < 2 ^ 16) (hseq : seq < 2 ^ 16) (hu : uuid.length = 16)
    (hn : name.length ≤ 255) (hidx : idx < 2 ^ 32) (hk : data.length < 2 ^ 16) :
    Message.parse (putU32 MSGTYPE_FILE_CHUNK_DATA ++ putU16 L ++ (putU16 seq ++ uuid ++
        [name.length] ++ name ++ (putU32 idx ++ putU16 data.length ++ data)))
      = .ok { msg_type := MSGTYPE_FILE_CHUNK_DATA, msg_len := L, seq_number := seq,
              client_uuid := uuid, file_name := name,
              chunk_data := { idx := idx, data := data, hash := List.replicate 32 0 } } := by
  have hlen : name.length &&& 0xff = name.length := by
    have h : (0xff : Nat) = 2 ^ 8 - 1 := by decide
    rw [h, Nat.and_pow_two_sub_one_eq_mod]
    exact Nat.mod_eq_of_lt (by omega)
  have hp := parse_prefix MSGTYPE_FILE_CHUNK_DATA L seq uuid name
    (putU32 idx ++ putU16 data.length ++ data) (by decide) hL hseq hu hn
  rw [hlen] at hp
  have d13 : MSGTYPE_FILE_CHUNK_DATA ≠ MSGTYPE_FILE_OFFER := by decide
  have d23 : MSGTYPE_FILE_CHUNK_DATA ≠ MSGTYPE_FILE_CHUNK_REQ := by decide
  simp only [d13, d23, if_true, if_false, List.append_assoc] at hp
  simp only [putU32, getU32, List.cons_append, List.nil_append, bind, Except.bind] at hp
  rw [getU16_putU16 _ hk] at hp
  simp only [copyN_all _ _ rfl, pure, Except.pure] at hp
  rw [get_put_u32 idx hidx] at hp
  simp only [List.append_assoc, putU32, List.cons_append, List.nil_append]
  exact hp

/-- C17 (counterexample): the constructor builds a message from a CHUNK_DATA
frame whose chunk length field is 0, and from one whose chunk length field
is 3969 and that holds 3969 data bytes. -/
theorem parse_accepts_bad_chunk_length :
    (Message.parse zeroLengthChunkFrame).toOption.map (fun m => m.chunk_data.data)
      = some [] ∧
    (Message.parse longChunkFrame).toOption.map (fun m => m.chunk_data.data)
      = some (List.replicate 3969 1) ∧
    (List.replicate 3969 1 : List Nat).length = 3969 :=
  ⟨rfl,
   by
    have h := parse_chunkData_frame 0x0F9C 7 3 (List.replicate 16 9) [97, 98]
      (List.replicate 3969 1) (by decide) (by decide) rfl (by decide) (by decide)
      (by rw [List.length_replicate]; decide)
    have hf : longChunkFrame = putU32 MSGTYPE_FILE_CHUNK_DATA ++ putU16 0x0F9C ++
        (putU16 7 ++ List.replicate 16 9 ++ [([97, 98] : List Nat).length] ++ [97, 98] ++
          (putU32 3 ++ putU16 (List.replicate 3969 1 : List Nat).length ++
            List.replicate 3969 1)) := by
      rw [List.length_replicate]
      rfl
    rw [hf, h]
    rfl,
   List.length_replicate _ _⟩

/-- C17 (amended): the constructor does not check the chunk length.  For
every CHUNK_DATA frame that holds the k data bytes its chunk length field
announces, for any k below 2^16 (0 and values above 3968 included), it
returns the message with these k data bytes. -/
theorem parse_ignores_chunk_length (L seq idx : Nat) (uuid name data : List Nat)
    (hL : L < 2 ^ 16) (hseq : seq < 2 ^ 16) (hu : uuid.length = 16)
    (hn : name.length ≤ 255) (hidx : idx < 2 ^ 32) (hk : data.length < 2 ^ 16) :
    Message.parse ([0x87, 0xFE, 0x77, 3] ++ [L / 256, L % 256] ++
        ([seq / 256, seq % 256] ++ uuid ++ [name.length] ++ name ++
          ([idx / 2 ^ 24, idx / 2 ^ 16 % 256, idx / 2 ^ 8 % 256, idx % 256] ++
            [data.length / 256, data.length % 256] ++ data)))
      = .ok { msg_type := MSGTYPE_FILE_CHUNK_DATA, msg_len := L, seq_number := seq,
              client_uuid := uuid, file_name := name,
              chunk_data := { idx := idx, data := data, hash := List.replicate 32 0 } } := by
  have h := parse_chunkData_frame L seq idx uuid name data hL hseq hu hn hidx hk
  rw [putU16_eq L hL, putU16_eq seq hseq, putU16_eq _ hk, putU32_eq idx hidx] at h
  exact h

/-- C17 (witness): a frame with chunk length 0. -/
theorem parse_ignores_chunk_length_witness :
    Message.parse ([0x87, 0xFE, 0x77, 3] ++ [27 / 256, 27 % 256] ++
        ([7 / 256, 7 % 256] ++ List.replicate 16 9 ++ [([97, 98] : List Nat).length] ++ [97, 98] ++
          ([3 / 2 ^ 24, 3 / 2 ^ 16 % 256, 3 / 2 ^ 8 % 256, 3 % 256] ++
            [([] : List Nat).length / 256, ([] : List Nat).length % 256] ++ [])))
      = .ok { msg_type := MSGTYPE_FILE_CHUNK_DATA, msg_len := 27, seq_number := 7,
              client_uuid := List.replicate 16 9, file_name := [97, 98],
              chunk_data := { idx := 3, data := [], hash := List.replicate 32 0 } } :=
  parse_ignores_chunk_length 27 7 3 (List.replicate 16 9) [97, 98] [] (by decide) (by decide)
    rfl (by decide) (by decide) (by decide)

end proto

namespace proto

/-- The result of `serializeInto` in terms of the variant part. -/
theorem serializeInto_error (m : Message) (out : List Nat) (e : CodecError)
    (hv : m.serializeVariant = .error e) : m.serializeInto out = (out, some e) := by
  unfold Message.serializeInto Message.serializePayload
  rw [hv]
  rfl

theorem serializeInto_ok (m : Message) (out var : List Nat)
    (hv : m.serializeVariant = .ok var) : (m.serializeInto out).2 = none := by
  unfold Message.serializeInto Message.serializePayload
  rw [hv]
  rfl

/-- C19: `serialize` on a CHUNK_DATA message raises the length error if and
only if the data is empty or longer than 3968 bytes, it raises no other
error on such a message, and when it raises the error `out` is unchanged;
on OFFER (with a 64-byte hash), CHUNK_REQ and COMPLETE messages it raises no
error. -/
theorem serialize_fails_iff_bad_chunk_length (m : Message) (out : List Nat) :
    (m.msg_type = MSGTYPE_FILE_CHUNK_DATA →
      ((m.serializeInto out).2 = some .invalidChunkLength ↔
        (m.chunk_data.data.length = 0 ∨ 3968 < m.chunk_data.data.length)) ∧
      (∀ e, (m.serializeInto out).2 = some e → e = .invalidChunkLength) ∧
      ((m.serializeInto out).2 = some .invalidChunkLength → (m.serializeInto out).1 = out)) ∧
    (m.msg_type = MSGTYPE_FILE_OFFER → m.offer.file_hash.length = 64 →
      (m.serializeInto out).2 = none) ∧
    (m.msg_type = MSGTYPE_FILE_CHUNK_REQ → (m.serializeInto out).2 = none) ∧
    (m.msg_type = MSGTYPE_FILE_COMPLETE → (m.serializeInto out).2 = none) := by
  refine ⟨?_, ?_, ?_, ?_⟩
  · intro ht
    by_cases hd : m.chunk_data.data.length > MAX_MSG_PAYLOAD_SIZE ∨ m.chunk_data.data.length = 0
    · have hv : m.serializeVariant = .error .invalidChunkLength := by
        unfold Message.serializeVariant
        rw [ht, if_neg (by decide), if_neg (by decide), if_pos rfl, if_pos hd]
      rw [serializeInto_error m out _ hv]
      refine ⟨⟨fun _ => ?_, fun _ => rfl⟩, ?_, fun _ => rfl⟩
      · unfold MAX_MSG_PAYLOAD_SIZE MAX_MSG_SIZE at hd
        omega
      · intro e he
        cases he
        rfl
    · have hv : m.serializeVariant = .ok (putU32 m.chunk_data.idx ++
          putU16 (m.chunk_data.data.length % 2 ^ 16) ++ m.chunk_data.data) := by
        unfold Message.serializeVariant
        rw [ht, if_neg (by decide), if_neg (by decide), if_pos rfl, if_neg hd]
      rw [serializeInto_ok m out _ hv]
      refine ⟨⟨fun h => (by cases h), fun h => ?_⟩, fun e he => (by cases he),
        fun h => (by cases h)⟩
      exfalso
      apply hd
      unfold MAX_MSG_PAYLOAD_SIZE MAX_MSG_SIZE
      omega
  · intro ht hh
    refine serializeInto_ok m out (putU32 m.offer.file_size ++ putU32 m.offer.file_n_chunks ++
      m.offer.file_hash.take HASH_SIZE) ?_
    unfold Message.serializeVariant
    rw [if_pos ht, if_pos (by rw [hh]; decide)]
  · intro ht
    refine serializeInto_ok m out (putU32 m.chunk_req.chunk_idx_first ++
      putU32 m.chunk_req.chunk_idx_last) ?_
    unfold Message.serializeVariant
    rw [ht, if_neg (by decide), if_pos rfl]
  · intro ht
    refine serializeInto_ok m out [] ?_
    unfold Message.serializeVariant
    rw [ht, if_neg (by decide), if_neg (by decide), if_neg (by decide), if_pos rfl]

end proto

namespace proto

theorem announcedEnd_ge (buf : List Nat) : 25 + buf.getD 24 0 ≤ announcedEnd buf := by
  unfold announcedEnd
  simp only []
  split
  · omega
  · split
    · omega
    · split <;> omega

theorem be16_value (x y : Nat) (hx : x < 256) (hy : y < 256) :
    ((x <<< 8) &&& 0xff00) ||| (y &&& 0x00ff) = x * 256 + y := by
  have h := get_put_u16 (x * 256 + y) (by omega)
  have hff : (0xff : Nat) = 2 ^ 8 - 1 := by decide
  have e1 : ((x * 256 + y) >>> 8) &&& 0xff = x := by
    rw [hff, Nat.and_pow_two_sub_one_eq_mod, Nat.shiftRight_eq_div_pow]
    omega
  have e2 : (x * 256 + y) &&& 0xff = y := by
    rw [hff, Nat.and_pow_two_sub_one_eq_mod]
    omega
  rw [e1, e2] at h
  exact h

end proto

namespace proto

theorem getU32_short (l : List Nat) (h : l.length < 4) : getU32 l = .error .outOfRange := by
  rcases l with _ | ⟨a, _ | ⟨b, _ | ⟨c, _ | ⟨d, r⟩⟩⟩⟩
  · rfl
  · rfl
  · rfl
  · rfl
  · simp only [List.length_cons] at h
    omega

theorem getU32_long (l : List Nat) (h : 4 ≤ l.length) :
    ∃ v, getU32 l = .ok (v, l.drop 4) := by
  rcases l with _ | ⟨a, _ | ⟨b, _ | ⟨c, _ | ⟨d, r⟩⟩⟩⟩
  · simp only [List.length_nil] at h; omega
  · simp only [List.length_cons, List.length_nil] at h; omega
  · simp only [List.length_cons, List.length_nil] at h; omega
  · simp only [List.length_cons, List.length_nil] at h; omega
  · exact ⟨_, rfl⟩

theorem getU16_short (l : List Nat) (h : l.length < 2) : getU16 l = .error .outOfRange := by
  rcases l with _ | ⟨a, _ | ⟨b, r⟩⟩
  · rfl
  · rfl
  · simp only [List.length_cons] at h
    omega

theorem getU16_long (l : List Nat) (h : 2 ≤ l.length) :
    getU16 l = .ok (((l.getD 0 0 <<< 8) &&& 0xff00) ||| (l.getD 1 0 &&& 0x00ff), l.drop 2) := by
  rcases l with _ | ⟨a, _ | ⟨b, r⟩⟩
  · simp only [List.length_nil] at h; omega
  · simp only [List.length_cons, List.length_nil] at h; omega
  · rfl

/-- The constructor on a buffer of at least eight bytes: the reads of the
peer id, the file-name length and the file name, and then the `switch`. -/
theorem parse_header (b0 b1 b2 b3 l0 l1 s0 s1 : Nat) (rest : List Nat) :
    Message.parse (b0 :: b1 :: b2 :: b3 :: l0 :: l1 :: s0 :: s1 :: rest) =
    (do
      let (client_uuid, it) ← copyN rest 16
      let (file_name_len, it) ← getU8 it
      let (file_name, it) ← copyN it file_name_len
      Message.parseVariant
        { msg_type := ((b0 <<< 24) &&& 0xff000000) ||| ((b1 <<< 16) &&& 0x00ff0000) |||
            ((b2 <<< 8) &&& 0x0000ff00) ||| (b3 &&& 0x000000ff),
          msg_len := ((l0 <<< 8) &&& 0xff00) ||| (l1 &&& 0x00ff),
          seq_number := ((s0 <<< 8) &&& 0xff00) ||| (s1 &&& 0x00ff),
          client_uuid := client_uuid, file_name := file_name } it) := by
  have h32 : ∀ r : List Nat, getU32 (b0 :: b1 :: b2 :: b3 :: r)
      = .ok (((b0 <<< 24) &&& 0xff000000) ||| ((b1 <<< 16) &&& 0x00ff0000) |||
          ((b2 <<< 8) &&& 0x0000ff00) ||| (b3 &&& 0x000000ff), r) := fun _ => rfl
  have h16 : ∀ (x y : Nat) (r : List Nat), getU16 (x :: y :: r)
      = .ok (((x <<< 8) &&& 0xff00) ||| (y &&& 0x00ff), r) := fun _ _ _ => rfl
  unfold Message.parse
  rw [h32]
  simp only [bind, Except.bind]
  rw [h16]
  simp only []
  rw [h16]
  rfl

end proto

namespace proto

/-- The number of bytes that the variant trailer announced by the iterator
takes, for the four type tags. -/
theorem parseVariant_cases (msg : Message) (tag : Nat) (var : List Nat)
    (hb : ∀ b ∈ var, b < 256)
    (ht : (tag = 1 ∧ msg.msg_type = MSGTYPE_FILE_OFFER) ∨
      (tag = 2 ∧ msg.msg_type = MSGTYPE_FILE_CHUNK_REQ) ∨
      (tag = 3 ∧ msg.msg_type = MSGTYPE_FILE_CHUNK_DATA) ∨
      (tag = 4 ∧ msg.msg_type = MSGTYPE_FILE_COMPLETE)) :
    ∃ need, need = (if tag = 1 then 72 else if tag = 2 then 8
        else if tag = 3 then 6 + (var.getD 4 0 * 256 + var.getD 5 0) else 0) ∧
      ((Message.parseVariant msg var = .error .outOfRange ∧ var.length < need) ∨
       ((∃ m, Message.parseVariant msg var = .ok m) ∧ need ≤ var.length)) := by
  refine ⟨_, rfl, ?_⟩
  unfold Message.parseVariant
  rcases ht with ⟨rfl, ht⟩ | ⟨rfl, ht⟩ | ⟨rfl, ht⟩ | ⟨rfl, ht⟩
  · rw [ht, if_pos rfl, if_pos rfl]
    simp only [bind, Except.bind]
    by_cases c1 : 4 ≤ var.length
    · obtain ⟨v, hv⟩ := getU32_long var c1
      rw [hv]
      simp only []
      by_cases c2 : 4 ≤ (var.drop 4).length
      · obtain ⟨v2, hv2⟩ := getU32_long _ c2
        rw [hv2]
        simp only []
        by_cases c3 : HASH_SIZE ≤ (List.drop 4 (List.drop 4 var)).length
        · right
          simp only [copyN, if_pos c3]
          refine ⟨⟨_, rfl⟩, ?_⟩
          simp only [List.length_drop, HASH_SIZE] at c3
          omega
        · left
          simp only [copyN, if_neg c3]
          refine ⟨trivial, ?_⟩
          simp only [List.length_drop, HASH_SIZE] at c3
          omega
      · left
        rw [getU32_short _ (by omega)]
        refine ⟨rfl, ?_⟩
        simp only [List.length_drop] at c2
        omega
    · left
      rw [getU32_short _ (by omega)]
      exact ⟨rfl, by omega⟩
  · rw [ht, if_neg (by decide), if_pos rfl, if_neg (by decide), if_pos rfl]
    simp only [bind, Except.bind]
    by_cases c1 : 4 ≤ var.length
    · obtain ⟨v, hv⟩ := getU32_long var c1
      rw [hv]
      simp only []
      by_cases c2 : 4 ≤ (var.drop 4).length
      · obtain ⟨v2, hv2⟩ := getU32_long _ c2
        rw [hv2]
        right
        refine ⟨⟨_, rfl⟩, ?_⟩
        simp only [List.length_drop] at c2
        omega
      · left
        rw [getU32_short _ (by omega)]
        refine ⟨rfl, ?_⟩
        simp only [List.length_drop] at c2
        omega
    · left
      rw [getU32_short _ (by omega)]
      exact ⟨rfl, by omega⟩
  · rw [ht, if_neg (by decide), if_neg (by decide), if_pos rfl, if_neg (by decide),
      if_neg (by decide), if_pos rfl]
    simp only [bind, Except.bind]
    by_cases c1 : 4 ≤ var.length
    · obtain ⟨v, hv⟩ := getU32_long var c1
      rw [hv]
      simp only []
      by_cases c2 : 2 ≤ (var.drop 4).length
      · rw [getU16_long _ c2]
        simp only []
        have hx : (var.drop 4).getD 0 0 = var.getD 4 0 := by
          simp only [List.getD_eq_getElem?_getD, List.getElem?_drop]
        have hy : (var.drop 4).getD 1 0 = var.getD 5 0 := by
          simp only [List.getD_eq_getElem?_getD, List.getElem?_drop]
        have hlt : ∀ i, var.getD i 0 < 256 := by
          intro i
          rw [List.getD_eq_getElem?_getD]
          cases hi : var[i]? with
          | none => simp
          | some b => exact hb b (List.getElem?_mem hi)
        rw [hx, hy, be16_value _ _ (hlt 4) (hlt 5)]
        by_cases c3 : var.getD 4 0 * 256 + var.getD 5 0 ≤ (List.drop 2 (List.drop 4 var)).length
        · right
          simp only [copyN, if_pos c3]
          refine ⟨⟨_, rfl⟩, ?_⟩
          simp only [List.length_drop] at c3 c2
          omega
        · left
          simp only [copyN, if_neg c3]
          refine ⟨trivial, ?_⟩
          simp only [List.length_drop] at c3 c2
          omega
      · left
        rw [getU16_short _ (by omega)]
        refine ⟨rfl, ?_⟩
        simp only [List.length_drop] at c2
        omega
    · left
      rw [getU32_short _ (by omega)]
      exact ⟨rfl, by omega⟩
  · rw [ht, if_neg (by decide), if_neg (by decide), if_neg (by decide), if_pos rfl,
      if_neg (by decide), if_neg (by decide), if_neg (by decide)]
    right
    exact ⟨⟨_, rfl⟩, Nat.zero_le _⟩

end proto

namespace proto

theorem getD_after (pre l : List Nat) (k i : Nat) (h : pre.length = k) :
    (pre ++ l).getD (k + i) 0 = l.getD i 0 := by
  subst h
  rw [List.getD_eq_getElem?_getD, List.getD_eq_getElem?_getD,
    List.getElem?_append_right (by omega)]
  congr 2
  omega

theorem announcedEnd_frame (tag l0 l1 s0 s1 : Nat) (uuid name var : List Nat)
    (hu : uuid.length = 16) :
    announcedEnd (0x87 :: 0xFE :: 0x77 :: tag :: l0 :: l1 :: s0 :: s1 ::
        (uuid ++ name.length :: (name ++ var)))
      = 25 + name.length + (if tag = 1 then 72 else if tag = 2 then 8
          else if tag = 3 then 6 + (var.getD 4 0 * 256 + var.getD 5 0) else 0) := by
  have e3 : (0x87 :: 0xFE :: 0x77 :: tag :: l0 :: l1 :: s0 :: s1 ::
      (uuid ++ name.length :: (name ++ var))).getD 3 0 = tag := rfl
  have hpre : (0x87 :: 0xFE :: 0x77 :: tag :: l0 :: l1 :: s0 :: s1 :: uuid).length = 24 := by
    simp only [List.length_cons, hu]
  have e24 : (0x87 :: 0xFE :: 0x77 :: tag :: l0 :: l1 :: s0 :: s1 ::
      (uuid ++ name.length :: (name ++ var))).getD 24 0 = name.length :=
    getD_after (0x87 :: 0xFE :: 0x77 :: tag :: l0 :: l1 :: s0 :: s1 :: uuid)
      (name.length :: (name ++ var)) 24 0 hpre
  have hbuf : (0x87 :: 0xFE :: 0x77 :: tag :: l0 :: l1 :: s0 :: s1 ::
      (uuid ++ name.length :: (name ++ var)))
      = ((0x87 :: 0xFE :: 0x77 :: tag :: l0 :: l1 :: s0 :: s1 :: uuid) ++
          name.length :: name) ++ var := by
    simp only [List.cons_append, List.append_assoc]
  have hpre2 : ((0x87 :: 0xFE :: 0x77 :: tag :: l0 :: l1 :: s0 :: s1 :: uuid) ++
      name.length :: name).length = 25 + name.length := by
    simp only [List.length_append, List.length_cons, hu]
    omega
  have ei : ∀ i, (0x87 :: 0xFE :: 0x77 :: tag :: l0 :: l1 :: s0 :: s1 ::
      (uuid ++ name.length :: (name ++ var))).getD (25 + name.length + i) 0 = var.getD i 0 := by
    intro i
    rw [hbuf]
    exact getD_after _ var _ i hpre2
  unfold announcedEnd
  simp only [e3, e24, ei]
  split
  · rfl
  · split
    · rfl
    · split
      · omega
      · rfl

/-- A buffer with a valid magic and type tag: either it is shorter than the
fields it announces and the constructor runs into an unchecked read, or it
holds them and the constructor returns a message. -/
theorem parse_cases (tag : Nat) (it : List Nat) (hb : ∀ b ∈ it, b < 256)
    (h1 : 1 ≤ tag) (h4 : tag ≤ 4) :
    (Message.parse (0x87 :: 0xFE :: 0x77 :: tag :: it) = .error .outOfRange ∧
      (0x87 :: 0xFE :: 0x77 :: tag :: it).length
        < announcedEnd (0x87 :: 0xFE :: 0x77 :: tag :: it)) ∨
    ((∃ m, Message.parse (0x87 :: 0xFE :: 0x77 :: tag :: it) = .ok m) ∧
      announcedEnd (0x87 :: 0xFE :: 0x77 :: tag :: it)
        ≤ (0x87 :: 0xFE :: 0x77 :: tag :: it).length) := by
  rcases it with _ | ⟨l0, _ | ⟨l1, _ | ⟨s0, _ | ⟨s1, rest⟩⟩⟩⟩
  · left
    refine ⟨rfl, ?_⟩
    have := announcedEnd_ge [0x87, 0xFE, 0x77, tag]
    simp only [List.length_cons, List.length_nil]
    omega
  · left
    refine ⟨rfl, ?_⟩
    have := announcedEnd_ge [0x87, 0xFE, 0x77, tag, l0]
    simp only [List.length_cons, List.length_nil]
    omega
  · left
    refine ⟨rfl, ?_⟩
    have := announcedEnd_ge [0x87, 0xFE, 0x77, tag, l0, l1]
    simp only [List.length_cons, List.length_nil]
    omega
  · left
    refine ⟨rfl, ?_⟩
    have := announcedEnd_ge [0x87, 0xFE, 0x77, tag, l0, l1, s0]
    simp only [List.length_cons, List.length_nil]
    omega
  · rw [parse_header]
    simp only [bind, Except.bind]
    by_cases c16 : 16 ≤ rest.length
    · obtain ⟨uuid, r2, hrest, hu⟩ : ∃ uuid r2, rest = uuid ++ r2 ∧ uuid.length = 16 :=
        ⟨rest.take 16, rest.drop 16, (List.take_append_drop _ _).symm, by
          rw [List.length_take]; omega⟩
      subst hrest
      rw [copyN_append uuid r2 16 hu]
      simp only []
      rcases r2 with _ | ⟨n, r3⟩
      · left
        refine ⟨rfl, ?_⟩
        have := announcedEnd_ge (0x87 :: 0xFE :: 0x77 :: tag :: l0 :: l1 :: s0 :: s1 :: (uuid ++ []))
        simp only [List.length_cons, List.length_append, List.length_nil, hu]
        omega
      · rw [show getU8 (n :: r3) = .ok (n, r3) from rfl]
        simp only []
        have hpre : (0x87 :: 0xFE :: 0x77 :: tag :: l0 :: l1 :: s0 :: s1 :: uuid).length = 24 := by
          simp only [List.length_cons, hu]
        have e24 : (0x87 :: 0xFE :: 0x77 :: tag :: l0 :: l1 :: s0 :: s1 ::
            (uuid ++ n :: r3)).getD 24 0 = n :=
          getD_after (0x87 :: 0xFE :: 0x77 :: tag :: l0 :: l1 :: s0 :: s1 :: uuid)
            (n :: r3) 24 0 hpre
        by_cases cn : n ≤ r3.length
        · obtain ⟨name, var, hr3, hname⟩ : ∃ name var, r3 = name ++ var ∧ name.length = n :=
            ⟨r3.take n, r3.drop n, (List.take_append_drop _ _).symm, by
              rw [List.length_take]; omega⟩
          subst hr3
          subst hname
          rw [copyN_append name var _ rfl]
          simp only []
          have hbv : ∀ b ∈ var, b < 256 := by
            intro b hbm
            exact hb b (by simp [hbm])
          have ht : ∀ t : Nat,
              t = ((0x87 <<< 24) &&& 0xff000000) ||| ((0xFE <<< 16) &&& 0x00ff0000) |||
                ((0x77 <<< 8) &&& 0x0000ff00) ||| (tag &&& 0x000000ff) →
              ((tag = 1 ∧ t = MSGTYPE_FILE_OFFER) ∨
               (tag = 2 ∧ t = MSGTYPE_FILE_CHUNK_REQ) ∨
               (tag = 3 ∧ t = MSGTYPE_FILE_CHUNK_DATA) ∨
               (tag = 4 ∧ t = MSGTYPE_FILE_COMPLETE)) := by
            intro t hm
            rw [hm]
            clear hm hb e24
            interval_cases tag
            · exact Or.inl ⟨rfl, rfl⟩
            · exact Or.inr (Or.inl ⟨rfl, rfl⟩)
            · exact Or.inr (Or.inr (Or.inl ⟨rfl, rfl⟩))
            · exact Or.inr (Or.inr (Or.inr ⟨rfl, rfl⟩))
          obtain ⟨need, hneed, hcase⟩ := parseVariant_cases
            { msg_type := ((0x87 <<< 24) &&& 0xff000000) ||| ((0xFE <<< 16) &&& 0x00ff0000) |||
                ((0x77 <<< 8) &&& 0x0000ff00) ||| (tag &&& 0x000000ff),
              msg_len := ((l0 <<< 8) &&& 0xff00) ||| (l1 &&& 0x00ff),
              seq_number := ((s0 <<< 8) &&& 0xff00) ||| (s1 &&& 0x00ff),
              client_uuid := uuid, file_name := name } tag var hbv (ht _ rfl)
          rw [announcedEnd_frame tag l0 l1 s0 s1 uuid name var hu, ← hneed]
          have hlen : (0x87 :: 0xFE :: 0x77 :: tag :: l0 :: l1 :: s0 :: s1 ::
              (uuid ++ name.length :: (name ++ var))).length
              = 25 + name.length + var.length := by
            simp only [List.length_cons, List.length_append, hu]
            omega
          rw [hlen]
          rcases hcase with ⟨he, hl⟩ | ⟨hok, hl⟩
          · exact Or.inl ⟨he, by omega⟩
          · exact Or.inr ⟨hok, by omega⟩
        · left
          refine ⟨?_, ?_⟩
          · simp only [copyN, if_neg cn]
          · have := announcedEnd_ge (0x87 :: 0xFE :: 0x77 :: tag :: l0 :: l1 :: s0 :: s1 ::
              (uuid ++ n :: r3))
            rw [e24] at this
            simp only [List.length_cons, List.length_append, hu]
            omega
    · left
      refine ⟨?_, ?_⟩
      · simp only [copyN, if_neg c16]
      · have := announcedEnd_ge (0x87 :: 0xFE :: 0x77 :: tag :: l0 :: l1 :: s0 :: s1 :: rest)
        simp only [List.length_cons]
        omega

end proto

namespace proto

/-- C18 (counterexample): a COMPLETE frame that ends after the sequence
number and a CHUNK_DATA frame that holds 1 of the 3 data bytes it announces.
On both the constructor reaches no `throw`: it runs into a read past the end
of the buffer, which the source does not check and which is not a reported
error. -/
theorem parse_truncated_not_reported :
    truncatedCompleteFrame.length < announcedEnd truncatedCompleteFrame ∧
    Message.parse truncatedCompleteFrame = .error .outOfRange ∧
    truncatedChunkFrame.length < announcedEnd truncatedChunkFrame ∧
    Message.parse truncatedChunkFrame = .error .outOfRange ∧
    CodecError.outOfRange.isException = false :=
  ⟨by decide, rfl, by decide, rfl, rfl⟩

/-- C18 (amended): for every buffer of bytes with a valid magic and type
tag, the constructor reports no error.  When the buffer ends before the
fields it announces the constructor runs into an unchecked read past the end
of the buffer; when it holds them the constructor returns a message. -/
theorem parse_truncated_unchecked (buf : List Nat) (tag : Nat) (hb : ∀ b ∈ buf, b < 256)
    (hmagic : buf.take 4 = [0x87, 0xFE, 0x77, tag]) (h1 : 1 ≤ tag) (h4 : tag ≤ 4) :
    (buf.length < announcedEnd buf → Message.parse buf = .error .outOfRange) ∧
    (announcedEnd buf ≤ buf.length → ∃ m, Message.parse buf = .ok m) ∧
    (∀ e, Message.parse buf = .error e → e.isException = false) := by
  have hbuf : buf = 0x87 :: 0xFE :: 0x77 :: tag :: buf.drop 4 := by
    have h := List.take_append_drop 4 buf
    rw [hmagic] at h
    exact h.symm
  have hbd : ∀ b ∈ buf.drop 4, b < 256 := fun b hm => hb b (List.mem_of_mem_drop hm)
  have hc := parse_cases tag (buf.drop 4) hbd h1 h4
  rw [← hbuf] at hc
  rcases hc with ⟨he, hl⟩ | ⟨⟨m, hm⟩, hl⟩
  · refine ⟨fun _ => he, fun h => absurd h (by omega), fun e h => ?_⟩
    rw [he] at h
    cases h
    rfl
  · refine ⟨fun h => absurd h (by omega), fun _ => ⟨m, hm⟩, fun e h => ?_⟩
    rw [hm] at h
    cases h

/-- C18 (witness): the truncated COMPLETE frame. -/
theorem parse_truncated_unchecked_witness :
    (truncatedCompleteFrame.length < announcedEnd truncatedCompleteFrame →
      Message.parse truncatedCompleteFrame = .error .outOfRange) ∧
    (announcedEnd truncatedCompleteFrame ≤ truncatedCompleteFrame.length →
      ∃ m, Message.parse truncatedCompleteFrame = .ok m) ∧
    (∀ e, Message.parse truncatedCompleteFrame = .error e → e.isException = false) :=
  parse_truncated_unchecked truncatedCompleteFrame 4 (by decide) rfl (by decide) (by decide)

end proto

namespace client
open proto file

/-- The frame of an offer message and its parse. -/
theorem offer_frame (m : Message) (ht : m.msg_type = MSGTYPE_FILE_OFFER)
    (hseq : m.seq_number < 2 ^ 16) (hu : m.client_uuid.length = 16)
    (hn : m.file_name.length ≤ 255) (hh : m.offer.file_hash.length = 64)
    (hsize : m.offer.file_size < 2 ^ 32) (hcount : m.offer.file_n_chunks < 2 ^ 32) :
    ∃ frame m', m.serialize [] = .ok frame ∧ Message.parse frame = .ok m' ∧
      m'.msg_type = MSGTYPE_FILE_OFFER ∧ m'.seq_number = m.seq_number ∧
      m'.client_uuid = m.client_uuid ∧ m'.file_name = m.file_name ∧
      m'.offer.file_size = m.offer.file_size ∧
      m'.offer.file_n_chunks = m.offer.file_n_chunks ∧
      m'.offer.file_hash = m.offer.file_hash := by
  have htake : m.offer.file_hash.take HASH_SIZE = m.offer.file_hash := by
    show m.offer.file_hash.take 64 = m.offer.file_hash
    rw [← hh]
    exact List.take_length _
  have hle : HASH_SIZE ≤ m.offer.file_hash.length := by rw [hh]; decide
  have hv : m.serializeVariant = .ok (putU32 m.offer.file_size ++
      putU32 m.offer.file_n_chunks ++ m.offer.file_hash) := by
    simp only [Message.serializeVariant, ht, if_true, hle, htake]
  have hf := serialize_eq m hn _ [] hv
  have hl : (putU16 m.seq_number ++ m.client_uuid ++ [m.file_name.length &&& 0xff] ++
      m.file_name ++ (putU32 m.offer.file_size ++ putU32 m.offer.file_n_chunks ++
        m.offer.file_hash)).length = 19 + m.file_name.length + 72 := by
    simp only [List.length_append, putU16, putU32, List.length_cons, List.length_nil, hu, hh]
    try omega
  have hlt : (putU16 m.seq_number ++ m.client_uuid ++ [m.file_name.length &&& 0xff] ++
      m.file_name ++ (putU32 m.offer.file_size ++ putU32 m.offer.file_n_chunks ++
        m.offer.file_hash)).length < 2 ^ 16 := by
    rw [hl]; omega
  rw [Nat.mod_eq_of_lt hlt, List.nil_append] at hf
  have hp := parse_prefix m.msg_type _ _ _ m.file_name (putU32 m.offer.file_size ++
      putU32 m.offer.file_n_chunks ++ m.offer.file_hash)
    (by rw [ht]; decide) hlt hseq hu hn
  obtain ⟨frame, hframe⟩ : ∃ frame, frame = putU32 m.msg_type ++
      putU16 (putU16 m.seq_number ++ m.client_uuid ++ [m.file_name.length &&& 0xff] ++
        m.file_name ++ (putU32 m.offer.file_size ++ putU32 m.offer.file_n_chunks ++
          m.offer.file_hash)).length ++
      (putU16 m.seq_number ++ m.client_uuid ++ [m.file_name.length &&& 0xff] ++
        m.file_name ++ (putU32 m.offer.file_size ++ putU32 m.offer.file_n_chunks ++
          m.offer.file_hash)) := ⟨_, rfl⟩
  rw [← hframe] at hf hp
  have hh' : m.offer.file_hash.length = HASH_SIZE := hh
  simp only [ht, if_true, List.append_assoc, putU32, getU32, List.cons_append,
    List.nil_append, bind, Except.bind, copyN_all _ _ hh', pure, Except.pure] at hp
  rw [get_put_u32 _ hsize, get_put_u32 _ hcount] at hp
  exact ⟨frame, _, hf, hp, rfl, rfl, rfl, rfl, rfl, rfl, rfl⟩

end client

namespace client
open proto file

theorem send_ok (m : Message) (frame : List Nat) (hs : m.serialize [] = .ok frame) :
    send m = .ok [frame] := by
  unfold send
  rw [hs]

/-- C20 (counterexample): a local file of 2^32 bytes is offered.  `offer`
sends one OFFER frame, whose size field is 0, and raises no error. -/
theorem offer_oversized_file_emitted :
    2 ^ 32 - 1 < fourGiBFile.file.size ∧
    (offer exampleClient fourGiBFile).2.toOption = some [zeroSizeOfferFrame] ∧
    (Message.parse zeroSizeOfferFrame).toOption.map
        (fun m => (m.msg_type, m.offer.file_size, m.offer.file_n_chunks))
      = some (MSGTYPE_FILE_OFFER, 0, 1082402) := by
  decide

/-- C20 (amended): for a local file of any size (a `size_t`), with a 64-byte
hash and a base name of at most 255 bytes, `offer` raises no error and sends
exactly one frame; the frame parses to an OFFER whose size field is the file
size modulo 2^32 and whose chunk count field is the chunk count modulo
2^32. -/
theorem offer_sends_truncated_size (h : ClientRequestHandler) (f : ClientFile)
    (hu : h.client_uuid.length = 16) (hn : (server.filename f.path).length ≤ 255)
    (hh : f.file.hash.length = 64) :
    ∃ frame m, (offer h f).2 = .ok [frame] ∧ Message.parse frame = .ok m ∧
      m.msg_type = MSGTYPE_FILE_OFFER ∧ m.client_uuid = h.client_uuid ∧
      m.file_name = server.filename f.path ∧
      m.offer.file_size = f.file.size % 2 ^ 32 ∧
      m.offer.file_n_chunks = getNumOfChunks f.file.size % 2 ^ 32 ∧
      m.offer.file_hash = f.file.hash := by
  have hs16 : (buildMsgOffer 1 h.client_uuid f).seq_number < 2 ^ 16 := by
    show 1 % 2 ^ 16 < 2 ^ 16
    decide
  have hsz : (buildMsgOffer 1 h.client_uuid f).offer.file_size < 2 ^ 32 := by
    show f.file.size % 2 ^ 32 < 2 ^ 32
    exact Nat.mod_lt _ (by decide)
  have hct : (buildMsgOffer 1 h.client_uuid f).offer.file_n_chunks < 2 ^ 32 := by
    show getNumOfChunks f.file.size % 2 ^ 32 < 2 ^ 32
    exact Nat.mod_lt _ (by decide)
  have ht : (buildMsgOffer 1 h.client_uuid f).msg_type = MSGTYPE_FILE_OFFER := rfl
  have hu' : (buildMsgOffer 1 h.client_uuid f).client_uuid.length = 16 := hu
  have hn' : (buildMsgOffer 1 h.client_uuid f).file_name.length ≤ 255 := hn
  have hh' : (buildMsgOffer 1 h.client_uuid f).offer.file_hash.length = 64 := hh
  obtain ⟨frame, m, hs, hp, h1, _, h3, h4, h5, h6, h7⟩ :=
    offer_frame (buildMsgOffer 1 h.client_uuid f) ht hs16 hu' hn' hh' hsz hct
  have hsend : (offer h f).2 = send (buildMsgOffer 1 h.client_uuid f) := rfl
  have hsend2 : send (buildMsgOffer 1 h.client_uuid f) = .ok [frame] := send_ok _ _ hs
  exact ⟨frame, m, hsend.trans hsend2, hp, h1, h3, h4, h5, h6, h7⟩

/-- C20 (witness): the file of 2^32 bytes. -/
theorem offer_sends_truncated_size_witness :
    2 ^ 32 - 1 < fourGiBFile.file.size ∧
    ∃ frame m, (offer exampleClient fourGiBFile).2 = .ok [frame] ∧
      Message.parse frame = .ok m ∧
      m.msg_type = MSGTYPE_FILE_OFFER ∧ m.client_uuid = exampleClient.client_uuid ∧
      m.file_name = server.filename fourGiBFile.path ∧
      m.offer.file_size = fourGiBFile.file.size % 2 ^ 32 ∧
      m.offer.file_n_chunks = getNumOfChunks fourGiBFile.file.size % 2 ^ 32 ∧
      m.offer.file_hash = fourGiBFile.file.hash :=
  ⟨by decide, offer_sends_truncated_size exampleClient fourGiBFile (by decide) (by decide)
    (by decide)⟩

end client

namespace client
open proto file

theorem bigContent_length : bigContent.length = server.bigSize := by
  unfold bigContent
  rw [List.length_append, List.length_replicate, List.length_replicate]
  rfl

theorem bigContent_sum : bigContent.sum = 3968 * 1 + 65536 * 3968 * 2 := by
  unfold bigContent
  rw [List.sum_append, List.sum_replicate, List.sum_replicate, smul_eq_mul, smul_eq_mul]

theorem bigContent_digest : exampleDigest bigContent = List.replicate 64 128 := by
  have h : ∀ x : List Nat, exampleDigest x = List.replicate 64 (x.sum % 256) := fun _ => rfl
  rw [h, bigContent_sum]

/-- The file `bigFile` is what `makeLocalFile` makes of the content
`bigContent`. -/
theorem bigFile_made : makeLocalFile exampleDigest [97] bigContent = bigFile := by
  unfold makeLocalFile
  rw [bigContent_length, bigContent_digest]
  rfl

/-- Chunk 0 of `bigFile` as `getChunk` reads it. -/
theorem bigFile_getChunk_zero :
    bigFile.file.getChunk exampleDigest bigFile.content 0
      = .ok { idx := 0, data := List.replicate 3968 1,
              hash := exampleDigest (List.replicate 3968 1) } := by
  have hread : readAt (some bigContent) 0 3968 = List.replicate 3968 1 := by
    unfold readAt
    simp only []
    rw [if_pos (by decide), List.drop_zero]
    unfold bigContent
    rw [List.take_left' (List.length_replicate _ _), List.length_replicate, Nat.sub_self,
      List.replicate_zero, List.append_nil]
  have hg : ∀ (f : FileLocal) (c : Option (List Nat)), f.size = server.bigSize →
      f.getChunk exampleDigest c 0
        = .ok { idx := 0, data := readAt c 0 3968, hash := exampleDigest (readAt c 0 3968) } := by
    intro f c hsz
    unfold FileLocal.getChunk
    simp only [hsz]
    rw [if_neg (by decide), if_neg (by decide)]
    rfl
  have hc : bigFile.content = some bigContent := rfl
  rw [hg bigFile.file bigFile.content rfl, hc, hread]

/-- The last chunk of `bigFile`. -/
theorem bigContent_last_chunk :
    (bigContent.drop (65536 * 3968)).take 3968 = List.replicate 3968 2 := by
  unfold bigContent
  have h : 65536 * 3968 = 3968 + 65535 * 3968 := by decide
  rw [h, ← List.drop_drop, List.drop_left' (List.length_replicate _ _), List.drop_replicate,
    List.take_replicate]
  rfl

end client

namespace client
open proto file

/-- The frame of a CHUNK_DATA message and its parse. -/
theorem chunkData_frame (m : Message) (ht : m.msg_type = MSGTYPE_FILE_CHUNK_DATA)
    (hseq : m.seq_number < 2 ^ 16) (hu : m.client_uuid.length = 16)
    (hn : m.file_name.length ≤ 255) (hidx : m.chunk_data.idx < 2 ^ 32)
    (hk0 : 0 < m.chunk_data.data.length) (hk : m.chunk_data.data.length ≤ 3968) :
    ∃ frame m', m.serialize [] = .ok frame ∧ Message.parse frame = .ok m' ∧
      m'.msg_type = MSGTYPE_FILE_CHUNK_DATA ∧ m'.seq_number = m.seq_number ∧
      m'.client_uuid = m.client_uuid ∧ m'.file_name = m.file_name ∧
      m'.chunk_data.idx = m.chunk_data.idx ∧ m'.chunk_data.data = m.chunk_data.data := by
  have d13 : MSGTYPE_FILE_CHUNK_DATA ≠ MSGTYPE_FILE_OFFER := by decide
  have d23 : MSGTYPE_FILE_CHUNK_DATA ≠ MSGTYPE_FILE_CHUNK_REQ := by decide
  have hd : ¬ (m.chunk_data.data.length > MAX_MSG_PAYLOAD_SIZE ∨
      m.chunk_data.data.length = 0) := by
    unfold MAX_MSG_PAYLOAD_SIZE MAX_MSG_SIZE
    omega
  have hk16 : m.chunk_data.data.length < 2 ^ 16 := by omega
  have hv : m.serializeVariant = .ok (putU32 m.chunk_data.idx ++
      putU16 (m.chunk_data.data.length % 2 ^ 16) ++ m.chunk_data.data) := by
    simp only [Message.serializeVariant, ht, d13, d23, if_true, if_false, hd]
  rw [Nat.mod_eq_of_lt hk16] at hv
  have hf := serialize_eq m hn _ [] hv
  have hl : (putU16 m.seq_number ++ m.client_uuid ++ [m.file_name.length &&& 0xff] ++
      m.file_name ++ (putU32 m.chunk_data.idx ++ putU16 m.chunk_data.data.length ++
        m.chunk_data.data)).length
      = 19 + m.file_name.length + 6 + m.chunk_data.data.length := by
    simp only [List.length_append, putU16, putU32, List.length_cons, List.length_nil, hu]
    try omega
  have hlt : (putU16 m.seq_number ++ m.client_uuid ++ [m.file_name.length &&& 0xff] ++
      m.file_name ++ (putU32 m.chunk_data.idx ++ putU16 m.chunk_data.data.length ++
        m.chunk_data.data)).length < 2 ^ 16 := by
    rw [hl]; omega
  rw [Nat.mod_eq_of_lt hlt, List.nil_append] at hf
  have hp := parse_prefix m.msg_type _ _ _ m.file_name (putU32 m.chunk_data.idx ++
      putU16 m.chunk_data.data.length ++ m.chunk_data.data)
    (by rw [ht]; decide) hlt hseq hu hn
  obtain ⟨frame, hframe⟩ : ∃ frame, frame = putU32 m.msg_type ++
      putU16 (putU16 m.seq_number ++ m.client_uuid ++ [m.file_name.length &&& 0xff] ++
        m.file_name ++ (putU32 m.chunk_data.idx ++ putU16 m.chunk_data.data.length ++
          m.chunk_data.data)).length ++
      (putU16 m.seq_number ++ m.client_uuid ++ [m.file_name.length &&& 0xff] ++
        m.file_name ++ (putU32 m.chunk_data.idx ++ putU16 m.chunk_data.data.length ++
          m.chunk_data.data)) := ⟨_, rfl⟩
  rw [← hframe] at hf hp
  simp only [ht, d13, d23, if_true, if_false, List.append_assoc] at hp
  simp only [putU32, getU32, List.cons_append, List.nil_append, bind, Except.bind] at hp
  rw [getU16_putU16 _ hk16] at hp
  simp only [copyN_all _ _ rfl, pure, Except.pure] at hp
  rw [get_put_u32 _ hidx] at hp
  exact ⟨frame, _, hf, hp, rfl, rfl, rfl, rfl, rfl, rfl⟩

/-- What the uploader does with a CHUNK_REQ for the offered file "a" whose
first index is a multiple of 2^16: the index goes through the `uint16_t`
parameter of `buildMsgChunkData` and chunk 0 is sent. -/
theorem handleRequest_bigClient (msg : Message)
    (hu : msg.client_uuid = List.replicate 16 9) (hf : msg.file_name = [97])
    (ht : msg.msg_type = MSGTYPE_FILE_CHUNK_REQ)
    (hi : msg.chunk_req.chunk_idx_first % 2 ^ 16 = 0) :
    handleRequest exampleDigest bigClient msg
      = (bigClient, send (firstChunkData (msg.seq_number % 2 ^ 16))) := by
  have hb : ∀ (s : Nat) (u : List Nat) (i : Nat), i % 2 ^ 16 = 0 →
      buildMsgChunkData exampleDigest s u bigFile i
        = .ok { msg_type := MSGTYPE_FILE_CHUNK_DATA, seq_number := s % 2 ^ 16,
                client_uuid := u, file_name := server.filename bigFile.path,
                chunk_data := { idx := 0, data := List.replicate 3968 1 } } := by
    intro s u i hi0
    unfold buildMsgChunkData
    simp only [hi0]
    rw [bigFile_getChunk_zero]
  have hl : bigClient.client_files.lookup [97] = some bigFile := rfl
  have hcu : bigClient.client_uuid = List.replicate 16 9 := rfl
  unfold handleRequest
  rw [if_neg (by rw [hu, hcu]; exact fun h => h rfl), hf, hl]
  simp only []
  rw [if_pos ht, hb _ _ _ hi]
  rfl

end client

namespace client
open proto file

/-- The frame that carries chunk 0 of `bigFile`. -/
theorem send_firstChunkData (seq : Nat) (hseq : seq < 2 ^ 16) :
    ∃ frame m', send (firstChunkData seq) = .ok [frame] ∧ Message.parse frame = .ok m' ∧
      m'.msg_type = MSGTYPE_FILE_CHUNK_DATA ∧ m'.seq_number = seq ∧
      m'.client_uuid = List.replicate 16 9 ∧ m'.file_name = [97] ∧
      m'.chunk_data.idx = 0 ∧ m'.chunk_data.data = List.replicate 3968 1 := by
  have hlen : (firstChunkData seq).chunk_data.data.length = 3968 :=
    List.length_replicate _ _
  obtain ⟨frame, m', hs, hp, h1, h2, h3, h4, h5, h6⟩ :=
    chunkData_frame (firstChunkData seq) rfl hseq (List.length_replicate _ _)
      (Nat.le_of_lt_succ (by decide : ([97] : List Nat).length < 256))
      (by decide : (0 : Nat) < 2 ^ 32) (by rw [hlen]; decide) (by rw [hlen])
  exact ⟨frame, m', send_ok _ _ hs, hp, h1, h2, h3, h4, h5, h6⟩

/-- C11 (failing input): the uploader has offered the 65537-chunk file
`bigFile` (260050816 bytes) and receives a CHUNK_REQ whose first index is
65536, the last chunk of the file, whose bytes are twos.  It answers with one
CHUNK_DATA frame that carries index 0 and the bytes of chunk 0, which are
ones. -/
theorem chunkReq_index_truncated :
    makeLocalFile exampleDigest [97] bigContent = bigFile ∧
    bigFile.file.size = 65537 * 3968 ∧ bigFile.file.size ≤ 2 ^ 32 - 1 ∧
    getNumOfChunks bigFile.file.size = 65537 ∧
    lastChunkReq.chunk_req.chunk_idx_first = 65536 ∧
    (bigContent.drop (65536 * 3968)).take 3968 = List.replicate 3968 2 ∧
    (∃ frame m', handleRequest exampleDigest bigClient lastChunkReq
        = (bigClient, .ok [frame]) ∧
      Message.parse frame = .ok m' ∧ m'.msg_type = MSGTYPE_FILE_CHUNK_DATA ∧
      m'.seq_number = 2 ∧ m'.chunk_data.idx = 0 ∧
      m'.chunk_data.data = List.replicate 3968 1) := by
  refine ⟨bigFile_made, rfl, by decide, by decide, rfl, bigContent_last_chunk, ?_⟩
  obtain ⟨frame, m', hs, hp, h1, h2, _, _, h5, h6⟩ := send_firstChunkData 2 (by decide)
  refine ⟨frame, m', ?_, hp, h1, h2, h5, h6⟩
  rw [handleRequest_bigClient lastChunkReq rfl rfl rfl (by decide)]
  exact congrArg (Prod.mk bigClient) hs

end client

namespace file
open proto

/-- C30: for every file size `s` (a `size_t`), `getNumOfChunks` is the
ceiling of `s / 3968`: the least `n` with `s ≤ n * 3968`; it is 0 for 0
bytes, 1 for 100 bytes and 3 for 10000 bytes, and it is the `file_n_chunks`
that `FileMetadata` computes for the same size and chunk size 3968. -/
theorem getNumOfChunks_is_ceiling (s : Nat) (hs : s < 2 ^ 64) :
    getNumOfChunks s = (s + 3967) / 3968 ∧
    s ≤ getNumOfChunks s * 3968 ∧
    (∀ n, s ≤ n * 3968 → getNumOfChunks s ≤ n) ∧
    getNumOfChunks 0 = 0 ∧ getNumOfChunks 100 = 1 ∧ getNumOfChunks 10000 = 3 ∧
    (∀ hash, (FileMetadata.new s 3968 hash).file_n_chunks = getNumOfChunks s) := by
  have h : getNumOfChunks s = (s + 3967) / 3968 := by
    rw [getNumOfChunks_eq s hs]
    split <;> omega
  refine ⟨h, ?_, ?_, by decide, by decide, by decide, ?_⟩
  · rw [h]; omega
  · intro n hn
    rw [h]; omega
  · intro hash
    rfl

/-- C30 (witness): a file of 10000 bytes. -/
theorem getNumOfChunks_is_ceiling_witness :
    getNumOfChunks 10000 = (10000 + 3967) / 3968 ∧
    10000 ≤ getNumOfChunks 10000 * 3968 ∧
    (∀ n, 10000 ≤ n * 3968 → getNumOfChunks 10000 ≤ n) ∧
    getNumOfChunks 0 = 0 ∧ getNumOfChunks 100 = 1 ∧ getNumOfChunks 10000 = 3 ∧
    (∀ hash, (FileMetadata.new 10000 3968 hash).file_n_chunks = getNumOfChunks 10000) :=
  getNumOfChunks_is_ceiling 10000 (by decide)

end file

namespace file
open proto

/-- C27: `createIfNotExist` leaves an existing sidecar as it is, whatever
size, chunk size and hash the store was built with, so a second call changes
nothing. -/
theorem createIfNotExist_keeps_existing (md : FileMetadata) :
    (∀ bytes, md.createIfNotExist (some bytes) = some bytes) ∧
    (∀ sidecar, md.createIfNotExist (md.createIfNotExist sidecar)
      = md.createIfNotExist sidecar) ∧
    (∀ size hash bytes,
      (FileMetadata.new size CHUNK_SIZE hash).createIfNotExist (some bytes) = some bytes) := by
  refine ⟨fun _ => rfl, ?_, fun _ _ _ => rfl⟩
  intro sidecar
  cases sidecar <;> rfl

/-- C26: with no sidecar, `createIfNotExist` for a file size, chunk size 3968
and a 64-byte hash writes 80 + ceil(n_chunks / 8) bytes: the size as 8 native
bytes (least significant first), the chunk size as 8 native bytes, the 64
hash bytes, and ceil(n_chunks / 8) zero bytes, for n_chunks = ceil(size /
3968).  The bitmap size is taken to fit the `int` counter of the writing
loop. -/
theorem createIfNotExist_layout (size : Nat) (hash : List Nat) (hs : size < 2 ^ 64)
    (hh : hash.length = 64) (_ : (getNumOfChunks size + 7) / 8 < 2 ^ 31) :
    ∃ bytes, (FileMetadata.new size 3968 hash).createIfNotExist none = some bytes ∧
      bytes.length = 80 + (getNumOfChunks size + 7) / 8 ∧
      bytes.take 8 = nativeBytes8 size ∧ nativeValue (bytes.take 8) = size ∧
      (bytes.drop 8).take 8 = nativeBytes8 3968 ∧ nativeValue ((bytes.drop 8).take 8) = 3968 ∧
      (bytes.drop 16).take 64 = hash ∧
      bytes.drop 80 = List.replicate ((getNumOfChunks size + 7) / 8) 0 ∧
      getNumOfChunks size = (size + 3967) / 3968 := by
  have hn : (FileMetadata.new size 3968 hash).file_n_chunks = getNumOfChunks size := rfl
  have hbm : (FileMetadata.new size 3968 hash).bitmap_size = (getNumOfChunks size + 7) / 8 := by
    show getNumOfChunks size / 8 + (if getNumOfChunks size % 8 > 0 then 1 else 0) = _
    split <;> omega
  have htake : hash.take HASH_SIZE = hash := by
    show hash.take 64 = hash
    rw [← hh]
    exact List.take_length _
  have hc : (FileMetadata.new size 3968 hash).createIfNotExist none
      = some (nativeBytes8 size ++ nativeBytes8 3968 ++ hash ++
          List.replicate ((getNumOfChunks size + 7) / 8) 0) := by
    show some (nativeBytes8 size ++ nativeBytes8 3968 ++ hash.take HASH_SIZE ++
      List.replicate (FileMetadata.new size 3968 hash).bitmap_size 0) = _
    rw [hbm, htake]
  have l8 := nativeBytes8_length size
  have l8' := nativeBytes8_length 3968
  have hceil : getNumOfChunks size = (size + 3967) / 3968 := by
    rw [getNumOfChunks_eq size hs]
    split <;> omega
  refine ⟨_, hc, ?_, ?_, ?_, ?_, ?_, ?_, ?_, hceil⟩
  · simp only [List.length_append, l8, l8', hh, List.length_replicate]
  · rw [List.append_assoc, List.append_assoc, List.take_left' l8]
  · rw [List.append_assoc, List.append_assoc, List.take_left' l8]
    exact nativeValue_nativeBytes8 size hs
  · rw [List.append_assoc, List.append_assoc, List.drop_left' l8, List.take_left' l8']
  · rw [List.append_assoc, List.append_assoc, List.drop_left' l8, List.take_left' l8']
    exact nativeValue_nativeBytes8 3968 (by decide)
  · have h16 : (nativeBytes8 size ++ nativeBytes8 3968).length = 16 := by
      rw [List.length_append, l8, l8']
    rw [List.append_assoc, List.drop_left' h16, List.take_left' hh]
  · have h80 : (nativeBytes8 size ++ nativeBytes8 3968 ++ hash).length = 80 := by
      rw [List.length_append, List.length_append, l8, l8', hh]
    rw [List.drop_left' h80]

/-- C26 (witness): the sidecar created for a 10000-byte file. -/
theorem createIfNotExist_layout_witness :
    ∃ bytes, (FileMetadata.new 10000 3968 exampleHash).createIfNotExist none = some bytes ∧
      bytes.length = 80 + (getNumOfChunks 10000 + 7) / 8 ∧
      bytes.take 8 = nativeBytes8 10000 ∧ nativeValue (bytes.take 8) = 10000 ∧
      (bytes.drop 8).take 8 = nativeBytes8 3968 ∧ nativeValue ((bytes.drop 8).take 8) = 3968 ∧
      (bytes.drop 16).take 64 = exampleHash ∧
      bytes.drop 80 = List.replicate ((getNumOfChunks 10000 + 7) / 8) 0 ∧
      getNumOfChunks 10000 = (10000 + 3967) / 3968 :=
  createIfNotExist_layout 10000 exampleHash (by decide) (by decide) (by decide)

end file

namespace loop

/-- C24 (failing input): a group of two handles, objects 1 and 2.  When
`poll` reports a hang-up for object 1 and no event for object 2, one
`pollAndHandle` removes both objects and invokes no handler.  When `poll`
reports readable for object 1 only and the handler invalidates the
descriptor, the handler of object 2 is invoked as well and both objects are
removed. -/
theorem pollAndHandle_misjudges_next_handle :
    twoHandles = PollGroup.mk 4 [⟨1, 3⟩, ⟨2, 4⟩] [⟨3, POLLIN, 0⟩, ⟨4, POLLIN, 0⟩] ∧
    twoHandles.pollAndHandle idleHandler [POLLHUP, 0] = (PollGroup.mk 4 [] [], []) ∧
    twoHandles.pollAndHandle closingHandler [POLLIN, 0] = (PollGroup.mk 4 [] [], [1, 2]) := by
  decide

/-- The length of the rebuilt array is the number of handles. -/
theorem rebuild_length : ∀ (ps : List Pollable) (cs : List Pollfd),
    (rebuild ps cs).length = ps.length
  | [], _ => rfl
  | _ :: ps, [] => by simp [rebuild, rebuild_length ps []]
  | _ :: ps, _ :: cs => by simp [rebuild, rebuild_length ps cs]

/-- C25: `add` on a group that holds `max_pollables` handles or more raises
the limit error and leaves the group, its handle list and its cached array
as they are; on a group that holds fewer it raises nothing, appends the
handle at the end, keeps one cached entry per handle and stays within
`max_pollables`. -/
theorem add_respects_capacity (g : PollGroup) (p : Pollable) :
    (g.max_pollables ≤ g.pollables.length → g.add p = (g, some .limitExceeded)) ∧
    (g.pollables.length < g.max_pollables →
      (g.add p).2 = none ∧ (g.add p).1.pollables = g.pollables ++ [p] ∧
      (g.add p).1.max_pollables = g.max_pollables ∧
      (g.add p).1.cached_pollfd.length = (g.add p).1.pollables.length ∧
      (g.add p).1.pollables.length ≤ (g.add p).1.max_pollables) ∧
    (g.pollables.length ≤ g.max_pollables →
      (g.add p).1.pollables.length ≤ (g.add p).1.max_pollables) := by
  have hfull : g.max_pollables ≤ g.pollables.length → g.add p = (g, some .limitExceeded) := by
    intro h
    unfold PollGroup.add
    rw [if_pos h]
  have hroom : g.pollables.length < g.max_pollables →
      g.add p = ({ g with pollables := g.pollables ++ [p],
                          cached_pollfd := rebuild (g.pollables ++ [p]) g.cached_pollfd }, none) := by
    intro h
    unfold PollGroup.add
    rw [if_neg (by omega)]
  refine ⟨hfull, ?_, ?_⟩
  · intro h
    rw [hroom h]
    refine ⟨rfl, rfl, rfl, rebuild_length _ _, ?_⟩
    simp only [List.length_append, List.length_cons, List.length_nil]
    omega
  · intro h
    by_cases hlt : g.pollables.length < g.max_pollables
    · rw [hroom hlt]
      simp only [List.length_append, List.length_cons, List.length_nil]
      omega
    · rw [hfull (by omega)]
      exact h

end loop

namespace netwrk
open proto

end netwrk

namespace file
open proto

theorem readAt_length (content : Option (List Nat)) (offset n : Nat) :
    (readAt content offset n).length = n := by
  unfold readAt
  cases content with
  | none => exact List.length_replicate _ _
  | some bytes =>
    simp only []
    split
    · rw [List.length_append, List.length_replicate, List.length_take]
      omega
    · exact List.length_replicate _ _

/-- C21 (counterexample): `getChunk(0)` on an empty file, which has no
chunk, and `getChunk(1)` on a file of 3968 bytes, which has one chunk, raise
no error and return a chunk without data. -/
theorem getChunk_at_end_returns_empty_chunk :
    getNumOfChunks 0 = 0 ∧
    (FileLocal.getChunk exampleDigest { hash := exampleHash, size := 0 } (some []) 0).toOption
      = some { idx := 0, data := [], hash := exampleDigest [] } ∧
    getNumOfChunks 3968 = 1 ∧
    (FileLocal.getChunk exampleDigest { hash := exampleHash, size := 3968 }
        (some (List.replicate 3968 7)) 1).toOption.map (fun c => (c.idx, c.data))
      = some (1, []) := by
  refine ⟨by decide, by decide, by decide, ?_⟩
  have hr : readAt (some (List.replicate 3968 7)) 3968 0 = [] :=
    List.eq_nil_of_length_eq_zero (readAt_length _ _ _)
  have hg : FileLocal.getChunk exampleDigest { hash := exampleHash, size := 3968 }
      (some (List.replicate 3968 7)) 1
      = .ok (FileChunk.mk 1 (readAt (some (List.replicate 3968 7)) 3968 0)
          (exampleDigest (readAt (some (List.replicate 3968 7)) 3968 0))) := by
    unfold FileLocal.getChunk
    simp only []
    rw [if_neg (by decide), if_pos (by decide)]
    rfl
  rw [hg, hr]
  rfl

/-- C21 (amended): for a file of `size` bytes and an index `k` whose offset
`k * 3968` fits `size_t`, `getChunk(k)` raises the range error exactly when
`k * 3968 > size`; otherwise it returns a chunk with index `k` and
`min(3968, size - k * 3968)` data bytes, which is empty when `k * 3968 =
size`.  It returns a chunk for every `k < n_chunks` and raises the error
for every `k > n_chunks`. -/
theorem getChunk_range_error (H : List Nat → List Nat) (f : FileLocal)
    (content : Option (List Nat)) (k : Nat) (hs : f.size < 2 ^ 64) (hk : k * 3968 < 2 ^ 64) :
    (f.size < k * 3968 ↔ f.getChunk H content k = .error .rangeError) ∧
    (k * 3968 ≤ f.size → ∃ c, f.getChunk H content k = .ok c ∧ c.idx = k ∧
      c.data.length = min 3968 (f.size - k * 3968)) ∧
    (k < getNumOfChunks f.size → k * 3968 < f.size) ∧
    (getNumOfChunks f.size < k → f.size < k * 3968) := by
  have hoff : (k * CHUNK_SIZE) % 2 ^ 64 = k * 3968 := by
    rw [CHUNK_SIZE_eq]
    exact Nat.mod_eq_of_lt hk
  have hn := getNumOfChunks_eq f.size hs
  have hbig : f.size < k * 3968 → f.getChunk H content k = .error .rangeError := by
    intro h
    unfold FileLocal.getChunk
    simp only [hoff]
    rw [if_pos h]
  have hok : k * 3968 ≤ f.size → ∃ c, f.getChunk H content k = .ok c ∧ c.idx = k ∧
      c.data.length = min 3968 (f.size - k * 3968) := by
    intro h
    unfold FileLocal.getChunk
    simp only [hoff, CHUNK_SIZE_eq]
    rw [if_neg (by omega)]
    refine ⟨_, rfl, rfl, ?_⟩
    simp only [readAt_length]
    split <;> omega
  refine ⟨⟨hbig, ?_⟩, hok, ?_, ?_⟩
  · intro he
    by_contra hle
    obtain ⟨c, hc, _⟩ := hok (by omega)
    rw [hc] at he
    cases he
  · intro hlt
    rw [hn] at hlt
    split at hlt <;> omega
  · intro hlt
    rw [hn] at hlt
    split at hlt <;> omega

/-- C21 (witness): chunk 1 of a file of 3968 bytes. -/
theorem getChunk_range_error_witness :
    ((3968 : Nat) < 1 * 3968 ↔
      FileLocal.getChunk exampleDigest { hash := exampleHash, size := 3968 } none 1
        = .error .rangeError) ∧
    (1 * 3968 ≤ 3968 → ∃ c,
      FileLocal.getChunk exampleDigest { hash := exampleHash, size := 3968 } none 1 = .ok c ∧
      c.idx = 1 ∧ c.data.length = min 3968 (3968 - 1 * 3968)) ∧
    (1 < getNumOfChunks 3968 → 1 * 3968 < 3968) ∧
    (getNumOfChunks 3968 < 1 → 3968 < 1 * 3968) :=
  getChunk_range_error exampleDigest { hash := exampleHash, size := 3968 } none 1
    (by decide) (by decide)

end file

namespace file
open proto

/-- C29 (counterexample): the sidecar of a 10000-byte file (3 chunks) with
only chunk 0 marked.  `nextMissingChunk(2)` returns 1, an index below the
starting index 2, although chunk 2 is unmarked: the scan starts at the most
significant bit of the bitmap byte that holds chunk 2. -/
theorem nextMissingChunk_returns_index_below_start :
    exampleSink.file_metadata.file_n_chunks = 3 ∧
    chunkMarked exampleSidecar 0 = true ∧ chunkMarked exampleSidecar 1 = false ∧
    chunkMarked exampleSidecar 2 = false ∧
    exampleSink.file_metadata.nextMissingChunk (some exampleSidecar) 2 = 1 := by
  decide

end file

namespace file
open proto

/-- One `markChunk(k, true)`: the sidecar keeps its length and its bytes stay
bytes, no marked chunk becomes unmarked, and chunk `k` is marked afterwards
when the sidecar holds its byte. -/
theorem markChunk_true_step (md : FileMetadata) (S : List Nat) (k : Nat)
    (h80 : md.header_size = 80) (hS : S.length < 2 ^ 31) (hb : ∀ b ∈ S, b < 256) :
    ∃ S', md.markChunk (some S) k true = some S' ∧ S'.length = S.length ∧
      (∀ b ∈ S', b < 256) ∧
      (∀ j, chunkMarked S j = true → chunkMarked S' j = true) ∧
      (80 + k / 8 < S.length → chunkMarked S' k = true) := by
  unfold FileMetadata.markChunk
  simp only [h80, mark_bit_value, if_true]
  cases hg : S[(80 + k / 8) % 2 ^ 64]? with
  | none =>
    refine ⟨S, rfl, rfl, hb, fun _ h => h, ?_⟩
    intro hin
    have hpos : (80 + k / 8) % 2 ^ 64 = 80 + k / 8 := Nat.mod_eq_of_lt (by omega)
    rw [hpos, List.getElem?_eq_getElem hin] at hg
    cases hg
  | some b =>
    have hlt : (80 + k / 8) % 2 ^ 64 < S.length := by
      by_contra hge
      rw [List.getElem?_eq_none (by omega)] at hg
      cases hg
    have hb256 : b < 256 := hb b (List.getElem?_mem hg)
    have hnew : b ||| 2 ^ (7 - k % 8) < 2 ^ 8 :=
      Nat.or_lt_two_pow hb256 (Nat.pow_lt_pow_right (by decide) (by omega))
    refine ⟨_, rfl, List.length_set _ _ _, ?_, ?_, ?_⟩
    · intro x hx
      rcases List.mem_or_eq_of_mem_set hx with h | h
      · exact hb x h
      · rw [h]; exact hnew
    · intro j hj
      unfold chunkMarked at hj ⊢
      rw [List.getD_eq_getElem?_getD] at hj ⊢
      by_cases hp : (80 + k / 8) % 2 ^ 64 = 80 + j / 8
      · rw [← hp] at hj ⊢
        rw [hg] at hj
        rw [List.getElem?_set_self hlt]
        simp only [Option.getD_some] at hj ⊢
        rw [testBit_set_bit, hj]
        rfl
      · rw [List.getElem?_set_ne hp]
        exact hj
    · intro hin
      have hpos : (80 + k / 8) % 2 ^ 64 = 80 + k / 8 := Nat.mod_eq_of_lt (by omega)
      unfold chunkMarked
      rw [hpos, List.getD_eq_getElem?_getD, List.getElem?_set_self hin]
      simp only [Option.getD_some]
      rw [testBit_set_bit]
      simp

/-- A sequence of `markChunk(k, true)` calls: the sidecar keeps its length,
no marked chunk becomes unmarked, and every chunk of the sequence whose byte
the sidecar holds is marked at the end. -/
theorem markAll_spec (md : FileMetadata) (h80 : md.header_size = 80) (ks : List Nat) :
    ∀ S : List Nat, S.length < 2 ^ 31 → (∀ b ∈ S, b < 256) →
    ∃ S', markAll md (some S) ks = some S' ∧ S'.length = S.length ∧
      (∀ b ∈ S', b < 256) ∧
      (∀ j, chunkMarked S j = true → chunkMarked S' j = true) ∧
      (∀ k ∈ ks, 80 + k / 8 < S.length → chunkMarked S' k = true) := by
  induction ks with
  | nil => exact fun S _ hb => ⟨S, rfl, rfl, hb, fun _ h => h, fun _ h => by cases h⟩
  | cons k ks ih =>
    intro S hS hb
    obtain ⟨S1, h1, hl1, hb1, hm1, hk1⟩ := markChunk_true_step md S k h80 hS hb
    obtain ⟨S2, h2, hl2, hb2, hm2, hk2⟩ := ih S1 (by rw [hl1]; exact hS) hb1
    refine ⟨S2, ?_, by rw [hl2, hl1], hb2, fun j hj => hm2 j (hm1 j hj), ?_⟩
    · show markAll md (md.markChunk (some S) k true) ks = some S2
      rw [h1, h2]
    · intro x hx hin
      rcases List.mem_cons.mp hx with rfl | hx
      · exact hm2 x (hk1 hin)
      · exact hk2 x hx (by rw [hl1]; exact hin)

end file

namespace file
open proto

theorem wrapHeader_length :
    (nativeBytes8 wrapSize ++ nativeBytes8 3968 ++ exampleHash).length = 80 := by
  decide

theorem replicate_two_pow_32 :
    List.replicate (2 ^ 32) (0xFF : Nat) = 0xFF :: List.replicate (2 ^ 32 - 1) 0xFF := by
  have h : (2 ^ 32 : Nat) = (2 ^ 32 - 1) + 1 := by decide
  exact (congrArg (fun n => List.replicate n (0xFF : Nat)) h).trans
    (List.replicate_succ (0xFF : Nat) (2 ^ 32 - 1))

theorem wrapSidecarBefore_first :
    wrapSidecarBefore[80]? = some 0x7F := by
  unfold wrapSidecarBefore
  rw [List.getElem?_append_right (by rw [wrapHeader_length]), wrapHeader_length,
    Nat.sub_self, List.singleton_append, List.getElem?_cons_zero]

theorem wrapSidecarAfter_first :
    wrapSidecarAfter[80]? = some 0xFF := by
  unfold wrapSidecarAfter
  rw [List.getElem?_append_right (by rw [wrapHeader_length]), wrapHeader_length,
    Nat.sub_self, replicate_two_pow_32, List.cons_append, List.getElem?_cons_zero]

theorem markChunk_first_byte (md : FileMetadata) (h80 : md.header_size = 80)
    (S : List Nat) (hS : S[80]? = some 0x7F) :
    md.markChunk (some S) 0 true = some (S.set 80 0xFF) := by
  have hpos : (80 + 0 / 8) % 2 ^ 64 = 80 := by decide
  have hbit : (0x7F : Nat) ||| (1 <<< (7 - 0 % 8)) % 2 ^ 8 = 0xFF := by decide
  simp only [FileMetadata.markChunk, h80, hpos, hS, if_true, hbit]

theorem wrapSidecarBefore_set : wrapSidecarBefore.set 80 0xFF = wrapSidecarAfter := by
  unfold wrapSidecarBefore wrapSidecarAfter
  rw [List.set_append_right _ _ (by rw [wrapHeader_length]), wrapHeader_length,
    Nat.sub_self, List.singleton_append, List.set_cons_zero, replicate_two_pow_32,
    List.cons_append]

theorem markChunk_wrapSidecar (md : FileMetadata) (h80 : md.header_size = 80) :
    md.markChunk (some wrapSidecarBefore) 0 true = some wrapSidecarAfter := by
  rw [markChunk_first_byte md h80 _ wrapSidecarBefore_first, wrapSidecarBefore_set]

theorem nextMissingChunk_wrapSidecar (md : FileMetadata) (h80 : md.header_size = 80)
    (hn : 0 < md.file_n_chunks) :
    md.nextMissingChunk (some wrapSidecarAfter) 0 = 0 := by
  unfold wrapSidecarAfter
  rw [nextMissingChunk_skip md _ [0x00] (2 ^ 32) h80 wrapHeader_length]
  have hr : readWhileFF [0x00] (80 + 2 ^ 32) = (0, 80 + 2 ^ 32 + 1) := by decide
  have hs : scanBits 0 8 (toSizeT ((toInt32 (80 + 2 ^ 32 + 1) - (80 : Nat) - 1) * 8)) = 0 := by
    decide
  simp only [hr, hs]
  rw [if_pos (by decide), if_pos hn]

end file

namespace file
open proto

/-- C28 (counterexample): a sidecar of 2^32 + 81 bytes for a file of
8 * (2^32 + 1) chunks, in which chunk 0 is unmarked, the other chunks of the
first 2^32 bitmap bytes are marked and those of the last byte are not.  After
`markChunk(0, true)` the bit of chunk 0 is 1, and `nextMissingChunk(0)`
returns 0, the index that has just been marked. -/
theorem nextMissingChunk_returns_marked_chunk :
    (FileMetadata.new wrapSize CHUNK_SIZE exampleHash).file_n_chunks = 8 * (2 ^ 32 + 1) ∧
    chunkMarked wrapSidecarBefore 0 = false ∧
    (FileMetadata.new wrapSize CHUNK_SIZE exampleHash).markChunk (some wrapSidecarBefore) 0 true
      = some wrapSidecarAfter ∧
    chunkMarked wrapSidecarAfter 0 = true ∧
    (FileMetadata.new wrapSize CHUNK_SIZE exampleHash).nextMissingChunk
      (some wrapSidecarAfter) 0 = 0 := by
  refine ⟨by decide, ?_, markChunk_wrapSidecar _ rfl, ?_,
    nextMissingChunk_wrapSidecar _ rfl (by decide)⟩
  · rw [chunkMarked_of_byte wrapSidecarBefore 0 0x7F wrapSidecarBefore_first]
    decide
  · rw [chunkMarked_of_byte wrapSidecarAfter 0 0xFF wrapSidecarAfter_first]
    decide

/-- C28 (amended): on a sidecar shorter than 2^31 bytes, after any sequence
of `markChunk(k, true)` calls with `k < n_chunks`, every chunk bit that was 1
before is 1, and `nextMissingChunk(0)` returns no index of the sequence.
(Reads change nothing, and the statement holds from every intermediate
sidecar on.) -/
theorem bitmap_monotone (md : FileMetadata) (S : List Nat) (ks : List Nat)
    (h80 : md.header_size = 80) (hn : md.file_n_chunks < 2 ^ 64)
    (hS : S.length < 2 ^ 31) (hb : ∀ b ∈ S, b < 256)
    (hks : ∀ k ∈ ks, k < md.file_n_chunks) :
    ∃ S', markAll md (some S) ks = some S' ∧ S'.length = S.length ∧
      (∀ j, chunkMarked S j = true → chunkMarked S' j = true) ∧
      (∀ k ∈ ks, md.nextMissingChunk (some S') 0 ≠ k) := by
  obtain ⟨S', h1, hl, hb', hmono, hmarked⟩ := markAll_spec md h80 ks S hS hb
  refine ⟨S', h1, hl, hmono, ?_⟩
  intro k hk heq
  have hklt := hks k hk
  have hmax : UINT64_MAX = 2 ^ 64 - 1 := rfl
  rcases nextMissingChunk_core md S' h80 hb' (by rw [hl]; exact hS) with
    ⟨_, hr⟩ | ⟨q, hq, hq0, _, hr⟩
  · rw [hr, hmax] at heq
    omega
  · rw [hr] at heq
    split at heq
    · subst heq
      have := hmarked _ hk (by rw [← hl]; exact hq)
      rw [hq0] at this
      cases this
    · rw [hmax] at heq
      omega

/-- C28 (witness): chunks 1 and 2 are marked on the sidecar of the
10000-byte file. -/
theorem bitmap_monotone_witness :
    ∃ S', markAll exampleSink.file_metadata (some exampleSidecar) [1, 2] = some S' ∧
      S'.length = exampleSidecar.length ∧
      (∀ j, chunkMarked exampleSidecar j = true → chunkMarked S' j = true) ∧
      (∀ k ∈ [1, 2], exampleSink.file_metadata.nextMissingChunk (some S') 0 ≠ k) :=
  bitmap_monotone exampleSink.file_metadata exampleSidecar [1, 2] rfl (by decide) (by decide)
    (by decide) (by decide)

end file

namespace server
open proto file

/-- On a sidecar shorter than 2^31 bytes in which every chunk below
`n_chunks` is marked, `nextMissingChunk(0)` returns the sentinel. -/
theorem nextMissingChunk_all_marked (md : FileMetadata) (bytes : List Nat)
    (h80 : md.header_size = 80) (hb : ∀ b ∈ bytes, b < 256)
    (hsmall : bytes.length < 2 ^ 31)
    (hall : ∀ k, k < md.file_n_chunks → chunkMarked bytes k = true) :
    md.nextMissingChunk (some bytes) 0 = UINT64_MAX := by
  rcases nextMissingChunk_core md bytes h80 hb hsmall with ⟨_, hr⟩ | ⟨q, _, hq0, _, hr⟩
  · exact hr
  · rw [hr]
    by_cases hq : q < md.file_n_chunks
    · have := hall q hq
      rw [hq0] at this
      cases this
    · rw [if_neg hq]

/-- The constructor of the sink leaves a disk alone on which both files
exist. -/
theorem FileRemote_new_existing (hash : List Nat) (size : Nat) (dest bytes : List Nat) :
    (FileRemote.new hash size { dest := some dest, sidecar := some bytes }).2
      = { dest := some dest, sidecar := some bytes } :=
  rfl

/-- C13: on a receiver whose sidecar for the offered file (header and bitmap
bytes) has every chunk below `n_chunks` marked and whose destination file
hashes to the offered hash, handling the OFFER leaves the destination and the
sidecar byte-for-byte unchanged and the response is the COMPLETE message for
the offer, sent as one frame. -/
theorem reoffer_replies_complete_without_writes (H : List Nat → List Nat) (msg : Message)
    (dest bytes : List Nat)
    (ht : msg.msg_type = MSGTYPE_FILE_OFFER)
    (hsize : msg.offer.file_size < 2 ^ 32)
    (hlen : bytes.length
      = (FileMetadata.new msg.offer.file_size CHUNK_SIZE msg.offer.file_hash).header_size +
        (FileMetadata.new msg.offer.file_size CHUNK_SIZE msg.offer.file_hash).bitmap_size)
    (hb : ∀ b ∈ bytes, b < 256)
    (hall : ∀ k,
      k < (FileMetadata.new msg.offer.file_size CHUNK_SIZE msg.offer.file_hash).file_n_chunks →
      chunkMarked bytes k = true)
    (hdest : H dest = msg.offer.file_hash) :
    handleRequest H msg { dest := some dest, sidecar := some bytes }
      = ({ dest := some dest, sidecar := some bytes },
          some (buildMsgComplete msg.seq_number msg.client_uuid msg.file_name)) ∧
    (∃ frame, sentFrames (handleRequest H msg { dest := some dest, sidecar := some bytes }).2
      = [frame]) := by
  have h80 : (FileMetadata.new msg.offer.file_size CHUNK_SIZE msg.offer.file_hash).header_size
      = 80 := rfl
  have hbound := (n_chunks_bound msg.offer.file_size msg.offer.file_hash hsize).2.1
  have hsmall : bytes.length < 2 ^ 31 := by
    rw [hlen, h80]
    omega
  have hnext := nextMissingChunk_all_marked _ bytes h80 hb hsmall hall
  have hcomplete : (FileRemote.new msg.offer.file_hash msg.offer.file_size
      { dest := some dest, sidecar := some bytes }).1.isComplete H
        { dest := some dest, sidecar := some bytes } = true := by
    rw [FileRemote_new_fst]
    unfold FileRemote.isComplete
    simp only []
    rw [if_pos hnext, hdest]
    unfold memcmpEq
    exact beq_self_eq_true _
  have hreq : handleRequest H msg { dest := some dest, sidecar := some bytes }
      = ({ dest := some dest, sidecar := some bytes },
          some (buildMsgComplete msg.seq_number msg.client_uuid msg.file_name)) := by
    rw [handleRequest_offer H msg _ ht, FileRemote_new_existing]
    unfold replyFor
    rw [hcomplete, if_pos rfl]
  refine ⟨hreq, ?_⟩
  rw [hreq]
  exact sentFrames_complete _ _ _

/-- Witness for C13: the 1-byte file after a finished transfer, offered
again. -/
theorem reoffer_replies_complete_without_writes_witness :
    handleRequest exampleDigest oneByteOffer oneByteDone
      = (oneByteDone, some (buildMsgComplete 1 (List.replicate 16 9) [97])) ∧
    (∃ frame, sentFrames (handleRequest exampleDigest oneByteOffer oneByteDone).2 = [frame]) :=
  reoffer_replies_complete_without_writes exampleDigest oneByteOffer [5]
    (nativeBytes8 1 ++ nativeBytes8 CHUNK_SIZE ++ exampleHash ++ [0x80])
    rfl (by decide) (by decide) (by decide)
    (fun k hk => by
      have h1 : (FileMetadata.new oneByteOffer.offer.file_size CHUNK_SIZE
          oneByteOffer.offer.file_hash).file_n_chunks = 1 := by decide
      rw [h1] at hk
      have h0 : k = 0 := by omega
      subst h0
      decide)
    (by decide)

end server

namespace server
open proto file

theorem hexChar_ge (n : Nat) : 0x30 ≤ hexChar n := by
  unfold hexChar
  split <;> omega

theorem to_string_from_chars (i : Nat) (u : List Nat) :
    ∀ c ∈ to_string_from i u, c = 0x2D ∨ 0x30 ≤ c := by
  induction u generalizing i with
  | nil => intro c hc; cases hc
  | cons b rest ih =>
    intro c hc
    unfold to_string_from at hc
    simp only [List.mem_append, List.mem_cons, List.mem_singleton, List.not_mem_nil,
      or_false] at hc
    rcases hc with ((h | h) | h) | h
    · right; rw [h]; exact hexChar_ge _
    · right; rw [h]; exact hexChar_ge _
    · split at h
      · left; simpa using h
      · cases h
    · exact ih _ c h

theorem to_string_chars (u : List Nat) : ∀ c ∈ to_string u, c = 0x2D ∨ 0x30 ≤ c :=
  to_string_from_chars 0 u

theorem to_string_ne_nil (u : List Nat) (hu : u.length = 16) : to_string u ≠ [] := by
  cases u with
  | nil => cases hu
  | cons b rest =>
    unfold to_string to_string_from
    simp

theorem takeWhile_all (p : Nat → Bool) (l : List Nat) (h : ∀ x ∈ l, p x = true) :
    l.takeWhile p = l := by
  induction l with
  | nil => rfl
  | cons a t ih =>
    rw [List.takeWhile_cons, h a (List.mem_cons_self _ _)]
    simp only [if_true]
    rw [ih (fun x hx => h x (List.mem_cons_of_mem _ hx))]

theorem takeWhile_stop (p : Nat → Bool) (l r : List Nat) (x : Nat)
    (h : ∀ y ∈ l, p y = true) (hx : p x = false) :
    (l ++ x :: r).takeWhile p = l := by
  induction l with
  | nil => simp [List.takeWhile_cons, hx]
  | cons a t ih =>
    rw [List.cons_append, List.takeWhile_cons, h a (List.mem_cons_self _ _)]
    simp only [if_true]
    rw [ih (fun y hy => h y (List.mem_cons_of_mem _ hy))]

/-- The file name of a path without separator is the path. -/
theorem filename_simple (f : List Nat) (hf : ∀ b ∈ f, b ≠ 0x2F) : filename f = f := by
  unfold filename
  rw [takeWhile_all _ _ (fun x hx => by simpa using hf x (List.mem_reverse.mp hx)),
    List.reverse_reverse]

/-- The file name of `a/f` is `f` when `f` has no separator. -/
theorem filename_append (a f : List Nat) (hf : ∀ b ∈ f, b ≠ 0x2F) :
    filename (a ++ 0x2F :: f) = f := by
  unfold filename
  rw [List.reverse_append, List.reverse_cons, List.append_assoc, List.singleton_append,
    takeWhile_stop _ _ _ _ (fun x hx => by simpa using hf x (List.mem_reverse.mp hx))
      (by simp),
    List.reverse_reverse]

theorem isAbsolute_false (p : List Nat) (h : ∀ b ∈ p, b ≠ 0x2F) : isAbsolute p = false := by
  cases p with
  | nil => rfl
  | cons a t =>
    have := h a (List.mem_cons_self _ _)
    simp [isAbsolute, this]

theorem isAbsolute_append (p q : List Nat) (hp : p ≠ []) (h : ∀ b ∈ p, b ≠ 0x2F) :
    isAbsolute (p ++ q) = false := by
  cases p with
  | nil => exact absurd rfl hp
  | cons a t =>
    have := h a (List.mem_cons_self _ _)
    simp [isAbsolute, this]

theorem hasFilename_simple (f : List Nat) (hne : f ≠ []) (hf : ∀ b ∈ f, b ≠ 0x2F) :
    hasFilename f = true := by
  unfold hasFilename
  rw [filename_simple f hf]
  cases f with
  | nil => exact absurd rfl hne
  | cons a t => rfl

theorem hasFilename_append (a f : List Nat) (hne : f ≠ []) (hf : ∀ b ∈ f, b ≠ 0x2F) :
    hasFilename (a ++ 0x2F :: f) = true := by
  unfold hasFilename
  rw [filename_append a f hf]
  cases f with
  | nil => exact absurd rfl hne
  | cons a t => rfl

/-- The parent path of `a/f` is `a` when `f` has no separator and `a` is not
empty and does not end in a separator. -/
theorem parentPath_append (a f : List Nat) (hf : ∀ b ∈ f, b ≠ 0x2F)
    (ha : ∃ a0 x, a = a0 ++ [x] ∧ x ≠ 0x2F) :
    parentPath (a ++ 0x2F :: f) = a := by
  obtain ⟨a0, x, rfl, hx⟩ := ha
  unfold parentPath
  rw [filename_append _ f hf]
  have hlen : (a0 ++ [x] ++ 0x2F :: f).length - f.length = (a0 ++ [x] ++ [0x2F]).length := by
    simp only [List.length_append, List.length_cons, List.length_nil]
    omega
  have htake : (a0 ++ [x] ++ 0x2F :: f).take ((a0 ++ [x] ++ 0x2F :: f).length - f.length)
      = a0 ++ [x] ++ [0x2F] := by
    rw [hlen]
    have : a0 ++ [x] ++ 0x2F :: f = (a0 ++ [x] ++ [0x2F]) ++ f := by simp
    rw [this, List.take_left]
  simp only [htake]
  have hrev : (a0 ++ [x] ++ [0x2F]).reverse = 0x2F :: x :: a0.reverse := by simp
  rw [hrev]
  have hd : (0x2F :: x :: a0.reverse).dropWhile (fun b => b == 0x2F) = x :: a0.reverse := by
    rw [List.dropWhile_cons]
    simp only [beq_self_eq_true, if_true]
    rw [List.dropWhile_cons]
    have : (x == 0x2F) = false := by simpa using hx
    simp only [this]
    rfl
  rw [hd]
  simp

theorem cstr_all (p : List Nat) (h : ∀ b ∈ p, b ≠ 0) : cstr p = p := by
  unfold cstr
  exact takeWhile_all _ _ (fun x hx => by simpa using h x hx)

theorem components_simple (f : List Nat) (hf : ∀ b ∈ f, b ≠ 0x2F) : components f = [f] := by
  induction f with
  | nil => rfl
  | cons a t ih =>
    unfold components
    rw [if_neg (hf a (List.mem_cons_self _ _)), ih (fun b hb => hf b (List.mem_cons_of_mem _ hb))]

theorem components_append (a r : List Nat) (ha : ∀ b ∈ a, b ≠ 0x2F) :
    components (a ++ 0x2F :: r) = a :: components r := by
  induction a with
  | nil =>
    show components (0x2F :: r) = _
    conv_lhs => unfold components
    rw [if_pos rfl]
  | cons x t ih =>
    rw [List.cons_append]
    conv_lhs => unfold components
    rw [if_neg (ha x (List.mem_cons_self _ _)),
      ih (fun b hb => ha b (List.mem_cons_of_mem _ hb))]

theorem resolveStep_name (stack : List (List Nat)) (c : List Nat)
    (h0 : c ≠ []) (h1 : c ≠ [0x2E]) (h2 : c ≠ [0x2E, 0x2E]) :
    resolveStep stack c = stack ++ [c] := by
  unfold resolveStep
  rw [if_neg (by rintro (h | h) <;> contradiction), if_neg h2]

/-- The location of `/in/d` is `in`, `d` for a name `d`. -/
theorem resolve_dir (d : List Nat) (hd : ∀ b ∈ d, b ≠ 0x2F)
    (h0 : d ≠ []) (h1 : d ≠ [0x2E]) (h2 : d ≠ [0x2E, 0x2E]) :
    resolve (SERVER_BASE_PATH ++ 0x2F :: d) = [[0x69, 0x6E], d] := by
  unfold resolve
  have e : SERVER_BASE_PATH ++ 0x2F :: d = [] ++ 0x2F :: ([0x69, 0x6E] ++ 0x2F :: d) := rfl
  rw [e, components_append _ _ (by simp), components_append _ _ (by decide),
    components_simple d hd]
  simp only [List.foldl_cons, List.foldl_nil]
  rw [resolveStep_name _ d h0 h1 h2]
  rfl

/-- The location of `/in/d/f` is `in`, `d`, `f` for names `d` and `f`. -/
theorem resolve_file (d f : List Nat) (hd : ∀ b ∈ d, b ≠ 0x2F)
    (h0 : d ≠ []) (h1 : d ≠ [0x2E]) (h2 : d ≠ [0x2E, 0x2E])
    (hf : ∀ b ∈ f, b ≠ 0x2F)
    (f0 : f ≠ []) (f1 : f ≠ [0x2E]) (f2 : f ≠ [0x2E, 0x2E]) :
    resolve ((SERVER_BASE_PATH ++ 0x2F :: d) ++ 0x2F :: f) = [[0x69, 0x6E], d, f] := by
  unfold resolve
  have e : (SERVER_BASE_PATH ++ 0x2F :: d) ++ 0x2F :: f
      = [] ++ 0x2F :: ([0x69, 0x6E] ++ 0x2F :: (d ++ 0x2F :: f)) := rfl
  rw [e, components_append _ _ (by simp), components_append _ _ (by decide),
    components_append _ _ hd, components_simple f hf]
  simp only [List.foldl_cons, List.foldl_nil]
  rw [resolveStep_name _ f f0 f1 f2, resolveStep_name _ d h0 h1 h2]
  rfl

theorem insideDir_file (d f : List Nat) (hd : ∀ b ∈ d, b ≠ 0x2F)
    (h0 : d ≠ []) (h1 : d ≠ [0x2E]) (h2 : d ≠ [0x2E, 0x2E])
    (hf : ∀ b ∈ f, b ≠ 0x2F)
    (f0 : f ≠ []) (f1 : f ≠ [0x2E]) (f2 : f ≠ [0x2E, 0x2E]) :
    insideDir (SERVER_BASE_PATH ++ 0x2F :: d) ((SERVER_BASE_PATH ++ 0x2F :: d) ++ 0x2F :: f)
      = true := by
  unfold insideDir
  rw [resolve_dir d hd h0 h1 h2, resolve_file d f hd h0 h1 h2 hf f0 f1 f2]
  simp

/-- The two paths that the receiver computes from a peer directory name `d`
and a file name `f` without separator. -/
theorem paths_of_simple_name (d f : List Nat) (hd : ∀ b ∈ d, b ≠ 0x2F) (h0 : d ≠ [])
    (hf : ∀ b ∈ f, b ≠ 0x2F) :
    effectivePath (pathAppend d f) = (SERVER_BASE_PATH ++ 0x2F :: d) ++ 0x2F :: f ∧
    metadataFile (effectivePath (pathAppend d f))
      = (SERVER_BASE_PATH ++ 0x2F :: d) ++
          0x2F :: ([0x2E] ++ f ++ [0x2E, 0x6D, 0x65, 0x74, 0x61]) := by
  have hfp : pathAppend d f = d ++ 0x2F :: f := by
    unfold pathAppend
    rw [isAbsolute_false f hf, hasFilename_simple d h0 hd]
    rfl
  have heff : effectivePath (pathAppend d f) = (SERVER_BASE_PATH ++ 0x2F :: d) ++ 0x2F :: f := by
    rw [hfp]
    unfold effectivePath pathAppend
    rw [isAbsolute_append d _ h0 hd]
    have : hasFilename SERVER_BASE_PATH = true := by decide
    rw [this]
    simp
  refine ⟨heff, ?_⟩
  rw [heff]
  unfold metadataFile
  have hlast : ∃ a0 x, SERVER_BASE_PATH ++ 0x2F :: d = a0 ++ [x] ∧ x ≠ 0x2F := by
    refine ⟨SERVER_BASE_PATH ++ 0x2F :: d.dropLast, d.getLast h0, ?_, hd _ (List.getLast_mem h0)⟩
    rw [List.append_assoc, List.cons_append, List.dropLast_append_getLast h0]
  rw [parentPath_append _ f hf hlast, filename_append _ f hf]
  unfold pathAppend
  have habs : isAbsolute ([0x2E] ++ f ++ [0x2E, 0x6D, 0x65, 0x74, 0x61]) = false := rfl
  rw [habs, hasFilename_append _ d h0 hd]
  rfl

/-- The textual form of a peer id is a name: not empty, without separator
and NUL, and neither `.` nor `..`. -/
theorem to_string_name (u : List Nat) (hu : u.length = 16) :
    (∀ c ∈ to_string u, c ≠ 0x2F) ∧ (∀ c ∈ to_string u, c ≠ 0) ∧ to_string u ≠ [] ∧
    to_string u ≠ [0x2E] ∧ to_string u ≠ [0x2E, 0x2E] := by
  have hc := to_string_chars u
  refine ⟨fun c h => ?_, fun c h => ?_, to_string_ne_nil u hu, fun h => ?_, fun h => ?_⟩
  · have := hc c h
    omega
  · have := hc c h
    omega
  · have := hc 0x2E (by rw [h]; exact List.mem_cons_self _ _)
    omega
  · have := hc 0x2E (by rw [h]; exact List.mem_cons_self _ _)
    omega

/-- C14 (counterexample): an OFFER whose file name is `../x` makes the
receiver create its destination file and its sidecar under the names
`/in/<peer id>/../x` and `/in/<peer id>/../.x.meta`, which denote `/in/x` and
`/in/.x.meta`, outside the directory of the peer; an OFFER whose file name is
the absolute `/x` yields the names `/x` and `/.x.meta`. -/
theorem offer_writes_outside_peer_directory :
    dotdotOffer.file_name.length ≤ 255 ∧
    destPath dotdotOffer = peerDir dotdotOffer ++ [0x2F, 0x2E, 0x2E, 0x2F, 0x78] ∧
    resolve (peerDir dotdotOffer) = [[0x69, 0x6E], to_string dotdotOffer.client_uuid] ∧
    resolve (destPath dotdotOffer) = [[0x69, 0x6E], [0x78]] ∧
    resolve (sidecarPath dotdotOffer) = [[0x69, 0x6E], [0x2E, 0x78, 0x2E, 0x6D, 0x65, 0x74, 0x61]] ∧
    insideDir (peerDir dotdotOffer) (destPath dotdotOffer) = false ∧
    insideDir (peerDir dotdotOffer) (sidecarPath dotdotOffer) = false ∧
    (handleRequest exampleDigest dotdotOffer { dest := none, sidecar := none }).1.dest
      = some [0] ∧
    (handleRequest exampleDigest dotdotOffer { dest := none, sidecar := none }).1.sidecar
      = some (nativeBytes8 1 ++ nativeBytes8 CHUNK_SIZE ++ exampleHash ++ [0x00]) ∧
    destPath absoluteOffer = [0x2F, 0x78] ∧
    sidecarPath absoluteOffer = [0x2F, 0x2E, 0x78, 0x2E, 0x6D, 0x65, 0x74, 0x61] := by
  refine ⟨by decide, by decide, by decide, by decide, by decide, by decide, by decide,
    by decide, by decide, by decide, by decide⟩

/-- C14 (amended): for every message whose file name is a single path
component (not empty, without `/` and NUL, neither `.` nor `..`), the names
under which the receiver opens the destination file and the sidecar are
`/in/<to_string(peer id)>/<f>` and `/in/<to_string(peer id)>/.<f>.meta`, both
lie inside the directory `/in/<to_string(peer id)>`, and a message that is
neither an OFFER nor a CHUNK_DATA changes no file. -/
theorem receiver_paths_confined (H : List Nat → List Nat) (msg : Message)
    (hu : msg.client_uuid.length = 16)
    (hf : ∀ b ∈ msg.file_name, b ≠ 0x2F ∧ b ≠ 0)
    (f0 : msg.file_name ≠ []) (f1 : msg.file_name ≠ [0x2E])
    (f2 : msg.file_name ≠ [0x2E, 0x2E]) :
    destPath msg = peerDir msg ++ 0x2F :: msg.file_name ∧
    sidecarPath msg
      = peerDir msg ++ 0x2F :: ([0x2E] ++ msg.file_name ++ [0x2E, 0x6D, 0x65, 0x74, 0x61]) ∧
    insideDir (peerDir msg) (destPath msg) = true ∧
    insideDir (peerDir msg) (sidecarPath msg) = true ∧
    (msg.msg_type ≠ MSGTYPE_FILE_OFFER → msg.msg_type ≠ MSGTYPE_FILE_CHUNK_DATA →
      ∀ d, handleRequest H msg d = (d, none)) := by
  obtain ⟨hd, hdz, h0, h1, h2⟩ := to_string_name msg.client_uuid hu
  have hfs : ∀ b ∈ msg.file_name, b ≠ 0x2F := fun b hb => (hf b hb).1
  have hfz : ∀ b ∈ msg.file_name, b ≠ 0 := fun b hb => (hf b hb).2
  obtain ⟨he, hm⟩ := paths_of_simple_name (to_string msg.client_uuid) msg.file_name hd h0 hfs
  have hdest : destPath msg = peerDir msg ++ 0x2F :: msg.file_name := by
    unfold destPath filePath peerDir
    rw [he]
    apply cstr_all
    intro b hb
    simp only [List.mem_append, List.mem_cons, SERVER_BASE_PATH, List.mem_singleton,
      List.not_mem_nil, or_false] at hb
    rcases hb with ((h | h | h) | h | h) | h | h
    · omega
    · omega
    · omega
    · omega
    · exact hdz b h
    · omega
    · exact hfz b h
  have hside : sidecarPath msg
      = peerDir msg ++ 0x2F :: ([0x2E] ++ msg.file_name ++ [0x2E, 0x6D, 0x65, 0x74, 0x61]) := by
    unfold sidecarPath filePath peerDir
    rw [hm]
    apply cstr_all
    intro b hb
    simp only [List.mem_append, List.mem_cons, SERVER_BASE_PATH, List.mem_singleton,
      List.not_mem_nil, or_false] at hb
    rcases hb with ((h | h | h) | h | h) | h | (h | h) | h | h | h | h | h
    · omega
    · omega
    · omega
    · omega
    · exact hdz b h
    · omega
    · omega
    · exact hfz b h
    · omega
    · omega
    · omega
    · omega
    · omega
  refine ⟨hdest, hside, ?_, ?_, ?_⟩
  · rw [hdest]
    exact insideDir_file _ _ hd h0 h1 h2 hfs f0 f1 f2
  · rw [hside]
    refine insideDir_file _ _ hd h0 h1 h2 ?_ ?_ ?_ ?_
    · intro b hb
      simp only [List.mem_append, List.mem_cons, List.mem_singleton, List.not_mem_nil,
        or_false] at hb
      rcases hb with (h | h) | h | h | h | h | h
      · omega
      · exact hfs b h
      · omega
      · omega
      · omega
      · omega
      · omega
    · simp
    · intro h
      have := congrArg List.length h
      simp at this
    · intro h
      have := congrArg List.length h
      simp at this
  · intro h1 h2 d
    unfold handleRequest
    rw [if_neg h1, if_neg h2]

/-- Witness for C14 (amended): the OFFER of the 1-byte file under the name
`a`. -/
theorem receiver_paths_confined_witness :
    destPath oneByteOffer = peerDir oneByteOffer ++ 0x2F :: oneByteOffer.file_name ∧
    sidecarPath oneByteOffer
      = peerDir oneByteOffer ++
          0x2F :: ([0x2E] ++ oneByteOffer.file_name ++ [0x2E, 0x6D, 0x65, 0x74, 0x61]) ∧
    insideDir (peerDir oneByteOffer) (destPath oneByteOffer) = true ∧
    insideDir (peerDir oneByteOffer) (sidecarPath oneByteOffer) = true ∧
    (oneByteOffer.msg_type ≠ MSGTYPE_FILE_OFFER →
      oneByteOffer.msg_type ≠ MSGTYPE_FILE_CHUNK_DATA →
      ∀ d, handleRequest exampleDigest oneByteOffer d = (d, none)) :=
  receiver_paths_confined exampleDigest oneByteOffer (by decide) (by decide) (by decide)
    (by decide) (by decide)

end server

namespace client
open proto file

theorem resumeHeader_length :
    (nativeBytes8 server.bigSize ++ nativeBytes8 CHUNK_SIZE ++ List.replicate 64 128).length
      = 80 := by
  decide

/-- Marking chunk 0 again when its bitmap byte is already 0xFF changes
nothing. -/
theorem markChunk_zero_again (md : FileMetadata) (h80 : md.header_size = 80)
    (S : List Nat) (hS : S[80]? = some 0xFF) :
    md.markChunk (some S) 0 true = some S := by
  have hpos : (80 + 0 / 8) % 2 ^ 64 = 80 := by decide
  have hbit : (0xFF : Nat) ||| (1 <<< (7 - 0 % 8)) % 2 ^ 8 = 0xFF := by decide
  simp only [FileMetadata.markChunk, h80, hpos, hS, if_true, hbit]
  congr 1
  apply List.ext_getElem?
  intro i
  by_cases hi : i = 80
  · subst hi
    rw [List.getElem?_set_self (by
      rcases Nat.lt_or_ge 80 S.length with h | h
      · exact h
      · rw [List.getElem?_eq_none h] at hS
        cases hS), hS]
  · rw [List.getElem?_set_ne (fun h => hi h.symm)]

/-- Writing at offset 0 the bytes that are already there changes nothing. -/
theorem writeAt_same (data rest : List Nat) (hne : data ≠ []) :
    writeAt (some (data ++ rest)) 0 data = some (data ++ rest) := by
  unfold writeAt
  simp only []
  rw [if_pos ⟨by decide, hne⟩, List.take_zero, Nat.zero_sub, List.replicate_zero,
    Nat.zero_add, List.drop_left, List.nil_append, List.nil_append]

theorem resumeSidecar_first :
    (nativeBytes8 server.bigSize ++ nativeBytes8 CHUNK_SIZE ++ List.replicate 64 128 ++
      (List.replicate 8192 0xFF ++ [0x00]))[80]? = some 0xFF := by
  rw [List.getElem?_append_right (by rw [resumeHeader_length]), resumeHeader_length,
    Nat.sub_self]
  show (List.replicate (8191 + 1) 0xFF ++ [0x00])[0]? = some 0xFF
  rw [List.replicate_succ, List.cons_append, List.getElem?_cons_zero]

/-- The next missing chunk on `resumeDisk` is 65536. -/
theorem resume_next (hash : List Nat) :
    (FileMetadata.new server.bigSize CHUNK_SIZE hash).nextMissingChunk resumeDisk.sidecar 0
      = 65536 :=
  nextMissingChunk_big (FileMetadata.new server.bigSize CHUNK_SIZE hash)
    (nativeBytes8 server.bigSize ++ nativeBytes8 CHUNK_SIZE ++ List.replicate 64 128) rfl
    resumeHeader_length rfl

/-- The CHUNK_REQ that the receiver builds for chunk 65536 asks for chunk 0. -/
theorem chunkReq_65536 (seq : Nat) (uuid : List Nat) :
    requestsChunkZero (server.buildMsgChunkReq seq uuid [97] 65536 UINT16_MAX)
      = (decide (uuid = List.replicate 16 9)) := by
  unfold requestsChunkZero server.buildMsgChunkReq
  have h1 : seq % 2 ^ 16 < 2 ^ 16 := Nat.mod_lt _ (by decide)
  have h2 : server.filename [97] = [97] := by decide
  have h3 : 65536 % 2 ^ 16 = 0 := by decide
  have h4 : UINT16_MAX % 2 ^ 16 = 0xFFFF := by decide
  simp only [h1, h2, h3, h4, true_and, and_true]

/-- An OFFER of `bigFile` on `resumeDisk`: the disk stays and the reply is a
CHUNK_REQ built from chunk index 65536. -/
theorem resume_offer (m : Message) (ht : m.msg_type = MSGTYPE_FILE_OFFER)
    (hsize : m.offer.file_size = server.bigSize) :
    server.handleRequest exampleDigest m resumeDisk
      = (resumeDisk, some (server.buildMsgChunkReq (m.seq_number + 1) m.client_uuid m.file_name
          65536 UINT16_MAX)) := by
  rw [server.handleRequest_offer exampleDigest m resumeDisk ht]
  have hd : (FileRemote.new m.offer.file_hash m.offer.file_size resumeDisk).2 = resumeDisk :=
    server.FileRemote_new_existing _ _ _ _
  rw [hd]
  have hk : (FileRemote.new m.offer.file_hash m.offer.file_size
      resumeDisk).1.file_metadata.nextMissingChunk resumeDisk.sidecar 0 = 65536 := by
    rw [hsize]
    exact resume_next _
  rw [server.replyFor_of_missing _ _ _ _ 65536 hk (by decide)]

/-- A CHUNK_DATA with chunk 0 of `bigFile` on `resumeDisk`: the disk stays
and the reply is a CHUNK_REQ built from chunk index 65536. -/
theorem resume_chunkData (m : Message) (ht : m.msg_type = MSGTYPE_FILE_CHUNK_DATA)
    (hidx : m.chunk_data.idx = 0) (hdata : m.chunk_data.data = List.replicate 3968 1) :
    server.handleRequest exampleDigest m resumeDisk
      = (resumeDisk, some (server.buildMsgChunkReq (m.seq_number + 1) m.client_uuid m.file_name
          65536 UINT16_MAX)) := by
  have hmk : server.makeRemoteFile resumeDisk
      = some (FileRemote.new (List.replicate 64 128) server.bigSize resumeDisk) :=
    server.makeRemoteFile_sidecar resumeDisk server.bigSize (List.replicate 64 128) _
      (by decide) (List.length_replicate _ _) rfl
  have hreq := server.handleRequest_chunkData exampleDigest m resumeDisk _ ht hmk
  have hd : (FileRemote.new (List.replicate 64 128) server.bigSize resumeDisk).2 = resumeDisk :=
    server.FileRemote_new_existing _ _ _ _
  rw [hd] at hreq
  have hsave : (FileRemote.new (List.replicate 64 128) server.bigSize resumeDisk).1.saveChunk
      resumeDisk (server.chunkOf m) = resumeDisk := by
    have hlen : (server.chunkOf m).data.length = 3968 := by
      show m.chunk_data.data.length = 3968
      rw [hdata]
      exact List.length_replicate _ _
    have hi : (server.chunkOf m).idx = 0 := hidx
    have hda : (server.chunkOf m).data = List.replicate 3968 1 := hdata
    rw [server.FileRemote_new_fst]
    unfold FileRemote.saveChunk
    simp only [hlen, hi]
    rw [if_neg (by decide), if_neg (by decide)]
    simp only [hda]
    have hw : writeAt resumeDisk.dest ((0 * CHUNK_SIZE) % 2 ^ 64) (List.replicate 3968 1)
        = resumeDisk.dest :=
      writeAt_same (List.replicate 3968 1) _ (by
        intro h
        have := congrArg List.length h
        rw [List.length_replicate] at this
        cases this)
    have hmark : (FileMetadata.new server.bigSize CHUNK_SIZE (List.replicate 64 128)).markChunk
        resumeDisk.sidecar 0 true = resumeDisk.sidecar :=
      markChunk_zero_again _ rfl _ resumeSidecar_first
    rw [hw, hmark]
  rw [hsave] at hreq
  rw [hreq]
  have hk : (FileRemote.new (List.replicate 64 128) server.bigSize
      resumeDisk).1.file_metadata.nextMissingChunk resumeDisk.sidecar 0 = 65536 :=
    resume_next _
  rw [server.replyFor_of_missing _ _ _ _ 65536 hk (by decide)]

/-- The frame of a CHUNK_REQ message and its parse. -/
theorem chunkReq_frame (m : Message) (ht : m.msg_type = MSGTYPE_FILE_CHUNK_REQ)
    (hseq : m.seq_number < 2 ^ 16) (hu : m.client_uuid.length = 16)
    (hn : m.file_name.length ≤ 255) (hfirst : m.chunk_req.chunk_idx_first < 2 ^ 32)
    (hlast : m.chunk_req.chunk_idx_last < 2 ^ 32) :
    ∃ frame m', m.serialize [] = .ok frame ∧ Message.parse frame = .ok m' ∧
      m'.msg_type = MSGTYPE_FILE_CHUNK_REQ ∧ m'.seq_number = m.seq_number ∧
      m'.client_uuid = m.client_uuid ∧ m'.file_name = m.file_name ∧
      m'.chunk_req.chunk_idx_first = m.chunk_req.chunk_idx_first ∧
      m'.chunk_req.chunk_idx_last = m.chunk_req.chunk_idx_last := by
  have d12 : MSGTYPE_FILE_CHUNK_REQ ≠ MSGTYPE_FILE_OFFER := by decide
  have hv : m.serializeVariant = .ok (putU32 m.chunk_req.chunk_idx_first ++
      putU32 m.chunk_req.chunk_idx_last) := by
    simp only [Message.serializeVariant, ht, d12, if_true, if_false]
  have hf := serialize_eq m hn _ [] hv
  have hl : (putU16 m.seq_number ++ m.client_uuid ++ [m.file_name.length &&& 0xff] ++
      m.file_name ++ (putU32 m.chunk_req.chunk_idx_first ++
        putU32 m.chunk_req.chunk_idx_last)).length = 19 + m.file_name.length + 8 := by
    simp only [List.length_append, putU16, putU32, List.length_cons, List.length_nil, hu]
    try omega
  have hlt : (putU16 m.seq_number ++ m.client_uuid ++ [m.file_name.length &&& 0xff] ++
      m.file_name ++ (putU32 m.chunk_req.chunk_idx_first ++
        putU32 m.chunk_req.chunk_idx_last)).length < 2 ^ 16 := by
    rw [hl]; omega
  rw [Nat.mod_eq_of_lt hlt, List.nil_append] at hf
  have hp := parse_prefix m.msg_type _ _ _ m.file_name (putU32 m.chunk_req.chunk_idx_first ++
      putU32 m.chunk_req.chunk_idx_last)
    (by rw [ht]; decide) hlt hseq hu hn
  obtain ⟨frame, hframe⟩ : ∃ frame, frame = putU32 m.msg_type ++
      putU16 (putU16 m.seq_number ++ m.client_uuid ++ [m.file_name.length &&& 0xff] ++
        m.file_name ++ (putU32 m.chunk_req.chunk_idx_first ++
          putU32 m.chunk_req.chunk_idx_last)).length ++
      (putU16 m.seq_number ++ m.client_uuid ++ [m.file_name.length &&& 0xff] ++
        m.file_name ++ (putU32 m.chunk_req.chunk_idx_first ++
          putU32 m.chunk_req.chunk_idx_last)) := ⟨_, rfl⟩
  rw [← hframe] at hf hp
  simp only [ht, d12, if_true, if_false, List.append_assoc, putU32, getU32, List.cons_append,
    List.nil_append, bind, Except.bind, pure, Except.pure] at hp
  rw [get_put_u32 _ hfirst, get_put_u32 _ hlast] at hp
  exact ⟨frame, _, hf, hp, rfl, rfl, rfl, rfl, rfl, rfl⟩

/-- The fields of a CHUNK_REQ for chunk 0 of the file "a". -/
theorem requestsChunkZero_fields (r : Message) (h : requestsChunkZero r = true) :
    r.msg_type = MSGTYPE_FILE_CHUNK_REQ ∧ r.seq_number < 2 ^ 16 ∧
    r.client_uuid = List.replicate 16 9 ∧ r.file_name = [97] ∧
    r.chunk_req.chunk_idx_first = 0 ∧ r.chunk_req.chunk_idx_last = 0xFFFF := by
  unfold requestsChunkZero at h
  exact of_decide_eq_true h

/-- The chunks 0 to 65535 are marked in the sidecar of `resumeDisk` and chunk
65536 is not. -/
theorem resumeSidecar_marks :
    ∃ S, resumeDisk.sidecar = some S ∧ (∀ k, k < 65536 → chunkMarked S k = true) ∧
      chunkMarked S 65536 = false := by
  refine ⟨_, rfl, ?_, ?_⟩
  · intro k hk
    have hb : (nativeBytes8 server.bigSize ++ nativeBytes8 CHUNK_SIZE ++ List.replicate 64 128 ++
        (List.replicate 8192 0xFF ++ [0x00]))[80 + k / 8]? = some 0xFF := by
      rw [List.getElem?_append_right (by rw [resumeHeader_length]; omega), resumeHeader_length,
        List.getElem?_append_left (by rw [List.length_replicate]; omega),
        List.getElem?_replicate, if_pos (by omega)]
    rw [chunkMarked_of_byte _ k _ hb]
    have h8 : 7 - k % 8 < 8 := by omega
    generalize 7 - k % 8 = j at h8
    interval_cases j <;> rfl
  · have hb : (nativeBytes8 server.bigSize ++ nativeBytes8 CHUNK_SIZE ++ List.replicate 64 128 ++
        (List.replicate 8192 0xFF ++ [0x00]))[80 + 65536 / 8]? = some 0x00 := by
      rw [List.getElem?_append_right (by rw [resumeHeader_length]; omega), resumeHeader_length,
        List.getElem?_append_right (by rw [List.length_replicate]),
        List.length_replicate]
      rfl
    rw [chunkMarked_of_byte _ 65536 _ hb]
    rfl

/-- The destination of `resumeDisk` holds the bytes of the chunks 0 to 65535
of `bigFile`. -/
theorem resumeDest_bytes :
    resumeDisk.dest.map (fun c => c.take (65536 * 3968))
      = some (bigContent.take (65536 * 3968)) := by
  have h : 65536 * 3968 = (List.replicate 3968 (1 : Nat)).length + 65535 * 3968 := by
    rw [List.length_replicate]
  have hd : (List.replicate 3968 1 ++
      (List.replicate (65535 * 3968) 2 ++ List.replicate 3968 0)).take (65536 * 3968)
      = List.replicate 3968 1 ++ List.replicate (65535 * 3968) 2 := by
    rw [h, List.take_append, List.take_left' (List.length_replicate _ _)]
  have hc : bigContent.take (65536 * 3968)
      = List.replicate 3968 1 ++ List.replicate (65535 * 3968) 2 := by
    have e := @List.take_append Nat (List.replicate 3968 1) (List.replicate (65536 * 3968) 2)
      (65535 * 3968)
    have hn : (List.replicate 3968 (1 : Nat)).length + 65535 * 3968 = 65536 * 3968 := by
      rw [List.length_replicate]
    rw [hn, List.take_replicate,
      Nat.min_eq_left (by decide : 65535 * 3968 ≤ 65536 * 3968)] at e
    exact e
  rw [hc, ← hd]
  rfl

/-- The uploader offers `bigFile`: one OFFER frame, which the receiver with
`resumeDisk` answers by a CHUNK_REQ for chunk 0 without touching the disk. -/
theorem resume_offer_round :
    ∃ frame m r, offer exampleClient bigFile = (bigClient, .ok [frame]) ∧
      Message.parse frame = .ok m ∧ m.msg_type = MSGTYPE_FILE_OFFER ∧
      server.handleRequest exampleDigest m resumeDisk = (resumeDisk, some r) ∧
      requestsChunkZero r = true := by
  have hs16 : (buildMsgOffer 1 exampleClient.client_uuid bigFile).seq_number < 2 ^ 16 := by
    show 1 % 2 ^ 16 < 2 ^ 16
    decide
  have hsz : (buildMsgOffer 1 exampleClient.client_uuid bigFile).offer.file_size
      = server.bigSize := by
    show server.bigSize % 2 ^ 32 = server.bigSize
    decide
  have hct : (buildMsgOffer 1 exampleClient.client_uuid bigFile).offer.file_n_chunks < 2 ^ 32 := by
    show getNumOfChunks bigFile.file.size % 2 ^ 32 < 2 ^ 32
    exact Nat.mod_lt _ (by decide)
  have ht : (buildMsgOffer 1 exampleClient.client_uuid bigFile).msg_type
      = MSGTYPE_FILE_OFFER := rfl
  have hu : (buildMsgOffer 1 exampleClient.client_uuid bigFile).client_uuid
      = List.replicate 16 9 := rfl
  have hn : (buildMsgOffer 1 exampleClient.client_uuid bigFile).file_name = [97] := by
    show server.filename [97] = [97]
    decide
  have hh : (buildMsgOffer 1 exampleClient.client_uuid bigFile).offer.file_hash.length = 64 :=
    List.length_replicate _ _
  obtain ⟨frame, m, hs, hp, h1, _, h3, h4, h5, _, _⟩ :=
    offer_frame (buildMsgOffer 1 exampleClient.client_uuid bigFile) ht hs16
      (by rw [hu]; exact List.length_replicate _ _) (by rw [hn]; decide) hh
      (by rw [hsz]; decide) hct
  have hfst : (offer exampleClient bigFile).1 = bigClient := rfl
  have hsnd : (offer exampleClient bigFile).2
      = send (buildMsgOffer 1 exampleClient.client_uuid bigFile) := rfl
  have hoffer : offer exampleClient bigFile = (bigClient, .ok [frame]) :=
    Prod.ext hfst (hsnd.trans (send_ok _ _ hs))
  refine ⟨frame, m, _, hoffer, hp, h1, resume_offer m h1 (h5.trans hsz), ?_⟩
  rw [h3, h4, hu, hn, chunkReq_65536]
  exact decide_eq_true rfl

/-- One round from `resumeDisk`: a CHUNK_REQ for chunk 0 goes to the
uploader, which sends chunk 0; the receiver saves it without any change of
the disk and answers by a CHUNK_REQ for chunk 0 again. -/
theorem resume_round (r : Message) (hr : requestsChunkZero r = true) :
    ∃ frame req dataFrame m r',
      server.sentFrames (some r) = [frame] ∧ Message.parse frame = .ok req ∧
      handleRequest exampleDigest bigClient req = (bigClient, .ok [dataFrame]) ∧
      Message.parse dataFrame = .ok m ∧ m.msg_type = MSGTYPE_FILE_CHUNK_DATA ∧
      m.chunk_data.idx = 0 ∧ m.chunk_data.data = List.replicate 3968 1 ∧
      server.handleRequest exampleDigest m resumeDisk = (resumeDisk, some r') ∧
      requestsChunkZero r' = true := by
  obtain ⟨ht, hseq, hu, hn, hfirst, hlast⟩ := requestsChunkZero_fields r hr
  obtain ⟨frame, req, hs, hp, q1, _, q3, q4, q5, _⟩ :=
    chunkReq_frame r ht hseq (by rw [hu]; exact List.length_replicate _ _)
      (by rw [hn]; decide) (by rw [hfirst]; decide) (by rw [hlast]; decide)
  have hsent : server.sentFrames (some r) = [frame] := by
    show (r.serialize []).toOption.toList = [frame]
    rw [hs]
    rfl
  have hcl := handleRequest_bigClient req (q3.trans hu) (q4.trans hn) q1
    (by rw [q5, hfirst]; decide)
  obtain ⟨dataFrame, m, hd, hpm, m1, _, m3, m4, m5, m6⟩ :=
    send_firstChunkData (req.seq_number % 2 ^ 16) (Nat.mod_lt _ (by decide))
  rw [hd] at hcl
  refine ⟨frame, req, dataFrame, m, _, hsent, hp, hcl, hpm, m1, m5, m6,
    resume_chunkData m m1 m5 m6, ?_⟩
  rw [m3, m4, chunkReq_65536]
  exact decide_eq_true rfl

/-- C12 (failing input): the uploader offers the 65537-chunk file `bigFile`
to a receiver on whose disk the chunks 0 to 65535 are marked and hold the
bytes of the file, so that one chunk, 65536, is missing.  The receiver
answers the OFFER by a CHUNK_REQ for chunk 0, and from then on every round
repeats: the uploader sends a CHUNK_DATA frame with chunk 0, a chunk that is
already marked, the disk stays as it was and the next reply is again a
CHUNK_REQ for chunk 0, never a COMPLETE. -/
theorem resume_never_completes :
    bigFile.file.size ≤ 2 ^ 32 - 1 ∧ getNumOfChunks bigFile.file.size = 65537 ∧
    (∃ S, resumeDisk.sidecar = some S ∧ (∀ k, k < 65536 → chunkMarked S k = true) ∧
      chunkMarked S 65536 = false) ∧
    resumeDisk.dest.map (fun c => c.take (65536 * 3968))
      = some (bigContent.take (65536 * 3968)) ∧
    (∃ frame m r, offer exampleClient bigFile = (bigClient, .ok [frame]) ∧
      Message.parse frame = .ok m ∧ m.msg_type = MSGTYPE_FILE_OFFER ∧
      server.handleRequest exampleDigest m resumeDisk = (resumeDisk, some r) ∧
      requestsChunkZero r = true) ∧
    (∀ r, requestsChunkZero r = true →
      r.msg_type ≠ MSGTYPE_FILE_COMPLETE ∧
      ∃ frame req dataFrame m r',
        server.sentFrames (some r) = [frame] ∧ Message.parse frame = .ok req ∧
        handleRequest exampleDigest bigClient req = (bigClient, .ok [dataFrame]) ∧
        Message.parse dataFrame = .ok m ∧ m.msg_type = MSGTYPE_FILE_CHUNK_DATA ∧
        m.chunk_data.idx = 0 ∧ m.chunk_data.data = List.replicate 3968 1 ∧
        server.handleRequest exampleDigest m resumeDisk = (resumeDisk, some r') ∧
        requestsChunkZero r' = true) := by
  refine ⟨by decide, by decide, resumeSidecar_marks, resumeDest_bytes, resume_offer_round,
    fun r hr => ⟨?_, resume_round r hr⟩⟩
  rw [(requestsChunkZero_fields r hr).1]
  decide

end client

namespace client
open proto file

/-- C32: a message whose peer id differs from the uploader's, or whose file
name is not a key of the offered map, or which is an OFFER or a CHUNK_DATA,
makes `handleRequest` send no frame, raise no error and leave the handler,
hence the offered map, as it was; the first two cases hold whatever the
message type is. -/
theorem handleRequest_drops (H : List Nat → List Nat) (h : ClientRequestHandler)
    (msg : Message)
    (hdrop : msg.client_uuid ≠ h.client_uuid ∨ h.client_files.lookup msg.file_name = none ∨
      msg.msg_type = MSGTYPE_FILE_OFFER ∨ msg.msg_type = MSGTYPE_FILE_CHUNK_DATA) :
    handleRequest H h msg = (h, .ok []) := by
  have d12 : MSGTYPE_FILE_OFFER ≠ MSGTYPE_FILE_CHUNK_REQ := by decide
  have d14 : MSGTYPE_FILE_OFFER ≠ MSGTYPE_FILE_COMPLETE := by decide
  have d32 : MSGTYPE_FILE_CHUNK_DATA ≠ MSGTYPE_FILE_CHUNK_REQ := by decide
  have d34 : MSGTYPE_FILE_CHUNK_DATA ≠ MSGTYPE_FILE_COMPLETE := by decide
  unfold handleRequest
  by_cases hu : msg.client_uuid ≠ h.client_uuid
  · rw [if_pos hu]
  · rw [if_neg hu]
    cases hl : h.client_files.lookup msg.file_name with
    | none => rfl
    | some file =>
      rcases hdrop with h1 | h1 | h1 | h1
      · exact absurd h1 hu
      · rw [hl] at h1
        cases h1
      · simp only [h1, if_neg d12, if_neg d14]
      · simp only [h1, if_neg d32, if_neg d34]

/-- Witness for C32: a CHUNK_REQ for the file "a" arrives at an uploader that
has offered nothing. -/
theorem handleRequest_drops_witness :
    (firstChunkReq.client_uuid ≠ exampleClient.client_uuid ∨
      exampleClient.client_files.lookup firstChunkReq.file_name = none ∨
      firstChunkReq.msg_type = MSGTYPE_FILE_OFFER ∨
      firstChunkReq.msg_type = MSGTYPE_FILE_CHUNK_DATA) ∧
    handleRequest exampleDigest exampleClient firstChunkReq = (exampleClient, .ok []) :=
  ⟨Or.inr (Or.inl rfl), handleRequest_drops exampleDigest exampleClient firstChunkReq
    (Or.inr (Or.inl rfl))⟩

end client

namespace client
open proto file

theorem lookup_none_filter (l : List (List Nat × ClientFile)) (k : List Nat)
    (h : l.lookup k = none) : l.filter (fun kv => kv.1 ≠ k) = l := by
  induction l with
  | nil => rfl
  | cons a t ih =>
    obtain ⟨ka, fa⟩ := a
    rw [List.lookup_cons] at h
    by_cases hk : k = ka
    · subst hk
      simp at h
    · have hb : (k == ka) = false := by simpa using hk
      rw [hb] at h
      have hne : ka ≠ k := fun e => hk e.symm
      rw [List.filter_cons]
      simp only [ne_eq, hne, not_false_eq_true, decide_True, if_true]
      rw [show (List.filter (fun kv : List Nat × ClientFile => decide (kv.1 ≠ k)) t) = t from ih h]

theorem lookup_filter_self (l : List (List Nat × ClientFile)) (k : List Nat) :
    (l.filter (fun kv => kv.1 ≠ k)).lookup k = none := by
  induction l with
  | nil => rfl
  | cons a t ih =>
    obtain ⟨ka, fa⟩ := a
    rw [List.filter_cons]
    by_cases hk : ka = k
    · simp only [ne_eq, hk, not_true_eq_false, decide_False, Bool.false_eq_true, if_false]
      exact ih
    · simp only [ne_eq, hk, not_false_eq_true, decide_True, if_true]
      rw [List.lookup_cons]
      have hb : (k == ka) = false := by simpa using fun e : k = ka => hk e.symm
      rw [hb]
      exact ih

theorem lookup_filter_other (l : List (List Nat × ClientFile)) (k j : List Nat) (hj : j ≠ k) :
    (l.filter (fun kv => kv.1 ≠ k)).lookup j = l.lookup j := by
  induction l with
  | nil => rfl
  | cons a t ih =>
    obtain ⟨ka, fa⟩ := a
    rw [List.filter_cons]
    by_cases hk : ka = k
    · subst hk
      simp only [ne_eq, not_true_eq_false, decide_False, Bool.false_eq_true, if_false]
      rw [List.lookup_cons]
      have hb : (j == ka) = false := by simpa using hj
      rw [hb]
      exact ih
    · simp only [ne_eq, hk, not_false_eq_true, decide_True, if_true]
      rw [List.lookup_cons, List.lookup_cons, ih]

/-- What `handleRequest` does to the handler: only a COMPLETE with the
uploader's peer id changes the map, by removing the entries of its file
name. -/
theorem handleRequest_state (H : List Nat → List Nat) (h : ClientRequestHandler)
    (msg : Message) :
    (handleRequest H h msg).1
      = { h with client_files :=
            if msg.client_uuid = h.client_uuid ∧ msg.msg_type = MSGTYPE_FILE_COMPLETE then
              h.client_files.filter (fun kv => kv.1 ≠ msg.file_name)
            else h.client_files } := by
  have d42 : MSGTYPE_FILE_COMPLETE ≠ MSGTYPE_FILE_CHUNK_REQ := by decide
  unfold handleRequest
  by_cases hu : msg.client_uuid ≠ h.client_uuid
  · rw [if_pos hu, if_neg (fun hc => hu hc.1)]
  · rw [if_neg hu]
    have hu' : msg.client_uuid = h.client_uuid := not_not.mp hu
    cases hl : h.client_files.lookup msg.file_name with
    | none =>
      simp only []
      by_cases ht : msg.msg_type = MSGTYPE_FILE_COMPLETE
      · rw [if_pos ⟨hu', ht⟩, lookup_none_filter _ _ hl]
      · rw [if_neg (fun hc => ht hc.2)]
    | some file =>
      simp only []
      by_cases hr : msg.msg_type = MSGTYPE_FILE_CHUNK_REQ
      · rw [if_pos hr, if_neg (fun hc => d42 (hc.2.symm.trans hr))]
        cases buildMsgChunkData H msg.seq_number h.client_uuid file
          msg.chunk_req.chunk_idx_first <;> rfl
      · rw [if_neg hr]
        by_cases ht : msg.msg_type = MSGTYPE_FILE_COMPLETE
        · rw [if_pos ht, if_pos ⟨hu', ht⟩]
        · rw [if_neg ht, if_neg (fun hc => ht hc.2)]

theorem handleRequest_uuid (H : List Nat → List Nat) (h : ClientRequestHandler)
    (msg : Message) : (handleRequest H h msg).1.client_uuid = h.client_uuid := by
  rw [handleRequest_state]

/-- The map after a list of messages: the entries whose name no COMPLETE
with the uploader's peer id carries. -/
theorem handleAll_state (H : List Nat → List Nat) (msgs : List Message) :
    ∀ h : ClientRequestHandler, handleAll H h msgs
      = { h with client_files := h.client_files.filter (fun kv =>
            msgs.all (fun m => !decide (m.client_uuid = h.client_uuid ∧
              m.msg_type = MSGTYPE_FILE_COMPLETE ∧ m.file_name = kv.1))) } := by
  induction msgs with
  | nil =>
    intro h
    simp [handleAll]
  | cons m ms ih =>
    intro h
    have hstep : handleAll H h (m :: ms) = handleAll H (handleRequest H h m).1 ms := rfl
    rw [hstep, ih, handleRequest_state]
    by_cases hc : m.client_uuid = h.client_uuid ∧ m.msg_type = MSGTYPE_FILE_COMPLETE
    · simp only [if_pos hc, List.filter_filter, List.all_cons]
      congr 1
      apply List.filter_congr
      intro kv _
      simp only [ne_eq, hc.1, hc.2, true_and, Bool.and_comm, decide_not]
      congr 1
      · congr 1
        exact decide_eq_decide.mpr eq_comm
    · simp only [if_neg hc, List.all_cons]
      congr 1
      apply List.filter_congr
      intro kv _
      have : decide (m.client_uuid = h.client_uuid ∧
          m.msg_type = MSGTYPE_FILE_COMPLETE ∧ m.file_name = kv.1) = false := by
        apply decide_eq_false
        intro hh
        exact hc ⟨hh.1, hh.2.1⟩
      simp only [this, Bool.not_false, Bool.true_and]

theorem mem_keys_of_lookup (l : List (List Nat × ClientFile)) (k : List Nat) (v : ClientFile)
    (h : l.lookup k = some v) : k ∈ l.map Prod.fst := by
  induction l with
  | nil => cases h
  | cons a t ih =>
    obtain ⟨ka, fa⟩ := a
    rw [List.lookup_cons] at h
    by_cases hk : k = ka
    · subst hk
      simp
    · have hb : (k == ka) = false := by simpa using hk
      rw [hb] at h
      simp only [List.map_cons, List.mem_cons]
      exact Or.inr (ih h)

/-- The keys of the map after `offer`. -/
theorem offer_keys (h : ClientRequestHandler) (f : ClientFile) (k : List Nat) :
    k ∈ (offer h f).1.client_files.map Prod.fst
      ↔ k ∈ h.client_files.map Prod.fst ∨ k = server.filename f.path := by
  unfold offer
  simp only []
  cases hl : h.client_files.lookup (server.filename f.path) with
  | none => simp
  | some v =>
    simp only []
    constructor
    · exact Or.inl
    · rintro (hk | hk)
      · exact hk
      · rw [hk]
        exact mem_keys_of_lookup _ _ _ hl

theorem offer_uuid (h : ClientRequestHandler) (f : ClientFile) :
    (offer h f).1.client_uuid = h.client_uuid := rfl

theorem offerAll_keys (files : List ClientFile) :
    ∀ (h : ClientRequestHandler) (k : List Nat),
      k ∈ (offerAll h files).client_files.map Prod.fst
        ↔ k ∈ h.client_files.map Prod.fst ∨ ∃ f ∈ files, k = server.filename f.path := by
  induction files with
  | nil =>
    intro h k
    simp [offerAll]
  | cons f fs ih =>
    intro h k
    have hstep : offerAll h (f :: fs) = offerAll (offer h f).1 fs := rfl
    rw [hstep, ih, offer_keys]
    simp only [List.mem_cons, exists_eq_or_imp, or_assoc]

theorem offerAll_uuid (files : List ClientFile) :
    ∀ h : ClientRequestHandler, (offerAll h files).client_uuid = h.client_uuid := by
  induction files with
  | nil => intro h; rfl
  | cons f fs ih =>
    intro h
    have hstep : offerAll h (f :: fs) = offerAll (offer h f).1 fs := rfl
    rw [hstep, ih, offer_uuid]

/-- C33: a COMPLETE with the uploader's peer id and an offered base name
sends no frame and removes exactly the entry of that name from the offered
map, every other name keeping its file; `uploadsCompleted` is true exactly
when the map is empty; and after a list of files has been offered by a fresh
handler and a list of messages has been handled, `uploadsCompleted` is true
exactly when, for each offered file, a COMPLETE with the uploader's peer id
and the base name of the file is among the messages. -/
theorem complete_tracks_uploads (H : List Nat → List Nat) (h : ClientRequestHandler)
    (msg : Message) (file : ClientFile)
    (hu : msg.client_uuid = h.client_uuid) (ht : msg.msg_type = MSGTYPE_FILE_COMPLETE)
    (hl : h.client_files.lookup msg.file_name = some file) :
    (handleRequest H h msg).2 = .ok [] ∧
    (handleRequest H h msg).1.client_uuid = h.client_uuid ∧
    (handleRequest H h msg).1.client_files
      = h.client_files.filter (fun kv => kv.1 ≠ msg.file_name) ∧
    (handleRequest H h msg).1.client_files.lookup msg.file_name = none ∧
    (∀ k, k ≠ msg.file_name →
      (handleRequest H h msg).1.client_files.lookup k = h.client_files.lookup k) ∧
    (∀ g : ClientRequestHandler, uploadsCompleted g = true ↔ g.client_files = []) ∧
    (∀ (uuid : List Nat) (files : List ClientFile) (msgs : List Message),
      uploadsCompleted
          (handleAll H (offerAll { client_uuid := uuid, client_files := [] } files) msgs) = true
        ↔ ∀ f ∈ files, ∃ m ∈ msgs, m.client_uuid = uuid ∧
            m.msg_type = MSGTYPE_FILE_COMPLETE ∧ m.file_name = server.filename f.path) := by
  have d42 : MSGTYPE_FILE_COMPLETE ≠ MSGTYPE_FILE_CHUNK_REQ := by decide
  have hfiles : (handleRequest H h msg).1.client_files
      = h.client_files.filter (fun kv => kv.1 ≠ msg.file_name) := by
    rw [handleRequest_state]
    simp only [if_pos (And.intro hu ht)]
  have hreply : (handleRequest H h msg).2 = .ok [] := by
    unfold handleRequest
    rw [if_neg (fun hne => hne hu), hl]
    simp only []
    rw [ht, if_neg d42, if_pos rfl]
  refine ⟨hreply, handleRequest_uuid H h msg, hfiles, ?_, ?_, ?_, ?_⟩
  · rw [hfiles]
    exact lookup_filter_self _ _
  · intro k hk
    rw [hfiles]
    exact lookup_filter_other _ _ _ hk
  · intro g
    unfold uploadsCompleted
    exact List.isEmpty_iff
  · intro uuid files msgs
    unfold uploadsCompleted
    rw [List.isEmpty_iff, handleAll_state]
    simp only [List.filter_eq_nil_iff, offerAll_uuid]
    constructor
    · intro hall f hf
      have hk : server.filename f.path
          ∈ (offerAll { client_uuid := uuid, client_files := [] } files).client_files.map
            Prod.fst := by
        rw [offerAll_keys]
        exact Or.inr ⟨f, hf, rfl⟩
      obtain ⟨kv, hkv, hkey⟩ := List.mem_map.mp hk
      have hn := hall kv hkv
      simp only [List.all_eq_true, Bool.not_eq_true', decide_eq_false_iff_not, not_forall,
        not_not] at hn
      obtain ⟨m, hm, hm1, hm2, hm3⟩ := hn
      exact ⟨m, hm, hm1, hm2, hm3.trans hkey⟩
    · intro hall kv hkv
      have hk : kv.1
          ∈ (offerAll { client_uuid := uuid, client_files := [] } files).client_files.map
            Prod.fst := List.mem_map.mpr ⟨kv, hkv, rfl⟩
      rw [offerAll_keys] at hk
      rcases hk with hk | ⟨f, hf, hk⟩
      · cases hk
      · obtain ⟨m, hm, hm1, hm2, hm3⟩ := hall f hf
        simp only [List.all_eq_true, Bool.not_eq_true', decide_eq_false_iff_not, not_forall,
          not_not]
        exact ⟨m, hm, hm1, hm2, hm3.trans hk.symm⟩

/-- Witness for C33: the uploader that has offered `bigFile` under the name
"a" handles a COMPLETE for "a". -/
theorem complete_tracks_uploads_witness :
    (handleRequest exampleDigest bigClient completeMsg).2 = .ok [] ∧
    (handleRequest exampleDigest bigClient completeMsg).1.client_uuid = bigClient.client_uuid ∧
    (handleRequest exampleDigest bigClient completeMsg).1.client_files
      = bigClient.client_files.filter (fun kv => kv.1 ≠ completeMsg.file_name) ∧
    (handleRequest exampleDigest bigClient completeMsg).1.client_files.lookup
      completeMsg.file_name = none ∧
    (∀ k, k ≠ completeMsg.file_name →
      (handleRequest exampleDigest bigClient completeMsg).1.client_files.lookup k
        = bigClient.client_files.lookup k) ∧
    (∀ g : ClientRequestHandler, uploadsCompleted g = true ↔ g.client_files = []) ∧
    (∀ (uuid : List Nat) (files : List ClientFile) (msgs : List Message),
      uploadsCompleted
          (handleAll exampleDigest
            (offerAll { client_uuid := uuid, client_files := [] } files) msgs) = true
        ↔ ∀ f ∈ files, ∃ m ∈ msgs, m.client_uuid = uuid ∧
            m.msg_type = MSGTYPE_FILE_COMPLETE ∧ m.file_name = server.filename f.path) :=
  complete_tracks_uploads exampleDigest bigClient completeMsg bigFile rfl rfl rfl

end client

namespace client
open proto file

end client

namespace file
open proto

end file

namespace file
open proto

/-- Marking chunk `k` keeps the sidecar length, and the only chunk that can
be marked afterwards without having been marked before is `k`. -/
theorem markChunk_new_marks (md : FileMetadata) (S : List Nat) (k : Nat)
    (h80 : md.header_size = 80) (hk : 80 + k / 8 < 2 ^ 64) :
    ∃ S', md.markChunk (some S) k true = some S' ∧ S'.length = S.length ∧
      (∀ j, chunkMarked S' j = true → chunkMarked S j = false → j = k) := by
  have hpos : (80 + k / 8) % 2 ^ 64 = 80 + k / 8 := Nat.mod_eq_of_lt hk
  unfold FileMetadata.markChunk
  simp only [h80, mark_bit_value, if_true, hpos]
  cases hg : S[80 + k / 8]? with
  | none =>
    refine ⟨S, rfl, rfl, ?_⟩
    intro j h1 h0
    rw [h1] at h0
    cases h0
  | some b =>
    have hlt : 80 + k / 8 < S.length := by
      by_contra hge
      rw [List.getElem?_eq_none (by omega)] at hg
      cases hg
    refine ⟨_, rfl, List.length_set _ _ _, ?_⟩
    intro j h1 h0
    unfold chunkMarked at h1 h0
    rw [List.getD_eq_getElem?_getD] at h1 h0
    by_cases hp : 80 + k / 8 = 80 + j / 8
    · rw [← hp] at h1 h0
      rw [hg] at h0
      rw [List.getElem?_set_self hlt] at h1
      simp only [Option.getD_some] at h1 h0
      rw [testBit_set_bit, h0] at h1
      simp only [Bool.false_or, decide_eq_true_eq] at h1
      omega
    · rw [List.getElem?_set_ne hp] at h1
      rw [h1] at h0
      cases h0

/-- C39 (counterexample): for a file of 3968 bytes, which has one chunk, the
chunk with index 1 and no data has offset 3968, not above the size, and the
expected length 0.  `saveChunk` accepts it and `markChunk(1)` sets bit 6 of
the only bitmap byte: the bit of position 1 = n_chunks. -/
theorem saveChunk_marks_chunk_past_the_end :
    oneChunkSink.file_metadata.file_n_chunks = 1 ∧
    (∃ S, oneChunkDisk.sidecar = some S ∧ chunkMarked S 1 = false) ∧
    (oneChunkSink.saveChunk oneChunkDisk { idx := 1, data := [], hash := [] }).sidecar
      = some (nativeBytes8 3968 ++ nativeBytes8 3968 ++ exampleHash ++ [0x40]) ∧
    chunkMarked (nativeBytes8 3968 ++ nativeBytes8 3968 ++ exampleHash ++ [0x40]) 1 = true :=
  ⟨by decide, ⟨_, rfl, by decide⟩, by decide, by decide⟩

/-- C39 (amended): for every file size (a `size_t`) and every chunk whose
offset `idx * 3968` fits `size_t`, `saveChunk` keeps the sidecar length, and
if a chunk bit is 1 afterwards that was not 1 before, it is the bit of
`c.idx`, with `c.idx <= n_chunks`, and `c.idx < n_chunks` when the chunk has
data. -/
theorem saveChunk_marks_only_own_chunk (f : FileRemote) (d : Disk) (S : List Nat)
    (c : FileChunk)
    (hmd : f.file_metadata = FileMetadata.new f.size CHUNK_SIZE f.hash)
    (hs : d.sidecar = some S) (hsize : f.size < 2 ^ 64) (hfit : c.idx * 3968 < 2 ^ 64) :
    ∃ S', (f.saveChunk d c).sidecar = some S' ∧ S'.length = S.length ∧
      (∀ j, chunkMarked S' j = true → chunkMarked S j = false →
        j = c.idx ∧ c.idx ≤ f.file_metadata.file_n_chunks ∧
        (c.data ≠ [] → c.idx < f.file_metadata.file_n_chunks)) := by
  have h80 : f.file_metadata.header_size = 80 := by rw [hmd]; rfl
  have hnc : f.file_metadata.file_n_chunks = getNumOfChunks f.size := by rw [hmd]; rfl
  have hmod : (c.idx * 3968) % 2 ^ 64 = c.idx * 3968 := Nat.mod_eq_of_lt hfit
  have hsame : ∀ j, chunkMarked S j = true → chunkMarked S j = false →
      j = c.idx ∧ c.idx ≤ f.file_metadata.file_n_chunks ∧
      (c.data ≠ [] → c.idx < f.file_metadata.file_n_chunks) := by
    intro j h1 h0
    rw [h1] at h0
    cases h0
  simp only [FileRemote.saveChunk, CHUNK_SIZE_eq, hmod]
  by_cases h1 : c.idx * 3968 > f.size
  · rw [if_pos h1]
    exact ⟨S, hs, rfl, hsame⟩
  · rw [if_neg h1]
    by_cases h2 : (if f.size - c.idx * 3968 < 3968 then f.size - c.idx * 3968 else 3968)
        ≠ c.data.length
    · rw [if_pos h2]
      exact ⟨S, hs, rfl, hsame⟩
    · rw [if_neg h2]
      simp only [hs]
      obtain ⟨S', hm, hlen, hnew⟩ := markChunk_new_marks f.file_metadata S c.idx h80 (by omega)
      refine ⟨S', hm, hlen, ?_⟩
      intro j hj1 hj0
      have hlen2 : (if f.size - c.idx * 3968 < 3968 then f.size - c.idx * 3968 else 3968)
          = c.data.length := not_not.mp h2
      rw [hnc, getNumOfChunks_eq f.size hsize]
      refine ⟨hnew j hj1 hj0, ?_, ?_⟩
      · split <;> omega
      · intro hne
        have hpos : 0 < c.data.length := List.length_pos.mpr hne
        split at hlen2 <;> split <;> omega

/-- Witness for C39 (amended): the only chunk of a 5-byte file. -/
theorem saveChunk_marks_only_own_chunk_witness :
    ∃ S', (tinySink.saveChunk tinyDisk tinyChunk).sidecar = some S' ∧
      S'.length = tinySidecar.length ∧
      (∀ j, chunkMarked S' j = true → chunkMarked tinySidecar j = false →
        j = tinyChunk.idx ∧ tinyChunk.idx ≤ tinySink.file_metadata.file_n_chunks ∧
        (tinyChunk.data ≠ [] → tinyChunk.idx < tinySink.file_metadata.file_n_chunks)) :=
  saveChunk_marks_only_own_chunk tinySink tinyDisk tinySidecar tinyChunk rfl rfl (by decide)
    (by decide)

end file

namespace server
open proto file

end server

namespace proto

/-- The length of the frame of a CHUNK_DATA message: 31 bytes of envelope and
fields, the file name and the data. -/
theorem chunkData_frame_length (m : Message) (ht : m.msg_type = MSGTYPE_FILE_CHUNK_DATA)
    (hu : m.client_uuid.length = 16) (hn : m.file_name.length ≤ 255)
    (hk0 : 0 < m.chunk_data.data.length) (hk : m.chunk_data.data.length ≤ 3968) :
    ∃ frame, m.serialize [] = .ok frame ∧
      frame.length = 31 + m.file_name.length + m.chunk_data.data.length := by
  have d13 : MSGTYPE_FILE_CHUNK_DATA ≠ MSGTYPE_FILE_OFFER := by decide
  have d23 : MSGTYPE_FILE_CHUNK_DATA ≠ MSGTYPE_FILE_CHUNK_REQ := by decide
  have hd : ¬ (m.chunk_data.data.length > MAX_MSG_PAYLOAD_SIZE ∨
      m.chunk_data.data.length = 0) := by
    unfold MAX_MSG_PAYLOAD_SIZE MAX_MSG_SIZE
    omega
  have hv : m.serializeVariant = .ok (putU32 m.chunk_data.idx ++
      putU16 (m.chunk_data.data.length % 2 ^ 16) ++ m.chunk_data.data) := by
    simp only [Message.serializeVariant, ht, d13, d23, if_true, if_false, hd]
  have hf := serialize_eq m hn _ [] hv
  refine ⟨_, hf, ?_⟩
  simp only [List.length_append, putU16, putU32, List.length_cons, List.length_nil, hu]
  omega

/-- C36 (failing input): `serialize` succeeds on a CHUNK_DATA message with a
file name of 98 bytes and 3968 data bytes, and the frame has 4097 bytes, one
more than `MAX_MSG_SIZE`.  In general the frame of a CHUNK_DATA message has
31 bytes besides the file name and the data, so with the longest file name
(255 bytes) the head takes 286 bytes, not the 128 that are reserved. -/
theorem serialize_exceeds_max_msg_size :
    MAX_MSG_SIZE = 4096 ∧ MAX_MSG_PAYLOAD_SIZE = MAX_MSG_SIZE - 128 ∧
    longNameChunk.file_name.length = 98 ∧ longNameChunk.chunk_data.data.length = 3968 ∧
    (∃ frame, longNameChunk.serialize [] = .ok frame ∧ frame.length = 4097) ∧
    (∀ m : Message, m.msg_type = MSGTYPE_FILE_CHUNK_DATA → m.client_uuid.length = 16 →
      m.file_name.length ≤ 255 → 0 < m.chunk_data.data.length →
      m.chunk_data.data.length ≤ 3968 →
      ∃ frame, m.serialize [] = .ok frame ∧
        frame.length = 31 + m.file_name.length + m.chunk_data.data.length) := by
  have hn : longNameChunk.file_name.length = 98 := List.length_replicate _ _
  have hk : longNameChunk.chunk_data.data.length = 3968 := List.length_replicate _ _
  refine ⟨rfl, rfl, hn, hk, ?_, chunkData_frame_length⟩
  obtain ⟨frame, hs, hl⟩ := chunkData_frame_length longNameChunk rfl
    (List.length_replicate _ _) (by rw [hn]; decide) (by rw [hk]; decide) (by rw [hk])
  rw [hn, hk] at hl
  exact ⟨frame, hs, hl⟩

end proto

namespace netwrk
open proto

/-- The byte rule once the envelope is in the accumulator. -/
theorem handleByte_payload (c : Connection) (b : Nat) (hL : c.msg_len < 2 ^ 16)
    (hn : 6 ≤ c.msg_buf.length) :
    c.handleByte b
      = if c.msg_buf.length < c.msg_len + 5 then
          ({ c with msg_buf := c.msg_buf ++ [b] }, none)
        else if c.msg_buf.length = c.msg_len + 5 then
          (match Message.parse (c.msg_buf ++ [b]) with
            | .ok _ => ({ msg_buf := [], msg_len := 0 }, some (c.msg_buf ++ [b]))
            | .error _ => ({ c with msg_buf := c.msg_buf ++ [b] }, some (c.msg_buf ++ [b])))
        else ({ msg_buf := [], msg_len := 0 }, none) := by
  have hmod : (c.msg_len + 6 - 1) % 2 ^ 64 = c.msg_len + 5 := by omega
  unfold Connection.handleByte
  simp only [hmod]
  rw [if_neg (by omega), if_neg (by omega), if_neg (by omega), if_neg (by omega),
    if_neg (by omega), if_neg (by omega)]
  by_cases h1 : c.msg_buf.length < c.msg_len + 5
  · rw [if_pos ⟨hn, h1⟩, if_pos h1]
  · rw [if_neg (fun h => h1 h.2), if_neg h1]

end netwrk

namespace netwrk
open proto

/-- The six envelope bytes fed to an idle connection are accumulated and set
the expected length. -/
theorem feed_envelope (t L : Nat) (ht0 : 0 < t) (ht : t < 5) (hL : L < 2 ^ 16) :
    Connection.feed { msg_buf := [], msg_len := 0 } ([0x87, 0xFE, 0x77, t] ++ putU16 L)
      = ({ msg_buf := [0x87, 0xFE, 0x77, t] ++ putU16 L, msg_len := L }, []) := by
  have hget := get_put_u16 L hL
  have a1 : (0x87 : Nat) = MAGIC1 := by decide
  have a2 : (0xFE : Nat) = MAGIC2 := by decide
  have a3 : (0x77 : Nat) = MAGIC3 := by decide
  have a4 : t < MAX_MSG_TYPE := by
    have : MAX_MSG_TYPE = 5 := by decide
    omega
  simp only [putU16, List.cons_append, List.nil_append, Connection.feed, Connection.handleByte,
    List.length_nil, List.length_cons, a1, a2, a3]
  simp [a4, ht0, hget]

/-- Payload bytes short of the announced length are accumulated and nothing
is handed over. -/
theorem feed_payload_partial (rest : List Nat) : ∀ c : Connection,
    6 ≤ c.msg_buf.length → c.msg_len < 2 ^ 16 →
    c.msg_buf.length + rest.length < c.msg_len + 6 →
    c.feed rest = ({ c with msg_buf := c.msg_buf ++ rest }, []) := by
  induction rest with
  | nil =>
    intro c _ _ _
    simp [Connection.feed]
  | cons b bs ih =>
    intro c h6 hL hlen
    rw [List.length_cons] at hlen
    have step : c.handleByte b = ({ c with msg_buf := c.msg_buf ++ [b] }, none) := by
      rw [handleByte_payload c b hL h6, if_pos (by omega)]
    rw [Connection.feed, step]
    have := ih { c with msg_buf := c.msg_buf ++ [b] }
      (by simp only [List.length_append, List.length_cons, List.length_nil]; omega) hL
      (by simp only [List.length_append, List.length_cons, List.length_nil]; omega)
    simp only [this, Option.toList, List.nil_append, List.append_assoc, List.singleton_append]

/-- The byte that completes the announced length hands the accumulator with
this byte over, and leaves the connection idle when the constructor returns a
message. -/
theorem feed_last_byte (c : Connection) (b : Nat) (h6 : 6 ≤ c.msg_buf.length)
    (hL : c.msg_len < 2 ^ 16) (hlen : c.msg_buf.length + 1 = c.msg_len + 6) :
    (c.feed [b]).2 = [c.msg_buf ++ [b]] ∧
    ((∃ m, Message.parse (c.msg_buf ++ [b]) = .ok m) →
      (c.feed [b]).1 = { msg_buf := [], msg_len := 0 }) := by
  have step := handleByte_payload c b hL h6
  rw [if_neg (by omega), if_pos (by omega)] at step
  simp only [Connection.feed, step]
  cases hp : Message.parse (c.msg_buf ++ [b]) with
  | ok m => exact ⟨rfl, fun _ => rfl⟩
  | error e =>
    refine ⟨rfl, ?_⟩
    rintro ⟨m, hm⟩
    cases hm

/-- A whole frame with any payload of the announced length `L >= 1`, fed to
an idle connection: nothing is handed over before the last byte, the last
byte hands the frame over, and the connection is idle afterwards when the
constructor returns a message. -/
theorem feed_frame_any (t L : Nat) (payload : List Nat)
    (ht0 : 0 < t) (ht : t < 5) (h1 : 1 ≤ L) (hL : L < 2 ^ 16) (hlen : payload.length = L) :
    (Connection.feed { msg_buf := [], msg_len := 0 }
        ([0x87, 0xFE, 0x77, t] ++ putU16 L ++ payload.dropLast)).2 = [] ∧
    (Connection.feed { msg_buf := [], msg_len := 0 }
        ([0x87, 0xFE, 0x77, t] ++ putU16 L ++ payload)).2
      = [[0x87, 0xFE, 0x77, t] ++ putU16 L ++ payload] ∧
    ((∃ m, Message.parse ([0x87, 0xFE, 0x77, t] ++ putU16 L ++ payload) = .ok m) →
      (Connection.feed { msg_buf := [], msg_len := 0 }
        ([0x87, 0xFE, 0x77, t] ++ putU16 L ++ payload)).1 = { msg_buf := [], msg_len := 0 }) := by
  have hne : payload ≠ [] := by
    intro h
    rw [h] at hlen
    simp at hlen
    omega
  have henv := feed_envelope t L ht0 ht hL
  have henvlen : ([0x87, 0xFE, 0x77, t] ++ putU16 L).length = 6 := by simp [putU16]
  have hinit : payload.dropLast.length = L - 1 := by
    rw [List.length_dropLast, hlen]
  have hpart := feed_payload_partial payload.dropLast
    { msg_buf := [0x87, 0xFE, 0x77, t] ++ putU16 L, msg_len := L }
    (by rw [henvlen]) hL (by
      show ([0x87, 0xFE, 0x77, t] ++ putU16 L).length + payload.dropLast.length < L + 6
      rw [henvlen, hinit]
      omega)
  have hlast := feed_last_byte
    { msg_buf := [0x87, 0xFE, 0x77, t] ++ putU16 L ++ payload.dropLast, msg_len := L }
    (payload.getLast hne)
    (by
      show 6 ≤ ([0x87, 0xFE, 0x77, t] ++ putU16 L ++ payload.dropLast).length
      rw [List.length_append, henvlen]
      omega)
    hL (by
      show ([0x87, 0xFE, 0x77, t] ++ putU16 L ++ payload.dropLast).length + 1 = L + 6
      rw [List.length_append, henvlen, hinit]
      omega)
  have hsplit : [0x87, 0xFE, 0x77, t] ++ putU16 L ++ payload
      = ([0x87, 0xFE, 0x77, t] ++ putU16 L ++ payload.dropLast) ++ [payload.getLast hne] := by
    rw [List.append_assoc _ payload.dropLast, List.dropLast_append_getLast hne]
  have hfirst : Connection.feed { msg_buf := [], msg_len := 0 }
      ([0x87, 0xFE, 0x77, t] ++ putU16 L ++ payload.dropLast)
      = ({ msg_buf := [0x87, 0xFE, 0x77, t] ++ putU16 L ++ payload.dropLast, msg_len := L },
          []) := by
    rw [feed_append, henv, hpart]
    rfl
  have hfeed : Connection.feed { msg_buf := [], msg_len := 0 }
      ([0x87, 0xFE, 0x77, t] ++ putU16 L ++ payload)
      = ((Connection.feed
            { msg_buf := [0x87, 0xFE, 0x77, t] ++ putU16 L ++ payload.dropLast, msg_len := L }
            [payload.getLast hne]).1,
          (Connection.feed
            { msg_buf := [0x87, 0xFE, 0x77, t] ++ putU16 L ++ payload.dropLast, msg_len := L }
            [payload.getLast hne]).2) := by
    conv_lhs => rw [hsplit, feed_append, hfirst]
    rfl
  simp only [] at hlast
  rw [← hsplit] at hlast
  refine ⟨by rw [hfirst], ?_, ?_⟩
  · rw [hfeed]
    exact hlast.1
  · intro hm
    rw [hfeed]
    exact hlast.2 hm

set_option maxRecDepth 100000 in
/-- C35 (counterexample): the six envelope bytes of a COMPLETE frame that
announce length 0.  After them nothing has been handed to the codec and the
accumulator holds the six bytes; the byte that follows is consumed and
dropped, so that a frame sent right after the envelope is not handed over
either, although it is handed over when it is fed alone. -/
theorem zero_length_frame_not_handed :
    Connection.feed { msg_buf := [], msg_len := 0 } zeroLengthEnvelope
      = ({ msg_buf := zeroLengthEnvelope, msg_len := 0 }, []) ∧
    Connection.feed { msg_buf := [], msg_len := 0 } (zeroLengthEnvelope ++ [0x87])
      = ({ msg_buf := [], msg_len := 0 }, []) ∧
    (Connection.feed { msg_buf := [], msg_len := 0 }
        (zeroLengthEnvelope ++ exampleCompleteFrame)).2 = [] ∧
    (Connection.feed { msg_buf := [], msg_len := 0 } exampleCompleteFrame).2
      = [exampleCompleteFrame] := by
  refine ⟨by decide, by decide, by decide, by decide⟩

/-- C35 (amended): for every type tag in 1..4 and every length L in
1..65535, feeding a fresh demultiplexer the 6 envelope bytes that announce L
followed by L arbitrary payload bytes hands nothing to the codec before the
last byte and exactly those 6 + L bytes, once, at the last byte; when the
constructor returns a message from them the accumulator is empty afterwards,
so that the bytes that follow are handled as by a fresh demultiplexer. -/
theorem frame_handed_at_last_byte (t L : Nat) (payload : List Nat)
    (ht0 : 0 < t) (ht : t < 5) (h1 : 1 ≤ L) (hL : L < 2 ^ 16) (hlen : payload.length = L) :
    (Connection.feed { msg_buf := [], msg_len := 0 }
        ([0x87, 0xFE, 0x77, t] ++ putU16 L ++ payload.dropLast)).2 = [] ∧
    (Connection.feed { msg_buf := [], msg_len := 0 }
        ([0x87, 0xFE, 0x77, t] ++ putU16 L ++ payload)).2
      = [[0x87, 0xFE, 0x77, t] ++ putU16 L ++ payload] ∧
    ((∃ m, Message.parse ([0x87, 0xFE, 0x77, t] ++ putU16 L ++ payload) = .ok m) →
      ∀ rest, Connection.feed { msg_buf := [], msg_len := 0 }
          (([0x87, 0xFE, 0x77, t] ++ putU16 L ++ payload) ++ rest)
        = ((Connection.feed { msg_buf := [], msg_len := 0 } rest).1,
            ([0x87, 0xFE, 0x77, t] ++ putU16 L ++ payload) ::
              (Connection.feed { msg_buf := [], msg_len := 0 } rest).2)) := by
  obtain ⟨h0, hout, hidle⟩ := feed_frame_any t L payload ht0 ht h1 hL hlen
  refine ⟨h0, hout, ?_⟩
  intro hm rest
  rw [feed_append, hout, hidle hm]
  rfl

/-- Witness for C35 (amended): the frame of the example COMPLETE message,
which announces 21 bytes, followed by one more byte. -/
theorem frame_handed_at_last_byte_witness :
    (Connection.feed { msg_buf := [], msg_len := 0 }
        ([0x87, 0xFE, 0x77, 4] ++ putU16 21 ++ (exampleCompleteFrame.drop 6).dropLast)).2 = [] ∧
    (Connection.feed { msg_buf := [], msg_len := 0 }
        ([0x87, 0xFE, 0x77, 4] ++ putU16 21 ++ exampleCompleteFrame.drop 6)).2
      = [[0x87, 0xFE, 0x77, 4] ++ putU16 21 ++ exampleCompleteFrame.drop 6] ∧
    ((∃ m, Message.parse ([0x87, 0xFE, 0x77, 4] ++ putU16 21 ++ exampleCompleteFrame.drop 6)
        = .ok m) →
      ∀ rest, Connection.feed { msg_buf := [], msg_len := 0 }
          (([0x87, 0xFE, 0x77, 4] ++ putU16 21 ++ exampleCompleteFrame.drop 6) ++ rest)
        = ((Connection.feed { msg_buf := [], msg_len := 0 } rest).1,
            ([0x87, 0xFE, 0x77, 4] ++ putU16 21 ++ exampleCompleteFrame.drop 6) ::
              (Connection.feed { msg_buf := [], msg_len := 0 } rest).2)) :=
  frame_handed_at_last_byte 4 21 (exampleCompleteFrame.drop 6) (by decide) (by decide)
    (by decide) (by decide) (by decide)

end netwrk

namespace request

/-- A turn of a worker takes the front request or nothing, and the queue
before is the request taken followed by the queue afterwards. -/
theorem workerTurn_conserves (s : RequestBroker) :
    s.sm_req_list = s.workerTurn.2.toList ++ s.workerTurn.1.sm_req_list ∧
    s.workerTurn.1.sm_terminate = s.sm_terminate := by
  unfold RequestBroker.workerTurn
  split_ifs
  · exact ⟨rfl, rfl⟩
  · exact ⟨rfl, rfl⟩
  · cases h : s.sm_req_list with
    | nil => exact ⟨by simp [h], rfl⟩
    | cons req rest => exact ⟨rfl, rfl⟩

/-- Conservation along an interleaving: the queue at the start followed by
the requests enqueued is the requests taken followed by the queue at the
end. -/
theorem run_conserves (ops : List BrokerOp) :
    ∀ s : RequestBroker,
      s.sm_req_list ++ enqueued ops
        = (s.run ops).2.map Prod.snd ++ (s.run ops).1.sm_req_list := by
  induction ops with
  | nil =>
    intro s
    simp [RequestBroker.run, enqueued]
  | cons op ops ih =>
    intro s
    cases op with
    | queueRequest request =>
      have := ih (s.queueRequest request)
      simp only [RequestBroker.run, enqueued]
      rw [← this]
      simp [RequestBroker.queueRequest]
    | workerTurn worker =>
      have := ih s.workerTurn.1
      simp only [RequestBroker.run, enqueued, List.map_append, List.append_assoc]
      rw [← this, ← List.append_assoc]
      congr 1
      have hc := (workerTurn_conserves s).1
      cases h : s.workerTurn.2 with
      | none =>
        rw [h] at hc
        simpa using hc
      | some req =>
        rw [h] at hc
        simpa using hc
    | stopWorkers =>
      have := ih s.stopWorkers
      simp only [RequestBroker.run, enqueued]
      rw [← this]
      rfl

/-- The example interleaving: worker 1 takes request 10, worker 0 takes the
requests 11 and 12, and the last turn of worker 1 finds the queue empty. -/
theorem run_exampleOps :
    RequestBroker.run { sm_req_list := [], sm_terminate := false } exampleOps
      = ({ sm_req_list := [], sm_terminate := false }, [(1, 10), (0, 11), (0, 12)]) ∧
    enqueued exampleOps = [10, 11, 12] := by
  decide

/-- C34: for every interleaving of `queueRequest` calls, worker turns and
`stopWorkers`, started with an empty queue, the requests enqueued are the
requests taken by the workers, in the order in which they were taken,
followed by the queue at the end: the k-th request taken is the k-th request
enqueued, each request is taken at most once, by the one worker recorded with
it, and exactly once when the queue is empty at the end; a worker that holds
the mutex while the queue is not empty and the termination flag is not set
takes the front request. -/
theorem broker_dequeues_in_enqueue_order (ops : List BrokerOp) :
    enqueued ops
      = ((RequestBroker.run { sm_req_list := [], sm_terminate := false } ops).2.map Prod.snd) ++
        (RequestBroker.run { sm_req_list := [], sm_terminate := false } ops).1.sm_req_list ∧
    (∀ k w r : Nat,
      (RequestBroker.run { sm_req_list := [], sm_terminate := false } ops).2[k]? = some (w, r) →
      (enqueued ops)[k]? = some r) ∧
    ((RequestBroker.run { sm_req_list := [], sm_terminate := false } ops).1.sm_req_list = [] →
      (RequestBroker.run { sm_req_list := [], sm_terminate := false } ops).2.map Prod.snd
        = enqueued ops) ∧
    (∀ (req : Nat) (rest : List Nat),
      RequestBroker.workerTurn { sm_req_list := req :: rest, sm_terminate := false }
        = ({ sm_req_list := rest, sm_terminate := false }, some req)) := by
  have hc := run_conserves ops { sm_req_list := [], sm_terminate := false }
  rw [List.nil_append] at hc
  refine ⟨hc, ?_, ?_, fun _ _ => rfl⟩
  · intro k w r hk
    rw [hc]
    have hlt : k < (RequestBroker.run { sm_req_list := [], sm_terminate := false } ops).2.length := by
      by_contra hge
      rw [List.getElem?_eq_none (by omega)] at hk
      cases hk
    rw [List.getElem?_append_left (by rw [List.length_map]; exact hlt), List.getElem?_map, hk]
    rfl
  · intro hempty
    rw [hc, hempty, List.append_nil]

end request

namespace file
open proto

/-- What `nextMissingChunk(f)` computes on a sidecar shorter than 2^31 bytes:
the scan starts at the bitmap byte that holds chunk `f`, that is at chunk
`8 * (f / 8)`; either every byte from there on is 0xFF and the result is the
sentinel, or the result is decided by the first zero bit `q` from there on. -/
theorem nextMissingChunk_from_core (md : FileMetadata) (bytes : List Nat) (f : Nat)
    (h80 : md.header_size = 80) (hb : ∀ b ∈ bytes, b < 256)
    (hsmall : bytes.length < 2 ^ 31) (hf : f < 2 ^ 64) :
    ((∀ i b, 80 + f / 8 ≤ i → bytes[i]? = some b → b = 255) ∧
      md.nextMissingChunk (some bytes) f = UINT64_MAX) ∨
    (∃ q, 8 * (f / 8) ≤ q ∧ 80 + q / 8 < bytes.length ∧ chunkMarked bytes q = false ∧
      (∀ k, 8 * (f / 8) ≤ k → k < q → chunkMarked bytes k = true) ∧
      md.nextMissingChunk (some bytes) f = if q < md.file_n_chunks then q else UINT64_MAX) := by
  have hstart : (80 + f / 8) % 2 ^ 64 = 80 + f / 8 := Nat.mod_eq_of_lt (by omega)
  by_cases hall : ∀ b ∈ bytes.drop (80 + f / 8), b = 255
  · left
    constructor
    · intro i b hi hget
      apply hall
      have : (bytes.drop (80 + f / 8))[i - (80 + f / 8)]? = some b := by
        rw [List.getElem?_drop]
        rw [show 80 + f / 8 + (i - (80 + f / 8)) = i by omega]
        exact hget
      exact List.getElem?_mem this
    · simp only [FileMetadata.nextMissingChunk, h80, hstart, readWhileFF_all _ _ hall]
      simp
  · right
    have hex : ∃ b ∈ bytes.drop (80 + f / 8), b ≠ 255 := by
      by_contra hcon
      apply hall
      intro b hb'
      by_contra hne
      exact hcon ⟨b, hb', hne⟩
    obtain ⟨j, b, hj, hbne, hbefore, hr⟩ :=
      readWhileFF_first (bytes.drop (80 + f / 8)) (80 + f / 8) hex
    rw [List.getElem?_drop] at hj
    have hjlt : 80 + f / 8 + j < bytes.length := by
      by_contra hcon
      rw [List.getElem?_eq_none (by omega)] at hj
      cases hj
    have hb256 : b < 256 := hb b (List.getElem?_mem hj)
    obtain ⟨hc8, hczero, hcones⟩ := scanBits_byte b hb256 hbne
    have hscan : scanBits b 8 (8 * (f / 8 + j)) = 8 * (f / 8 + j) + scanBits b 8 0 :=
      scanBits_add b 8 (8 * (f / 8 + j)) (by omega)
    have hpos : 80 + f / 8 + j + 1 = 80 + (f / 8 + j) + 1 := by omega
    have hj' : bytes[80 + (f / 8 + j)]? = some b := by
      rw [← Nat.add_assoc]
      exact hj
    refine ⟨8 * (f / 8 + j) + scanBits b 8 0, by omega, ?_, ?_, ?_, ?_⟩
    · have : (8 * (f / 8 + j) + scanBits b 8 0) / 8 = f / 8 + j := by omega
      rw [this]
      omega
    · have h1 : (8 * (f / 8 + j) + scanBits b 8 0) / 8 = f / 8 + j := by omega
      have h2 : (8 * (f / 8 + j) + scanBits b 8 0) % 8 = scanBits b 8 0 := by omega
      rw [chunkMarked_of_byte bytes _ b (by rw [h1]; exact hj'), h2]
      exact hczero
    · intro k hlo hk
      by_cases hkj : k / 8 < f / 8 + j
      · have := hbefore (k / 8 - f / 8) (by omega)
        rw [List.getElem?_drop, show 80 + f / 8 + (k / 8 - f / 8) = 80 + k / 8 by omega] at this
        rw [chunkMarked_of_byte bytes k 255 this]
        have : k % 8 < 8 := Nat.mod_lt _ (by decide)
        generalize k % 8 = m at this
        interval_cases m <;> decide
      · have h1 : k / 8 = f / 8 + j := by omega
        have h2 : k % 8 < scanBits b 8 0 := by omega
        rw [chunkMarked_of_byte bytes k b (by rw [h1]; exact hj')]
        exact hcones _ h2
    · simp only [FileMetadata.nextMissingChunk, h80, hstart, hr]
      rw [if_pos hbne, hpos, toSizeT_tellg (f / 8 + j) (by omega), hscan]

/-- C29 (amended): on a sidecar of 80 header bytes and ceil(n_chunks / 8)
bitmap bytes that is shorter than 2^31 bytes, `nextMissingChunk(f)` searches
from the first chunk of the bitmap byte that holds chunk `f`, which is chunk
`8 * (f / 8)`: it returns the smallest unmarked chunk index `k` with
`8 * (f / 8) <= k < n_chunks`, and the sentinel if and only if there is no
such `k`; a result other than the sentinel is an unmarked chunk below
`n_chunks` that is not smaller than `8 * (f / 8)`, hence not smaller than `f`
when `f` is a multiple of 8. -/
theorem nextMissingChunk_from_byte_of_start (md : FileMetadata) (bytes : List Nat) (f : Nat)
    (h80 : md.header_size = 80)
    (hlen : bytes.length =
      80 + (md.file_n_chunks / 8 + (if md.file_n_chunks % 8 > 0 then 1 else 0)))
    (hb : ∀ b ∈ bytes, b < 256)
    (hsmall : bytes.length < 2 ^ 31) (hf : f < 2 ^ 64) :
    (∀ k, 8 * (f / 8) ≤ k → k < md.file_n_chunks → chunkMarked bytes k = false →
      (∀ j, 8 * (f / 8) ≤ j → j < k → chunkMarked bytes j = true) →
      md.nextMissingChunk (some bytes) f = k) ∧
    (md.nextMissingChunk (some bytes) f = UINT64_MAX ↔
      ∀ k, 8 * (f / 8) ≤ k → k < md.file_n_chunks → chunkMarked bytes k = true) ∧
    (md.nextMissingChunk (some bytes) f ≠ UINT64_MAX →
      8 * (f / 8) ≤ md.nextMissingChunk (some bytes) f ∧
      md.nextMissingChunk (some bytes) f < md.file_n_chunks ∧
      chunkMarked bytes (md.nextMissingChunk (some bytes) f) = false) ∧
    (f % 8 = 0 → md.nextMissingChunk (some bytes) f ≠ UINT64_MAX →
      f ≤ md.nextMissingChunk (some bytes) f) := by
  have hn : md.file_n_chunks < 2 ^ 34 := by
    rw [hlen] at hsmall
    split at hsmall <;> omega
  have hmax : UINT64_MAX = 2 ^ 64 - 1 := rfl
  have hmain : (∀ k, 8 * (f / 8) ≤ k → k < md.file_n_chunks → chunkMarked bytes k = false →
        (∀ j, 8 * (f / 8) ≤ j → j < k → chunkMarked bytes j = true) →
        md.nextMissingChunk (some bytes) f = k) ∧
      (md.nextMissingChunk (some bytes) f = UINT64_MAX ↔
        ∀ k, 8 * (f / 8) ≤ k → k < md.file_n_chunks → chunkMarked bytes k = true) ∧
      (md.nextMissingChunk (some bytes) f ≠ UINT64_MAX →
        8 * (f / 8) ≤ md.nextMissingChunk (some bytes) f ∧
        md.nextMissingChunk (some bytes) f < md.file_n_chunks ∧
        chunkMarked bytes (md.nextMissingChunk (some bytes) f) = false) := by
    rcases nextMissingChunk_from_core md bytes f h80 hb hsmall hf with
      ⟨hff, hr⟩ | ⟨q, hlo, hq, hq0, hq1, hr⟩
    · have hallm : ∀ k, 8 * (f / 8) ≤ k → k < md.file_n_chunks →
          chunkMarked bytes k = true := by
        intro k hk8 hk
        have hin : 80 + k / 8 < bytes.length := by
          rw [hlen]; split <;> omega
        have hget : bytes[80 + k / 8]? = some bytes[80 + k / 8] :=
          List.getElem?_eq_getElem hin
        have h255 := hff _ _ (by omega) hget
        rw [chunkMarked_of_byte bytes k _ hget, h255]
        have : k % 8 < 8 := Nat.mod_lt _ (by decide)
        generalize k % 8 = m at this
        interval_cases m <;> decide
      refine ⟨?_, ⟨fun _ => hallm, fun _ => hr⟩, fun hne => absurd hr hne⟩
      intro k hk8 hk hk0 _
      rw [hallm k hk8 hk] at hk0
      cases hk0
    · by_cases hqn : q < md.file_n_chunks
      · rw [if_pos hqn] at hr
        refine ⟨?_, ?_, ?_⟩
        · intro k hk8 hk hk0 hbefore
          rw [hr]
          rcases Nat.lt_trichotomy q k with h | h | h
          · have := hbefore q hlo h
            rw [hq0] at this
            cases this
          · exact h
          · have := hq1 k hk8 h
            rw [hk0] at this
            cases this
        · constructor
          · intro h
            rw [hr, hmax] at h
            omega
          · intro h
            have := h q hlo hqn
            rw [hq0] at this
            cases this
        · intro _
          rw [hr]
          exact ⟨hlo, hqn, hq0⟩
      · rw [if_neg hqn] at hr
        have hallm : ∀ k, 8 * (f / 8) ≤ k → k < md.file_n_chunks →
            chunkMarked bytes k = true :=
          fun k hk8 hk => hq1 k hk8 (by omega)
        refine ⟨?_, ⟨fun _ => hallm, fun _ => hr⟩, fun hne => absurd hr hne⟩
        intro k hk8 hk hk0 _
        rw [hallm k hk8 hk] at hk0
        cases hk0
  refine ⟨hmain.1, hmain.2.1, hmain.2.2, ?_⟩
  intro hf8 hne
  have := (hmain.2.2 hne).1
  omega

/-- Witness for C29 (amended): the sidecar of a three-chunk file with chunk 0
marked, searched from chunk 2. -/
theorem nextMissingChunk_from_byte_of_start_witness :
    (FileMetadata.new 10000 CHUNK_SIZE exampleHash).nextMissingChunk (some exampleSidecar) 2
      = 1 ∧
    (∀ k, 8 * (2 / 8) ≤ k → k < (FileMetadata.new 10000 CHUNK_SIZE exampleHash).file_n_chunks →
      chunkMarked exampleSidecar k = false →
      (∀ j, 8 * (2 / 8) ≤ j → j < k → chunkMarked exampleSidecar j = true) →
      (FileMetadata.new 10000 CHUNK_SIZE exampleHash).nextMissingChunk
        (some exampleSidecar) 2 = k) ∧
    ((FileMetadata.new 10000 CHUNK_SIZE exampleHash).nextMissingChunk
        (some exampleSidecar) 2 = UINT64_MAX ↔
      ∀ k, 8 * (2 / 8) ≤ k → k < (FileMetadata.new 10000 CHUNK_SIZE exampleHash).file_n_chunks →
        chunkMarked exampleSidecar k = true) ∧
    ((FileMetadata.new 10000 CHUNK_SIZE exampleHash).nextMissingChunk
        (some exampleSidecar) 2 ≠ UINT64_MAX →
      8 * (2 / 8) ≤ (FileMetadata.new 10000 CHUNK_SIZE exampleHash).nextMissingChunk
        (some exampleSidecar) 2 ∧
      (FileMetadata.new 10000 CHUNK_SIZE exampleHash).nextMissingChunk
        (some exampleSidecar) 2 < (FileMetadata.new 10000 CHUNK_SIZE exampleHash).file_n_chunks ∧
      chunkMarked exampleSidecar ((FileMetadata.new 10000 CHUNK_SIZE exampleHash).nextMissingChunk
        (some exampleSidecar) 2) = false) ∧
    (2 % 8 = 0 →
      (FileMetadata.new 10000 CHUNK_SIZE exampleHash).nextMissingChunk
        (some exampleSidecar) 2 ≠ UINT64_MAX →
      2 ≤ (FileMetadata.new 10000 CHUNK_SIZE exampleHash).nextMissingChunk
        (some exampleSidecar) 2) :=
  ⟨by decide,
    nextMissingChunk_from_byte_of_start (FileMetadata.new 10000 CHUNK_SIZE exampleHash)
      exampleSidecar 2 (by decide) (by decide) (by decide) (by decide) (by decide)⟩

end file

end ft
